import Mathlib

/-!
Verification of tcppow: a Merkle-tree proof of work behind a TCP admission gate.

A shallow embedding of `pkg/merkletree`, of the server and client wrappers in
`internal/pow/functions/merkletree`, of the challenge-response middleware in
`internal/pow/protocol/challengeresponse` and of the dispatch loop of
`internal/netprotocol/server`, followed by theorems about them.

Conventions of the embedding.

* A Go byte slice is a `List Nat`; a `nil` slice and an empty slice are both `[]`
  (`bytes.Equal` does not tell them apart).
* `pkg/merkletree` is embedded twice. With hashes as values (`List Nat`), which is what
  the code computes for a leaf type that returns every hash in a slice of its own, as
  `TreeContent` does (`mem_New_VerifyContent_sim`, `treeContent_fresh`). And with
  hashes as slices of a memory (`Mem`), where `append` writes into the capacity of its
  first argument and a stored hash can be a view of memory written later.
* A Go `(value, error)` result is an `Except String _` where the code drops the value
  on error, and a pair `_ × Option String` where the text of the claim speaks of pairs.
  `errors.WithMessage(err, m)` is the string `m ++ ": " ++ err`.
* `Exec` is the outcome of running a function: it returns, it panics (index out of
  range, a `make` of a negative or too large length), or the fuel of the model ran out.
* The digest functions of `crypto/sha256` and `crypto/sha512` are parameters
  (`Hashers`); `hash.Hash.Write` never returns an error.
* Slice indices and lengths are natural numbers; a Go slice has fewer than `2^62`
  elements, so that the shifts of `findK` and `New` do not wrap.
-/

namespace TcpPow

/-! ## pkg/merkletree -/

/-- A Go byte slice. -/
abbrev Bytes := List Nat

deriving instance DecidableEq for Except

/-- Outcome of running a Go function in the model. -/
inductive Exec (α : Type) where
  | ret (a : α)
  | panic (msg : String)
  | timeout
  deriving DecidableEq, Repr

/-- The interface `LeafContent`: the method table of a leaf type `α`. -/
structure LeafContent (α : Type) where
  CalculateHash : α → Except String Bytes
  Equals : α → α → Except String Bool

/-- The two values the field `HashStrategy func() hash.Hash` can hold. -/
inductive HashFn where
  | sha256
  | sha512
  deriving DecidableEq, Repr

/-- The digest functions `sha256.New` and `sha512.New` stand for (write, then `Sum(nil)`). -/
structure Hashers where
  sha256 : Bytes → Bytes
  sha512 : Bytes → Bytes

/-- Running a hash strategy on a byte string. -/
def Hashers.run (hs : Hashers) : HashFn → Bytes → Bytes
  | .sha256 => hs.sha256
  | .sha512 => hs.sha512

/-- The struct `Node`. -/
structure Node where
  Hash : Bytes
  deriving DecidableEq, Repr

/-- The struct `MerkleTree`. -/
structure MerkleTree (α : Type) where
  K : Int
  Leafs : List α
  Nodes : List Node
  HashStrategyName : String
  HashStrategy : HashFn
  deriving DecidableEq, Repr

def SHA_256 : String := "sha256"

def SHA_512 : String := "sha512"

/-- The function `concatenateHashes`, `append(h1, h2...)`, as a value: the bytes of `h1`
followed by those of `h2`. Where the bytes are written, in the capacity of `h1` or in new
memory, is followed in `Mem.concatenateHashes`. -/
def concatenateHashes (h1 h2 : Bytes) : Bytes := h1 ++ h2

/-- The method `calculateLeafNode`: `t.Leafs[leafIdx].CalculateHash()`. -/
def calculateLeafNode {α : Type} (ops : LeafContent α) (t : MerkleTree α) (leafIdx : Nat) :
    Exec (Except String Bytes) :=
  match t.Leafs[leafIdx]? with
  | none => .panic "index out of range"
  | some leaf =>
    match ops.CalculateHash leaf with
    | .error e => .ret (.error e)
    | .ok hash => .ret (.ok hash)

/-- The method `calculateNonLeafNode`: the hash strategy applied to the concatenation of
the two stored child hashes. -/
def calculateNonLeafNode {α : Type} (hs : Hashers) (t : MerkleTree α)
    (leftNodeIdx rightNodeIdx : Nat) : Exec Bytes :=
  match t.Nodes[leftNodeIdx]? with
  | none => .panic "index out of range"
  | some l =>
    match t.Nodes[rightNodeIdx]? with
    | none => .panic "index out of range"
    | some r => .ret (hs.run t.HashStrategy (concatenateHashes l.Hash r.Hash))

/-- The method `buildTree`, returning the tree after the call and the returned error.
`curNodeIdx >= N-1` is written `curNodeIdx + 1 ≥ N` and `curNodeIdx - (N-1)` is
`curNodeIdx + 1 - N`. The results of the two recursive calls are discarded, as in the
source; only a panic propagates. -/
def buildTree {α : Type} (hs : Hashers) (ops : LeafContent α) :
    Nat → MerkleTree α → Nat → Exec (MerkleTree α × Option String)
  | 0, _, _ => .timeout
  | fuel + 1, t, curNodeIdx =>
    let N := t.Leafs.length
    if curNodeIdx + 1 ≥ N then
      let nodeIdxInLeafs := curNodeIdx + 1 - N
      match calculateLeafNode ops t nodeIdxInLeafs with
      | .panic m => .panic m
      | .timeout => .timeout
      | .ret r =>
        if curNodeIdx < t.Nodes.length then
          match r with
          | .error e => .ret ({ t with Nodes := t.Nodes.set curNodeIdx ⟨[]⟩ }, some e)
          | .ok h => .ret ({ t with Nodes := t.Nodes.set curNodeIdx ⟨h⟩ }, none)
        else .panic "index out of range"
    else
      let leftNodeIdx := 2 * curNodeIdx + 1
      let rightNodeIdx := 2 * curNodeIdx + 2
      match buildTree hs ops fuel t leftNodeIdx with
      | .panic m => .panic m
      | .timeout => .timeout
      | .ret (t1, _) =>
        match buildTree hs ops fuel t1 rightNodeIdx with
        | .panic m => .panic m
        | .timeout => .timeout
        | .ret (t2, _) =>
          match calculateNonLeafNode hs t2 leftNodeIdx rightNodeIdx with
          | .panic m => .panic m
          | .timeout => .timeout
          | .ret h =>
            if curNodeIdx < t2.Nodes.length then
              .ret ({ t2 with Nodes := t2.Nodes.set curNodeIdx ⟨h⟩ }, none)
            else .panic "index out of range"

/-- The loop of `findK`: `for (val << K) < leafNr { K++ }` with `val = 1`. The loop leaves
at the latest when `K = leafNr`, so `leafNr` rounds are enough. -/
def findKLoop (leafNr : Nat) : Nat → Nat → Nat
  | 0, K => K
  | fuel + 1, K => if 1 <<< K < leafNr then findKLoop leafNr fuel (K + 1) else K

def findK (leafNr : Nat) : Nat := findKLoop leafNr leafNr 0

/-- The function `NewEmptyTree`. -/
def NewEmptyTree {α : Type} (hashStrategyName : String) : Except String (MerkleTree α) :=
  if hashStrategyName = SHA_256 then
    .ok { K := 0, Leafs := [], Nodes := [], HashStrategyName := hashStrategyName,
          HashStrategy := .sha256 }
  else if hashStrategyName = SHA_512 then
    .ok { K := 0, Leafs := [], Nodes := [], HashStrategyName := hashStrategyName,
          HashStrategy := .sha512 }
  else .error "invalid hash strategy"

/-- The loop of `New` that fills `tree.Leafs`: `i` is the loop counter, the first
argument the number of rounds left. -/
def fillLeafs {α : Type} (leafs : List α) : Nat → Nat → List α → Exec (List α)
  | 0, _, acc => .ret acc
  | rounds + 1, i, acc =>
    if i < leafs.length then
      match leafs[i]? with
      | none => .panic "index out of range"
      | some x => fillLeafs leafs rounds (i + 1) (acc ++ [x])
    else
      match leafs[leafs.length - 1]? with
      | none => .panic "index out of range"
      | some duplicate => fillLeafs leafs rounds (i + 1) (acc ++ [duplicate])

/-- The function `New`. The recursion of `buildTree` from the root is `K + 1` calls deep. -/
def New {α : Type} (hs : Hashers) (ops : LeafContent α) (leafs : List α)
    (hashStrategyName : String) : Exec (Except String (MerkleTree α)) :=
  let K := findK leafs.length
  if K < 2 then .ret (.error "count of leafs should be >= 4 for reliability")
  else
    let leafsNumber := 1 <<< K
    let totalNumberOfNodes := 1 * ((2 <<< K) - 1) / (2 - 1)
    match (NewEmptyTree hashStrategyName : Except String (MerkleTree α)) with
    | .error e => .ret (.error e)
    | .ok tree =>
      match fillLeafs leafs leafsNumber 0 [] with
      | .panic m => .panic m
      | .timeout => .timeout
      | .ret filled =>
        let tree1 : MerkleTree α :=
          { tree with K := (K : Int), Leafs := filled,
                      Nodes := List.replicate totalNumberOfNodes ⟨[]⟩ }
        match buildTree hs ops (K + 1) tree1 0 with
        | .panic m => .panic m
        | .timeout => .timeout
        | .ret (_, some e) => .ret (.error ("building tree: " ++ e))
        | .ret (tree2, none) => .ret (.ok tree2)

/-- The inner loop of `VerifyContent`: from `curNodeIdx` up to the root, recompute each
node from its two stored children and compare with the stored hash. -/
def verifyPath {α : Type} (hs : Hashers) (t : MerkleTree α) :
    Nat → Nat → Exec (Bool × Option String)
  | 0, _ => .timeout
  | fuel + 1, curNodeIdx =>
    match calculateNonLeafNode hs t (2 * curNodeIdx + 1) (2 * curNodeIdx + 2) with
    | .panic m => .panic m
    | .timeout => .timeout
    | .ret nodeHash =>
      match t.Nodes[curNodeIdx]? with
      | none => .panic "index out of range"
      | some stored =>
        if nodeHash ≠ stored.Hash then .ret (false, none)
        else if curNodeIdx = 0 then .ret (true, none)
        else verifyPath hs t fuel ((curNodeIdx - 1) / 2)

/-- The body of the outer loop of `VerifyContent` for the leaf at `leafIdx` that `Equals`
has accepted: compare the hash of the leaf with its stored node, then walk to the root.
The index of a parent is smaller than the index of the node, so `curNodeIdx + 1` rounds
of the inner loop are enough. -/
def verifyLeafAt {α : Type} (hs : Hashers) (ops : LeafContent α) (t : MerkleTree α)
    (leafIdx : Nat) : Exec (Bool × Option String) :=
  let N := t.Leafs.length
  let nodeIdx := leafIdx + N - 1
  match calculateLeafNode ops t leafIdx with
  | .panic m => .panic m
  | .timeout => .timeout
  | .ret (.error e) => .ret (false, some e)
  | .ret (.ok leafHash) =>
    match t.Nodes[nodeIdx]? with
    | none => .panic "index out of range"
    | some stored =>
      if leafHash ≠ stored.Hash then .ret (false, none)
      else
        let curNodeIdx := (nodeIdx - 1) / 2
        verifyPath hs t (curNodeIdx + 1) curNodeIdx

/-- The outer loop of `VerifyContent` over the leaves that are left, `leafIdx` being the
index of the first of them: the first leaf that `Equals` accepts decides the result. -/
def verifyLeafs {α : Type} (hs : Hashers) (ops : LeafContent α) (t : MerkleTree α)
    (content : α) : List α → Nat → Exec (Bool × Option String)
  | [], _ => .ret (false, none)
  | leaf :: rest, leafIdx =>
    match ops.Equals leaf content with
    | .error e => .ret (false, some e)
    | .ok false => verifyLeafs hs ops t content rest (leafIdx + 1)
    | .ok true => verifyLeafAt hs ops t leafIdx

/-- The method `VerifyContent`. -/
def VerifyContent {α : Type} (hs : Hashers) (ops : LeafContent α) (t : MerkleTree α)
    (content : α) : Exec (Bool × Option String) :=
  verifyLeafs hs ops t content t.Leafs 0

/-! ### A small instance used to evaluate the definitions -/

/-- Leaves that are numbers, hashed to a one-byte string, compared by equality. -/
def natLeaf : LeafContent Nat where
  CalculateHash := fun n => .ok [n]
  Equals := fun a b => .ok (a == b)

/-- Two digest functions that differ on every input. -/
def toyHashers : Hashers where
  sha256 := fun b => 0 :: b
  sha512 := fun b => 1 :: b

/-! ### Specification-side notions for the tree -/

/-- The digest a leaf node stores after `buildTree`: the hash of the leaf, or `nil` when
`CalculateHash` failed or there is no such leaf. -/
def leafDigest {α : Type} (ops : LeafContent α) (leafs : List α) (i : Nat) : Bytes :=
  match leafs[i]? with
  | none => []
  | some leaf =>
    match ops.CalculateHash leaf with
    | .error _ => []
    | .ok h => h

/-- The hash node `j` is expected to hold in a tree over `leafs`: the digest of its leaf
for a node of the last layer, the hash of its two children's expected hashes above. -/
def expectedHash {α : Type} (hs : Hashers) (hf : HashFn) (ops : LeafContent α)
    (leafs : List α) (j : Nat) : Bytes :=
  if h : j + 1 ≥ leafs.length then leafDigest ops leafs (j + 1 - leafs.length)
  else
    hs.run hf (concatenateHashes (expectedHash hs hf ops leafs (2 * j + 1))
      (expectedHash hs hf ops leafs (2 * j + 2)))
termination_by leafs.length - j
decreasing_by all_goals omega

/-- Node `j` lies in the subtree of node `c`, at most `d` layers below it. -/
def inSub : Nat → Nat → Nat → Prop
  | 0, c, j => j = c
  | d + 1, c, j => j = c ∨ inSub d (2 * c + 1) j ∨ inSub d (2 * c + 2) j

/-- The index of the parent of a node, as `VerifyContent` computes it. -/
def parentIdx (j : Nat) : Nat := (j - 1) / 2

/-- The hash invariant of a tree: every node of the last layer holds the hash of its leaf
and every node above holds the hash of the concatenation of its two children. -/
def HashInvariant {α : Type} (hs : Hashers) (ops : LeafContent α) (t : MerkleTree α) : Prop :=
  (∀ i, i < t.Leafs.length → ∃ leaf h, t.Leafs[i]? = some leaf ∧
      ops.CalculateHash leaf = .ok h ∧ t.Nodes[i + t.Leafs.length - 1]? = some ⟨h⟩) ∧
  (∀ j, j + 1 < t.Leafs.length → ∃ l r, t.Nodes[2 * j + 1]? = some l ∧
      t.Nodes[2 * j + 2]? = some r ∧
      t.Nodes[j]? = some ⟨hs.run t.HashStrategy (concatenateHashes l.Hash r.Hash)⟩)

/-- What `New` builds from `leafs` with hash strategy `hf`. -/
structure Built {α : Type} (hs : Hashers) (ops : LeafContent α) (leafs : List α)
    (hf : HashFn) (name : String) (t : MerkleTree α) : Prop where
  hK : t.K = (findK leafs.length : Int)
  hname : t.HashStrategyName = name
  hfn : t.HashStrategy = hf
  hlen : t.Leafs.length = 2 ^ findK leafs.length
  hleafs : ∀ i, i < 2 ^ findK leafs.length →
    t.Leafs[i]? = if i < leafs.length then leafs[i]? else leafs[leafs.length - 1]?
  hnodesLen : t.Nodes.length = 2 ^ (findK leafs.length + 1) - 1
  hnodes : ∀ j, j < 2 ^ (findK leafs.length + 1) - 1 →
    t.Nodes[j]? = some ⟨expectedHash hs hf ops t.Leafs j⟩

/-- The hash strategy a supported algorithm name selects. -/
def hashFnOfName (name : String) : Option HashFn :=
  if name = SHA_256 then some .sha256 else if name = SHA_512 then some .sha512 else none

/-- The tree `New` returns for the leaves `7, 8, 9` under `toyHashers` and `"sha256"`. -/
def natTree : MerkleTree Nat :=
  { K := 2, Leafs := [7, 8, 9, 9],
    Nodes := [⟨[0, 0, 7, 8, 0, 9, 9]⟩, ⟨[0, 7, 8]⟩, ⟨[0, 9, 9]⟩, ⟨[7]⟩, ⟨[8]⟩, ⟨[9]⟩, ⟨[9]⟩],
    HashStrategyName := "sha256", HashStrategy := .sha256 }

/-- Replacing the stored hash of node `j`. -/
def tamper {α : Type} (t : MerkleTree α) (j : Nat) (h : Bytes) : MerkleTree α :=
  { t with Nodes := t.Nodes.set j ⟨h⟩ }

/-- The tree `New` returns for the leaves `1, ..., 5` under `toyHashers` and `"sha256"`:
the fifth leaf is repeated three times to fill the eight places. -/
def paddedTree : MerkleTree Nat :=
  { K := 3, Leafs := [1, 2, 3, 4, 5, 5, 5, 5],
    Nodes := [⟨[0, 0, 0, 1, 2, 0, 3, 4, 0, 0, 5, 5, 0, 5, 5]⟩, ⟨[0, 0, 1, 2, 0, 3, 4]⟩,
              ⟨[0, 0, 5, 5, 0, 5, 5]⟩, ⟨[0, 1, 2]⟩, ⟨[0, 3, 4]⟩, ⟨[0, 5, 5]⟩, ⟨[0, 5, 5]⟩,
              ⟨[1]⟩, ⟨[2]⟩, ⟨[3]⟩, ⟨[4]⟩, ⟨[5]⟩, ⟨[5]⟩, ⟨[5]⟩, ⟨[5]⟩],
    HashStrategyName := "sha256", HashStrategy := .sha256 }

/-! ## internal/netprotocol -/

/-- The keys under which values are stored in a connection context. The key types of the
two packages are unexported, so no other package can build these two keys. -/
inductive CtxKey where
  | connRequestChallengeKey
  | connRequestAccessEnabledKey
  | other (name : String)
  deriving DecidableEq, Repr

/-- The struct `TreeContent` of the wrapper package. -/
structure TreeContent where
  X : String
  deriving DecidableEq, Repr

/-- The dynamically typed values a context can hold. -/
inductive CtxVal where
  | bool (b : Bool)
  | challenge (data : List TreeContent)
  | other (tag : String)
  deriving DecidableEq, Repr

/-- A `context.Context`, as the chain of the values added by `context.WithValue`, the
last one first; `context.Background()` is the empty chain. -/
abbrev Context := List (CtxKey × CtxVal)

def Context.Background : Context := []

def Context.WithValue (parent : Context) (key : CtxKey) (val : CtxVal) : Context :=
  (key, val) :: parent

/-- The method `Value`: the value added last under the key, `nil` (`none`) without one. -/
def Context.Value : Context → CtxKey → Option CtxVal
  | [], _ => none
  | (k, v) :: parent, key => if k = key then some v else Context.Value parent key

/-- The struct `Request`; a body is a value of the type `β` of encoded payloads, or `nil`. -/
structure Request (β : Type) where
  Method : String
  Body : Option β
  ConnContext : Context
  RequestContext : Context
  deriving DecidableEq, Repr

def OK : Nat := 200

def BAD_REQUEST : Nat := 400

def METHOD_NOT_ALLOWED : Nat := 405

def INTERNAL_SERVER_ERROR : Nat := 500

/-- The struct `Response`. -/
structure Response (β : Type) where
  Status : Nat
  Body : Option β
  deriving DecidableEq, Repr

/-- What a call `ServeTCPPOW(resp, req)` leaves behind: the state `ω` of everything
outside the request (the random source, the downstream service), the response and the
request after the call, and the returned error. -/
structure Served (ω β : Type) where
  world : ω
  resp : Response β
  req : Request β
  err : Option String

/-- The interface `Handler` (and the methods of `ServerFunction`, which have the same
signature). -/
abbrev Handler (ω β : Type) := ω → Response β → Request β → Exec (Served ω β)

/-! ## internal/pow/functions/merkletree -/

/-- The conversion `[]byte(s)`: the UTF-8 bytes of a string. -/
def stringBytes (s : String) : Bytes :=
  (s.toList.flatMap String.utf8EncodeChar).map UInt8.toNat

/-- The methods `CalculateHash` and `Equals` of `TreeContent`. `CalculateHash` uses
SHA-256 whatever the hash strategy of the tree; the type assertion of `Equals` cannot fail
on a `TreeContent`, the only leaf type of the model. -/
def treeContentOps (hs : Hashers) : LeafContent TreeContent where
  CalculateHash := fun t => .ok (hs.sha256 (stringBytes t.X))
  Equals := fun t other => .ok (t.X == other.X)

/-- The global source of `math/rand`: an arbitrary stream of non-negative integers and the
number of values drawn so far. -/
structure Rand where
  stream : Nat → Nat
  pos : Nat

/-- The function `rand.Int`. -/
def Rand.Int (r : Rand) : Nat × Rand := (r.stream r.pos, { r with pos := r.pos + 1 })

/-- The function `rand.Intn(n)` for `n > 0`: any value below `n`. -/
def Rand.Intn (r : Rand) (n : Nat) : Nat × Rand :=
  (r.stream r.pos % n, { r with pos := r.pos + 1 })

def letters : List Char := "abcdefghijklmnopqrstuvwxyzABCDEFGHIJKLMNOPQRSTUVWXYZ".toList

/-- The loop of `randString` over the `n` runes. -/
def randRunes : Nat → Rand → List Char × Rand
  | 0, r => ([], r)
  | n + 1, r =>
    let d := r.Intn letters.length
    let rest := randRunes n d.2
    (letters.getD d.1 'a' :: rest.1, rest.2)

/-- The largest number of bytes the runtime gives to one slice (`maxAlloc` in
`runtime/malloc.go`, with 48 address bits on the 64-bit platforms). -/
def maxAlloc : Nat := 2 ^ 48

/-- The test `make([]T, n)` runs before it allocates (`makeslice`), for elements of `size`
bytes: a negative `n`, or more than `maxAlloc` bytes in all, is a panic. Memory that the
machine cannot give within this limit ends the process and is not modelled: the machine is
taken to have the memory that is asked for. -/
def makeslicePanics (size : Nat) (n : Int) : Bool :=
  decide (n < 0 ∨ (maxAlloc : Int) < (size : Int) * n)

/-- The function `randString`; `make([]rune, n)`, a rune taking 4 bytes, panics for a
negative `n` and for an `n` beyond the limit of the runtime. -/
def randString (r : Rand) (n : Int) : Exec (String × Rand) :=
  if makeslicePanics 4 n then .panic "makeslice: len out of range"
  else
    let b := randRunes n.toNat r
    .ret (String.mk b.1, b.2)

/-- The struct `MTServerWrapper`. -/
structure MTServerWrapper where
  dataBlockCount : Int
  dataBlockSize : Int
  treeHashAlgo : String
  deriving DecidableEq, Repr

/-- The struct `MTClientWrapper`. -/
structure MTClientWrapper where
  treeHashAlgo : String
  deriving DecidableEq, Repr

/-- The fields of a `MerkleTree` that `encoding/gob` transmits: a field of function type
(`HashStrategy`) is ignored by the encoder and by the decoder. -/
structure GobTree where
  K : Int
  Leafs : List TreeContent
  Nodes : List Node
  HashStrategyName : String
  deriving DecidableEq, Repr

def MerkleTree.toGob (t : MerkleTree TreeContent) : GobTree :=
  { K := t.K, Leafs := t.Leafs, Nodes := t.Nodes, HashStrategyName := t.HashStrategyName }

/-- The calls into `encoding/json` and `encoding/gob`, over the type `β` of encoded
payloads: marshalling and unmarshalling of `mtChallenge`, of `mtResponse` and of a tree. -/
structure Codec (β : Type) where
  jsonMarshalChallenge : List TreeContent → Except String β
  jsonUnmarshalChallenge : β → Except String (List TreeContent)
  gobEncode : GobTree → Except String β
  gobDecode : β → Except String GobTree
  jsonMarshalResponse : β → Except String β
  jsonUnmarshalResponse : β → Except String β

/-- The codecs decode what they encoded. -/
structure Codec.Lawful {β : Type} (codec : Codec β) : Prop where
  challenge : ∀ d, ∃ b, codec.jsonMarshalChallenge d = .ok b ∧
    codec.jsonUnmarshalChallenge b = .ok d
  gob : ∀ g, ∃ b, codec.gobEncode g = .ok b ∧ codec.gobDecode b = .ok g
  response : ∀ x, ∃ b, codec.jsonMarshalResponse x = .ok b ∧
    codec.jsonUnmarshalResponse b = .ok x

/-- Unmarshalling a body that may be `nil`: `json.Unmarshal` fails on an empty input. -/
def unmarshalBody {β γ : Type} (f : β → Except String γ) : Option β → Except String γ
  | none => .error "unexpected end of JSON input"
  | some b => f b

/-- The loop of `RequestChallenge` that fills `data`. -/
def genBlocks (size : Int) : Nat → Rand → Exec (List TreeContent × Rand)
  | 0, r => .ret ([], r)
  | n + 1, r =>
    match randString r size with
    | .panic m => .panic m
    | .timeout => .timeout
    | .ret (s, r1) =>
      match genBlocks size n r1 with
      | .panic m => .panic m
      | .timeout => .timeout
      | .ret (rest, r2) => .ret ({ X := s } :: rest, r2)

/-- The method `MTServerWrapper.RequestChallenge`; `make([]TreeContent, n)`, a
`TreeContent` being a string header of 16 bytes, panics for a negative `n` and for an `n`
beyond the limit of the runtime. -/
def MTServerWrapper.RequestChallenge {β : Type} (f : MTServerWrapper) (codec : Codec β) :
    Handler Rand β := fun r resp req =>
  if makeslicePanics 16 f.dataBlockCount then .panic "makeslice: len out of range"
  else
    match genBlocks f.dataBlockSize f.dataBlockCount.toNat r with
    | .panic m => .panic m
    | .timeout => .timeout
    | .ret (data, r1) =>
      let req1 : Request β :=
        { req with ConnContext :=
            req.ConnContext.WithValue .connRequestChallengeKey (.challenge data) }
      match codec.jsonMarshalChallenge data with
      | .error e =>
        .ret { world := r1, resp := resp, req := req1,
               err := some ("json marshaling of merkle tree: " ++ e) }
      | .ok challengeJsonBytes =>
        .ret { world := r1, resp := { Status := OK, Body := some challengeJsonBytes },
               req := req1, err := none }

/-- The tree after `dec.Decode(&newTree)`: the transmitted fields overwrite those of
`newTree`, a field transmitted as its zero value is left as it was, and `HashStrategy`
is the one `NewEmptyTree` has set. -/
def decodeInto (newTree : MerkleTree TreeContent) (g : GobTree) : MerkleTree TreeContent :=
  { K := if g.K = 0 then newTree.K else g.K,
    Leafs := if g.Leafs = [] then newTree.Leafs else g.Leafs,
    Nodes := if g.Nodes = [] then newTree.Nodes else g.Nodes,
    HashStrategyName :=
      if g.HashStrategyName = "" then newTree.HashStrategyName else g.HashStrategyName,
    HashStrategy := newTree.HashStrategy }

/-- The last part of `VerifyChallengeResponse`, once `contentToVerify` is chosen. -/
def verifyResponseBody {β : Type} (f : MTServerWrapper) (hs : Hashers) (codec : Codec β)
    (contentToVerify : TreeContent) (r : Rand) (resp : Response β) (req : Request β) :
    Exec (Served Rand β) :=
  match unmarshalBody codec.jsonUnmarshalResponse req.Body with
  | .error e =>
    .ret { world := r, resp := resp, req := req,
           err := some ("unmarshalling client response: " ++ e) }
  | .ok mTreeBytes =>
    match (NewEmptyTree f.treeHashAlgo : Except String (MerkleTree TreeContent)) with
    | .error e =>
      .ret { world := r, resp := resp, req := req,
             err := some ("creating new empty merkle tree: " ++ e) }
    | .ok newTree =>
      match codec.gobDecode mTreeBytes with
      | .error e =>
        .ret { world := r, resp := resp, req := req,
               err := some ("gob decoding client response tree: " ++ e) }
      | .ok g =>
        match VerifyContent hs (treeContentOps hs) (decodeInto newTree g) contentToVerify with
        | .panic m => .panic m
        | .timeout => .timeout
        | .ret (_, some e) =>
          .ret { world := r, resp := resp, req := req,
                 err := some ("merkle tree verifying: " ++ e) }
        | .ret (false, none) =>
          .ret { world := r, resp := resp, req := req,
                 err := some "tree content not found in the tree" }
        | .ret (true, none) =>
          .ret { world := r, resp := { Status := OK, Body := none }, req := req, err := none }

/-- The method `MTServerWrapper.VerifyChallengeResponse`. Without a value under the
challenge key, `contentToVerify` stays the zero `TreeContent`; `rand.Int() % 0` panics. -/
def MTServerWrapper.VerifyChallengeResponse {β : Type} (f : MTServerWrapper) (hs : Hashers)
    (codec : Codec β) : Handler Rand β := fun r resp req =>
  match req.ConnContext.Value .connRequestChallengeKey with
  | none => verifyResponseBody f hs codec { X := "" } r resp req
  | some (.challenge challengdeData) =>
    if challengdeData.length = 0 then .panic "integer divide by zero"
    else
      let d := r.Int
      let randIdxToVerify := d.1 % challengdeData.length
      match challengdeData[randIdxToVerify]? with
      | none => .panic "index out of range"
      | some contentToVerify => verifyResponseBody f hs codec contentToVerify d.2 resp req
  | some _ =>
    .ret { world := r, resp := resp, req := req,
           err := some "challenge data type assertion failed" }

/-- The method `MTClientWrapper.SolveChallenge`. -/
def MTClientWrapper.SolveChallenge {β : Type} (f : MTClientWrapper) (hs : Hashers)
    (codec : Codec β) (rawChallengePayload : Option β) : Exec (Except String β) :=
  match unmarshalBody codec.jsonUnmarshalChallenge rawChallengePayload with
  | .error e => .ret (.error e)
  | .ok data =>
    match New hs (treeContentOps hs) data f.treeHashAlgo with
    | .panic m => .panic m
    | .timeout => .timeout
    | .ret (.error e) => .ret (.error ("building merkle tree: " ++ e))
    | .ret (.ok tree) =>
      match codec.gobEncode tree.toGob with
      | .error e => .ret (.error ("gob encoding: " ++ e))
      | .ok gobBytesTree =>
        match codec.jsonMarshalResponse gobBytesTree with
        | .error e => .ret (.error ("json marshaling of merkle tree: " ++ e))
        | .ok mtRespJsonBytes => .ret (.ok mtRespJsonBytes)

/-! ## internal/pow/protocol/challengeresponse and the dispatch loop of the server -/

/-- The interface `ServerFunction`. -/
structure ServerFunction (ω β : Type) where
  RequestChallenge : Handler ω β
  VerifyChallengeResponse : Handler ω β

/-- The Merkle-tree wrapper as a `ServerFunction`. -/
def MTServerWrapper.serverFunction {β : Type} (f : MTServerWrapper) (hs : Hashers)
    (codec : Codec β) : ServerFunction Rand β where
  RequestChallenge := f.RequestChallenge codec
  VerifyChallengeResponse := f.VerifyChallengeResponse hs codec

/-- The struct `ChallengeResponseHandler`. -/
structure ChallengeResponseHandler (ω β : Type) where
  next : Handler ω β
  powFn : ServerFunction ω β

/-- The calls a handler makes to its collaborators. -/
inductive Call where
  | next
  | powRequestChallenge
  | powVerifyChallengeResponse
  deriving DecidableEq, Repr

/-- The method `requestChallenge`. -/
def ChallengeResponseHandler.requestChallenge {ω β : Type}
    (h : ChallengeResponseHandler ω β) (w : ω) (resp : Response β) (req : Request β) :
    List Call × Exec (Served ω β) :=
  ([.powRequestChallenge], h.powFn.RequestChallenge w resp req)

/-- The method `verifyChallengeResponse`. -/
def ChallengeResponseHandler.verifyChallengeResponse {ω β : Type}
    (h : ChallengeResponseHandler ω β) (w : ω) (resp : Response β) (req : Request β) :
    List Call × Exec (Served ω β) :=
  ([.powVerifyChallengeResponse],
    match h.powFn.VerifyChallengeResponse w resp req with
    | .panic m => .panic m
    | .timeout => .timeout
    | .ret out =>
      match out.err with
      | some e => .ret { out with err := some ("verifying challenge response: " ++ e) }
      | none =>
        .ret { out with
               req := { out.req with ConnContext :=
                 out.req.ConnContext.WithValue .connRequestAccessEnabledKey (.bool true) },
               err := none })

/-- The method `ChallengeResponseHandler.ServeTCPPOW`, with the calls it makes to the
downstream handler and to the PoW function. -/
def ChallengeResponseHandler.ServeTCPPOW {ω β : Type} (h : ChallengeResponseHandler ω β)
    (w : ω) (resp : Response β) (req : Request β) : List Call × Exec (Served ω β) :=
  let dispatch : List Call × Exec (Served ω β) :=
    if req.Method = "request-challenge" then h.requestChallenge w resp req
    else if req.Method = "verify-challenge" then h.verifyChallengeResponse w resp req
    else
      ([], .ret { world := w, resp := { resp with Status := METHOD_NOT_ALLOWED }, req := req,
                  err := some "invalid method" })
  match req.ConnContext.Value .connRequestAccessEnabledKey with
  | none => dispatch
  | some (.bool accessEnabled) =>
    if accessEnabled then ([.next], h.next w resp req) else dispatch
  | some _ =>
    ([], .ret { world := w, resp := resp, req := req,
                err := some "accessEnabled type assertion failed" })

/-- What `serveConnection` writes to the connection. -/
inductive Written (β : Type) where
  | status (code : Nat)
  | body (b : Option β)
  deriving DecidableEq, Repr

/-- The loop of `serveConnection` over the requests read from the connection (method and
body, already framed): for each request served, the calls made and what is written. An
error of the handler writes the status 500 and ends the loop. -/
def serveConnection {ω β : Type}
    (handler : ω → Response β → Request β → List Call × Exec (Served ω β)) :
    ω → Context → List (String × β) → List (List Call × Exec (List (Written β)))
  | _, _, [] => []
  | w, connCtx, (method, body) :: rest =>
    let request : Request β :=
      { Method := method, Body := some body, ConnContext := connCtx,
        RequestContext := Context.Background }
    let response : Response β := { Status := 0, Body := none }
    match handler w response request with
    | (calls, .panic m) => [(calls, .panic m)]
    | (calls, .timeout) => [(calls, .timeout)]
    | (calls, .ret out) =>
      match out.err with
      | some _ => [(calls, .ret [.status INTERNAL_SERVER_ERROR])]
      | none =>
        (calls, .ret [.status out.resp.Status, .body out.resp.Body]) ::
          serveConnection handler out.world out.req.ConnContext rest

/-- The loop of `serveConnection` over the requests read from the connection, a body
being `nil` when its line is blank; for each request served, the calls made and the whole
outcome of the handler: the response with its status and body, the error, the request as
the handler leaves it. The loop goes on with the connection context of the request served,
and ends when the handler returns an error or does not return. -/
def serveRequests {ω β : Type}
    (handler : ω → Response β → Request β → List Call × Exec (Served ω β)) :
    ω → Context → List (String × Option β) → List (List Call × Exec (Served ω β))
  | _, _, [] => []
  | w, connCtx, (method, body) :: rest =>
    let request : Request β :=
      { Method := method, Body := body, ConnContext := connCtx,
        RequestContext := Context.Background }
    let response : Response β := { Status := 0, Body := none }
    match handler w response request with
    | (calls, .panic m) => [(calls, .panic m)]
    | (calls, .timeout) => [(calls, .timeout)]
    | (calls, .ret out) =>
      match out.err with
      | some _ => [(calls, .ret out)]
      | none => (calls, .ret out) :: serveRequests handler out.world out.req.ConnContext rest

/-- The connection context carries the access flag. -/
def Admitted (ctx : Context) : Prop :=
  ctx.Value .connRequestAccessEnabledKey = some (.bool true)

/-- The connection context carries no access flag (or a false one). -/
def Unadmitted (ctx : Context) : Prop :=
  ctx.Value .connRequestAccessEnabledKey = none ∨
  ctx.Value .connRequestAccessEnabledKey = some (.bool false)

/-- The value a call returned, if it returned. -/
def Exec.returned {α : Type} : Exec α → Option α
  | .ret a => some a
  | _ => none

/-! ### A symbolic wire format used to evaluate the definitions -/

/-- Encoded payloads that are just the value that was encoded. -/
inductive Wire where
  | challenge (d : List TreeContent)
  | gob (g : GobTree)
  | response (inner : Wire)
  | junk
  deriving DecidableEq, Repr

def wireCodec : Codec Wire where
  jsonMarshalChallenge := fun d => .ok (.challenge d)
  jsonUnmarshalChallenge := fun b =>
    match b with
    | .challenge d => .ok d
    | _ => .error "invalid character"
  gobEncode := fun g => .ok (.gob g)
  gobDecode := fun b =>
    match b with
    | .gob g => .ok g
    | _ => .error "unexpected EOF"
  jsonMarshalResponse := fun x => .ok (.response x)
  jsonUnmarshalResponse := fun b =>
    match b with
    | .response x => .ok x
    | _ => .error "invalid character"

/-- A random source that always draws zero. -/
def zeroRand : Rand := { stream := fun _ => 0, pos := 0 }

/-- The tree `t` read with another hash strategy. -/
def withStrategy {α : Type} (t : MerkleTree α) (hf : HashFn) : MerkleTree α :=
  { t with HashStrategy := hf }

/-- The three blocks `zeroRand` draws for a block size of two. -/
def issuedData : List TreeContent := [{ X := "aa" }, { X := "aa" }, { X := "aa" }]

/-- What `RequestChallenge` leaves for three blocks of size two drawn from `zeroRand`, on a
fresh connection. -/
def issued : Served Rand Wire :=
  { world := { stream := fun _ => 0, pos := 6 },
    resp := { Status := OK, Body := some (.challenge issuedData) },
    req := { Method := "request-challenge", Body := none,
             ConnContext := [(.connRequestChallengeKey, .challenge issuedData)],
             RequestContext := Context.Background },
    err := none }

/-- The tree a client with `"sha512"` builds over `issuedData` under `toyHashers`. -/
def solvedTree : MerkleTree TreeContent :=
  { K := 2, Leafs := [{ X := "aa" }, { X := "aa" }, { X := "aa" }, { X := "aa" }],
    Nodes := [⟨[1, 1, 0, 97, 97, 0, 97, 97, 1, 0, 97, 97, 0, 97, 97]⟩,
              ⟨[1, 0, 97, 97, 0, 97, 97]⟩, ⟨[1, 0, 97, 97, 0, 97, 97]⟩,
              ⟨[0, 97, 97]⟩, ⟨[0, 97, 97]⟩, ⟨[0, 97, 97]⟩, ⟨[0, 97, 97]⟩],
    HashStrategyName := "sha512", HashStrategy := .sha512 }

/-- A tree built by a client that was given no challenge: `New` over three empty blocks
with `"sha256"`, under `toyHashers`. -/
def forgedTree : MerkleTree TreeContent :=
  { K := 2, Leafs := [{ X := "" }, { X := "" }, { X := "" }, { X := "" }],
    Nodes := [⟨[0, 0, 0, 0, 0, 0, 0]⟩, ⟨[0, 0, 0]⟩, ⟨[0, 0, 0]⟩, ⟨[0]⟩, ⟨[0]⟩, ⟨[0]⟩, ⟨[0]⟩],
    HashStrategyName := "sha256", HashStrategy := .sha256 }

/-- A downstream handler that answers every request with status OK. -/
def echoHandler : Handler Rand Wire := fun w _ req =>
  .ret { world := w, resp := { Status := OK, Body := some .junk }, req := req, err := none }

/-- The middleware over `echoHandler` and the Merkle-tree wrapper with the given algorithm. -/
def toyMiddleware (algo : String) : ChallengeResponseHandler Rand Wire where
  next := echoHandler
  powFn := MTServerWrapper.serverFunction
    { dataBlockCount := 3, dataBlockSize := 2, treeHashAlgo := algo } toyHashers wireCodec

/-- The verify-challenge request that carries `solvedTree`, on the connection on which
`issued` was served. -/
def solvedRequest : Request Wire :=
  { Method := "verify-challenge", Body := some (.response (.gob solvedTree.toGob)),
    ConnContext := issued.req.ConnContext, RequestContext := Context.Background }

/-- What the middleware with `"sha512"` leaves after `solvedRequest`. -/
def admittedOut : Served Rand Wire :=
  { world := { stream := fun _ => 0, pos := 1 },
    resp := { Status := OK, Body := none },
    req := { solvedRequest with
             ConnContext := [(.connRequestAccessEnabledKey, .bool true),
                             (.connRequestChallengeKey, .challenge issuedData)] },
    err := none }

/-- A verify-challenge request that carries `forgedTree`, sent on a fresh connection,
without any request-challenge before it. -/
def forgedRequest : Request Wire :=
  { Method := "verify-challenge", Body := some (.response (.gob forgedTree.toGob)),
    ConnContext := Context.Background, RequestContext := Context.Background }

/-! ### The arithmetic of `findK` on 64-bit integers -/

/-- The value of an integer expression in Go's `int` on a 64-bit platform: wrapped into
`[-2^63, 2^63)`. -/
def wrapInt64 (x : Int) : Int := (x + 2 ^ 63) % 2 ^ 64 - 2 ^ 63

/-- The shift `val << K` on `int`: the product wrapped, and zero for a count of 64 or more. -/
def shl64 (val : Int) (K : Nat) : Int :=
  if K < 64 then wrapInt64 (val * 2 ^ K) else 0

/-- The loop of `findK` with the arithmetic of `int`; `none` when the rounds run out. -/
def findK64Loop (leafNr : Int) : Nat → Nat → Option Nat
  | 0, _ => none
  | fuel + 1, K => if shl64 1 K < leafNr then findK64Loop leafNr fuel (K + 1) else some K

/-- The function `findK` on `int`, run for at most 64 rounds. -/
def findK64 (leafNr : Int) : Option Nat := findK64Loop leafNr 64 0

/-! ### Instances used to evaluate the error paths -/

/-- Leaves that are numbers, where hashing the leaf `8` fails. -/
def failingLeaf : LeafContent Nat where
  CalculateHash := fun n => if n = 8 then .error "hash failed" else .ok [n]
  Equals := fun a b => .ok (a == b)

/-- A tree a client can submit: one leaf and no node. -/
def hostileTree : MerkleTree TreeContent :=
  { K := 0, Leafs := [{ X := "" }], Nodes := [], HashStrategyName := "sha256",
    HashStrategy := .sha256 }

/-- The verify-challenge request that carries `hostileTree`. -/
def hostileRequest : Request Wire :=
  { Method := "verify-challenge", Body := some (.response (.gob hostileTree.toGob)),
    ConnContext := Context.Background, RequestContext := Context.Background }

/-! ## internal/netprotocol/server: the Mux and the whole of serveConnection -/

/-- The struct `Mux`: the map from method names to handlers, as the list of the
registrations, the last one first. -/
structure Mux (ω β : Type) where
  mux : List (String × Handler ω β)

def NewMux {ω β : Type} : Mux ω β := { mux := [] }

/-- The method `HandleFunc`: `m.mux[pattern] = HandlerFunc(handler)`. -/
def Mux.HandleFunc {ω β : Type} (m : Mux ω β) (pattern : String) (handler : Handler ω β) :
    Mux ω β :=
  { mux := (pattern, handler) :: m.mux }

/-- The map lookup `m.mux[method]`: the handler registered last under the name. -/
def Mux.lookup {ω β : Type} : List (String × Handler ω β) → String → Option (Handler ω β)
  | [], _ => none
  | (pattern, handler) :: rest, method =>
    if pattern = method then some handler else Mux.lookup rest method

/-- The method `Mux.ServeTCPPOW`, with the names of the registered handlers it invokes. -/
def Mux.ServeTCPPOW {ω β : Type} (m : Mux ω β) (w : ω) (resp : Response β)
    (req : Request β) : List String × Exec (Served ω β) :=
  match Mux.lookup m.mux req.Method with
  | none =>
    ([], .ret { world := w, resp := { resp with Status := METHOD_NOT_ALLOWED }, req := req,
                err := none })
  | some handler => ([req.Method], handler w resp req)

/-- The functions of the standard library that `serveConnection` applies to what it reads:
`strings.TrimSpace` and `bytes.TrimSpace` (one function on the bytes), and the method name
that a string of bytes is. -/
structure TextLib where
  TrimSpace : Bytes → Bytes
  asString : Bytes → String

/-- What the claims use of `TrimSpace`: a line feed at the end is white space, and nothing
is left of an empty line. -/
structure TextLib.Sound (lib : TextLib) : Prop where
  lineFeed : ∀ l, lib.TrimSpace (l ++ [10]) = lib.TrimSpace l
  empty : lib.TrimSpace [] = []

/-- The calls `reader.ReadString('\n')` and `reader.ReadBytes('\n')` on the input that is
left: the line with its delimiter and the rest of the input, or `none` when the stream ends
before a delimiter (`io.EOF`, whatever was read). -/
def readLine : Bytes → Option (Bytes × Bytes)
  | [] => none
  | b :: rest =>
    if b = 10 then some ([10], rest)
    else
      match readLine rest with
      | none => none
      | some (line, rest1) => some (b :: line, rest1)

/-- The bytes `writeStatus` writes: `fmt.Sprintf("Status %d\n", status)`. -/
def statusLine (status : Nat) : Bytes :=
  stringBytes ("Status " ++ toString status ++ "\n")

/-- The result of `bytes.TrimSpace` as a request body: `nil` when nothing is left. -/
def bodyOf (b : Bytes) : Option Bytes := if b = [] then none else some b

/-- The bytes of a response body, `nil` being no byte. -/
def bodyBytes : Option Bytes → Bytes
  | none => []
  | some b => b

/-- A run of `serveConnection`: the requests the handler was called with, the bytes
written to the connection, and how the function ended. -/
structure ConnRun where
  requests : List (Request Bytes)
  written : Bytes
  ended : Exec Unit
  deriving DecidableEq, Repr

/-- The loop of `serveConnection` on the bytes the peer sends before it closes the stream.
Reading and writing do not fail otherwise. Every round consumes input, so the rounds are
bounded by the length of the input. -/
def serveLoop {ω : Type} (lib : TextLib) (handler : Handler ω Bytes) :
    Nat → ω → Context → Bytes → ConnRun
  | 0, _, _, _ => { requests := [], written := [], ended := .timeout }
  | fuel + 1, w, connCtx, input =>
    match readLine input with
    | none => { requests := [], written := [], ended := .ret () }
    | some (methodLine, rest1) =>
      let method := lib.asString (lib.TrimSpace methodLine)
      match readLine rest1 with
      | none => { requests := [], written := statusLine BAD_REQUEST, ended := .ret () }
      | some (bodyLine, rest2) =>
        let body := lib.TrimSpace bodyLine
        let request : Request Bytes :=
          { Method := method, Body := bodyOf body, ConnContext := connCtx,
            RequestContext := Context.Background }
        let response : Response Bytes := { Status := 0, Body := none }
        match handler w response request with
        | .panic m => { requests := [request], written := [], ended := .panic m }
        | .timeout => { requests := [request], written := [], ended := .timeout }
        | .ret out =>
          match out.err with
          | some _ =>
            { requests := [request], written := statusLine INTERNAL_SERVER_ERROR,
              ended := .ret () }
          | none =>
            let after := serveLoop lib handler fuel out.world out.req.ConnContext rest2
            { requests := request :: after.requests,
              written := statusLine out.resp.Status ++ (bodyBytes out.resp.Body ++ [10]) ++
                after.written,
              ended := after.ended }

/-- The loop from a given state of the connection, with enough rounds for the input. -/
def serveFrom {ω : Type} (lib : TextLib) (handler : Handler ω Bytes) (w : ω)
    (connCtx : Context) (input : Bytes) : ConnRun :=
  serveLoop lib handler (input.length + 1) w connCtx input

/-- The function `serveConnection` on the bytes of a connection. -/
def serveConnectionBytes {ω : Type} (lib : TextLib) (handler : Handler ω Bytes) (w : ω)
    (input : Bytes) : ConnRun :=
  serveFrom lib handler w Context.Background input

/-- The white space of ASCII. -/
def asciiSpace (b : Nat) : Bool := b = 9 ∨ b = 10 ∨ b = 11 ∨ b = 12 ∨ b = 13 ∨ b = 32

/-- The library functions restricted to ASCII, used to evaluate the loop. -/
def asciiLib : TextLib where
  TrimSpace := fun l => (l.rdropWhile asciiSpace).dropWhile asciiSpace
  asString := fun b => String.mk (b.map Char.ofNat)

/-- A handler that answers status OK with the request body as the response body. -/
def echoBytes : Handler Unit Bytes := fun w _ req =>
  .ret { world := w, resp := { Status := OK, Body := req.Body }, req := req, err := none }

/-- A handler that fails after writing a status into the response. -/
def failingBytes : Handler Unit Bytes := fun w _ req =>
  .ret { world := w, resp := { Status := OK, Body := req.Body }, req := req,
         err := some "some-internal-error" }

/-- A Mux with the one method of the service, answered by `echoBytes`. -/
def wisdomMux : Mux Unit Bytes := NewMux.HandleFunc "get-wisdom" echoBytes

/-- The middleware in front of `wisdomMux`; its PoW function is never reached on an
admitted connection. -/
def wisdomMiddleware : ChallengeResponseHandler Unit Bytes where
  next := fun w resp req => (wisdomMux.ServeTCPPOW w resp req).2
  powFn := { RequestChallenge := echoBytes, VerifyChallengeResponse := echoBytes }

/-- A connection context that carries the access flag. -/
def admittedCtx : Context :=
  Context.Background.WithValue .connRequestAccessEnabledKey (.bool true)

/-! ## pkg/merkletree with byte slices as views of memory

The definitions above take a hash as the value of its bytes. That is what the code
computes as long as no two hashes share memory: `concatenateHashes` is
`append(h1, h2...)`, which writes the bytes of `h2` behind those of `h1` in the memory of
`h1` when `h1` has the capacity for them, and `buildTree` stores the slice that
`CalculateHash` returns without copying it. The definitions below follow the slices
through memory. -/

/-- A byte slice as Go holds it: the address of its first byte, its length and its
capacity. The `nil` slice has length and capacity zero. -/
structure Slice where
  ptr : Nat
  len : Nat
  cap : Nat
  deriving DecidableEq, Repr

/-- The memory of the process: the byte at every address, and the first address that no
allocation has handed out yet. -/
structure Memory where
  bytes : Nat → Nat
  brk : Nat

/-- The bytes a slice shows. -/
def Memory.read (m : Memory) (s : Slice) : Bytes :=
  (List.range s.len).map (fun k => m.bytes (s.ptr + k))

/-- Writing the bytes `v` from the address `p` on. -/
def Memory.write (m : Memory) (p : Nat) (v : Bytes) : Memory :=
  { m with bytes := fun a => if p ≤ a ∧ a < p + v.length then v.getD (a - p) 0 else m.bytes a }

/-- A new slice that holds the bytes `v`, in memory not handed out before, without spare
capacity. -/
def Memory.alloc (m : Memory) (v : Bytes) : Memory × Slice :=
  ({ bytes := (m.write m.brk v).bytes, brk := m.brk + v.length },
   { ptr := m.brk, len := v.length, cap := v.length })

/-- The struct `Node`, holding its hash as a slice. -/
structure Mem.Node where
  Hash : Slice
  deriving DecidableEq, Repr

/-- The struct `MerkleTree`, with nodes that hold slices. -/
structure Mem.MerkleTree (α : Type) where
  K : Int
  Leafs : List α
  Nodes : List Mem.Node
  HashStrategyName : String
  HashStrategy : HashFn
  deriving DecidableEq, Repr

/-- The interface `LeafContent` for leaf types whose `CalculateHash` returns a slice of
memory and may write to memory on the way. -/
structure Mem.LeafContent (α : Type) where
  CalculateHash : α → Memory → Memory × Except String Slice
  Equals : α → α → Except String Bool

/-- The function `concatenateHashes`: `append(h1, h2...)`. With capacity left in `h1` the
bytes of `h2` are written behind those of `h1`, in place; otherwise the bytes of both are
copied to new memory. -/
def Mem.concatenateHashes (m : Memory) (h1 h2 : Slice) : Memory × Slice :=
  if h1.len + h2.len ≤ h1.cap then
    (m.write (h1.ptr + h1.len) (m.read h2), { h1 with len := h1.len + h2.len })
  else m.alloc (m.read h1 ++ m.read h2)

/-- The method `calculateLeafNode`. -/
def Mem.calculateLeafNode {α : Type} (ops : Mem.LeafContent α) (m : Memory)
    (t : Mem.MerkleTree α) (leafIdx : Nat) : Exec (Memory × Except String Slice) :=
  match t.Leafs[leafIdx]? with
  | none => .panic "index out of range"
  | some leaf => .ret (ops.CalculateHash leaf m)

/-- The method `calculateNonLeafNode`: the digest of the concatenation, which
`hasher.Sum(nil)` returns in new memory. -/
def Mem.calculateNonLeafNode {α : Type} (hs : Hashers) (m : Memory) (t : Mem.MerkleTree α)
    (leftNodeIdx rightNodeIdx : Nat) : Exec (Memory × Slice) :=
  match t.Nodes[leftNodeIdx]? with
  | none => .panic "index out of range"
  | some l =>
    match t.Nodes[rightNodeIdx]? with
    | none => .panic "index out of range"
    | some r =>
      let c := Mem.concatenateHashes m l.Hash r.Hash
      .ret (c.1.alloc (hs.run t.HashStrategy (c.1.read c.2)))

/-- The method `buildTree`, on memory. -/
def Mem.buildTree {α : Type} (hs : Hashers) (ops : Mem.LeafContent α) :
    Nat → Memory → Mem.MerkleTree α → Nat → Exec (Memory × Mem.MerkleTree α × Option String)
  | 0, _, _, _ => .timeout
  | fuel + 1, m, t, curNodeIdx =>
    let N := t.Leafs.length
    if curNodeIdx + 1 ≥ N then
      let nodeIdxInLeafs := curNodeIdx + 1 - N
      match Mem.calculateLeafNode ops m t nodeIdxInLeafs with
      | .panic msg => .panic msg
      | .timeout => .timeout
      | .ret (m1, r) =>
        if curNodeIdx < t.Nodes.length then
          match r with
          | .error e =>
            .ret (m1, { t with Nodes := t.Nodes.set curNodeIdx ⟨⟨0, 0, 0⟩⟩ }, some e)
          | .ok h => .ret (m1, { t with Nodes := t.Nodes.set curNodeIdx ⟨h⟩ }, none)
        else .panic "index out of range"
    else
      let leftNodeIdx := 2 * curNodeIdx + 1
      let rightNodeIdx := 2 * curNodeIdx + 2
      match Mem.buildTree hs ops fuel m t leftNodeIdx with
      | .panic msg => .panic msg
      | .timeout => .timeout
      | .ret (m1, t1, _) =>
        match Mem.buildTree hs ops fuel m1 t1 rightNodeIdx with
        | .panic msg => .panic msg
        | .timeout => .timeout
        | .ret (m2, t2, _) =>
          match Mem.calculateNonLeafNode hs m2 t2 leftNodeIdx rightNodeIdx with
          | .panic msg => .panic msg
          | .timeout => .timeout
          | .ret (m3, h) =>
            if curNodeIdx < t2.Nodes.length then
              .ret (m3, { t2 with Nodes := t2.Nodes.set curNodeIdx ⟨h⟩ }, none)
            else .panic "index out of range"

/-- The function `NewEmptyTree`, for a tree on memory. -/
def Mem.NewEmptyTree {α : Type} (hashStrategyName : String) :
    Except String (Mem.MerkleTree α) :=
  if hashStrategyName = SHA_256 then
    .ok { K := 0, Leafs := [], Nodes := [], HashStrategyName := hashStrategyName,
          HashStrategy := .sha256 }
  else if hashStrategyName = SHA_512 then
    .ok { K := 0, Leafs := [], Nodes := [], HashStrategyName := hashStrategyName,
          HashStrategy := .sha512 }
  else .error "invalid hash strategy"

/-- The function `New`, on memory; `make([]Node, n)` gives nodes with `nil` hashes. -/
def Mem.New {α : Type} (hs : Hashers) (ops : Mem.LeafContent α) (m : Memory)
    (leafs : List α) (hashStrategyName : String) :
    Exec (Memory × Except String (Mem.MerkleTree α)) :=
  let K := findK leafs.length
  if K < 2 then .ret (m, .error "count of leafs should be >= 4 for reliability")
  else
    let leafsNumber := 1 <<< K
    let totalNumberOfNodes := 1 * ((2 <<< K) - 1) / (2 - 1)
    match (Mem.NewEmptyTree hashStrategyName : Except String (Mem.MerkleTree α)) with
    | .error e => .ret (m, .error e)
    | .ok tree =>
      match fillLeafs leafs leafsNumber 0 [] with
      | .panic msg => .panic msg
      | .timeout => .timeout
      | .ret filled =>
        let tree1 : Mem.MerkleTree α :=
          { tree with K := (K : Int), Leafs := filled,
                      Nodes := List.replicate totalNumberOfNodes ⟨⟨0, 0, 0⟩⟩ }
        match Mem.buildTree hs ops (K + 1) m tree1 0 with
        | .panic msg => .panic msg
        | .timeout => .timeout
        | .ret (m1, _, some e) => .ret (m1, .error ("building tree: " ++ e))
        | .ret (m1, tree2, none) => .ret (m1, .ok tree2)

/-- The inner loop of `VerifyContent`, on memory. -/
def Mem.verifyPath {α : Type} (hs : Hashers) (t : Mem.MerkleTree α) :
    Nat → Memory → Nat → Exec (Memory × (Bool × Option String))
  | 0, _, _ => .timeout
  | fuel + 1, m, curNodeIdx =>
    match Mem.calculateNonLeafNode hs m t (2 * curNodeIdx + 1) (2 * curNodeIdx + 2) with
    | .panic msg => .panic msg
    | .timeout => .timeout
    | .ret (m1, nodeHash) =>
      match t.Nodes[curNodeIdx]? with
      | none => .panic "index out of range"
      | some stored =>
        if m1.read nodeHash ≠ m1.read stored.Hash then .ret (m1, (false, none))
        else if curNodeIdx = 0 then .ret (m1, (true, none))
        else Mem.verifyPath hs t fuel m1 ((curNodeIdx - 1) / 2)

/-- The body of the outer loop of `VerifyContent` for the accepted leaf, on memory. -/
def Mem.verifyLeafAt {α : Type} (hs : Hashers) (ops : Mem.LeafContent α) (m : Memory)
    (t : Mem.MerkleTree α) (leafIdx : Nat) : Exec (Memory × (Bool × Option String)) :=
  let N := t.Leafs.length
  let nodeIdx := leafIdx + N - 1
  match Mem.calculateLeafNode ops m t leafIdx with
  | .panic msg => .panic msg
  | .timeout => .timeout
  | .ret (m1, .error e) => .ret (m1, (false, some e))
  | .ret (m1, .ok leafHash) =>
    match t.Nodes[nodeIdx]? with
    | none => .panic "index out of range"
    | some stored =>
      if m1.read leafHash ≠ m1.read stored.Hash then .ret (m1, (false, none))
      else
        let curNodeIdx := (nodeIdx - 1) / 2
        Mem.verifyPath hs t (curNodeIdx + 1) m1 curNodeIdx

/-- The outer loop of `VerifyContent`, on memory. -/
def Mem.verifyLeafs {α : Type} (hs : Hashers) (ops : Mem.LeafContent α) (m : Memory)
    (t : Mem.MerkleTree α) (content : α) : List α → Nat → Exec (Memory × (Bool × Option String))
  | [], _ => .ret (m, (false, none))
  | leaf :: rest, leafIdx =>
    match ops.Equals leaf content with
    | .error e => .ret (m, (false, some e))
    | .ok false => Mem.verifyLeafs hs ops m t content rest (leafIdx + 1)
    | .ok true => Mem.verifyLeafAt hs ops m t leafIdx

/-- The method `VerifyContent`, on memory. -/
def Mem.VerifyContent {α : Type} (hs : Hashers) (ops : Mem.LeafContent α) (m : Memory)
    (t : Mem.MerkleTree α) (content : α) : Exec (Memory × (Bool × Option String)) :=
  Mem.verifyLeafs hs ops m t content t.Leafs 0

/-- The tree of values that a tree of slices shows in a memory. -/
def Mem.readTree {α : Type} (m : Memory) (t : Mem.MerkleTree α) : TcpPow.MerkleTree α :=
  { K := t.K, Leafs := t.Leafs,
    Nodes := t.Nodes.map (fun n => TcpPow.Node.mk (m.read n.Hash)),
    HashStrategyName := t.HashStrategyName, HashStrategy := t.HashStrategy }

/-- The tree `New` returns, as the values its nodes show when `New` returns. -/
def Mem.newValues {α : Type} (hs : Hashers) (ops : Mem.LeafContent α) (m : Memory)
    (leafs : List α) (hashStrategyName : String) :
    Exec (Except String (TcpPow.MerkleTree α)) :=
  match Mem.New hs ops m leafs hashStrategyName with
  | .panic msg => .panic msg
  | .timeout => .timeout
  | .ret (_, .error e) => .ret (.error e)
  | .ret (m1, .ok t) => .ret (.ok (Mem.readTree m1 t))

/-- The result of `VerifyContent` on the tree `New` has just returned. -/
def Mem.verifyAfterNew {α : Type} (hs : Hashers) (ops : Mem.LeafContent α) (m : Memory)
    (leafs : List α) (hashStrategyName : String) (content : α) :
    Exec (Bool × Option String) :=
  match Mem.New hs ops m leafs hashStrategyName with
  | .panic msg => .panic msg
  | .timeout => .timeout
  | .ret (_, .error e) => .ret (false, some e)
  | .ret (m1, .ok t) =>
    match Mem.VerifyContent hs ops m1 t content with
    | .panic msg => .panic msg
    | .timeout => .timeout
    | .ret (_, r) => .ret r

/-- The result of a call without the memory it leaves. -/
def Exec.value {β : Type} : Exec (Memory × β) → Exec β
  | .ret (_, b) => .ret b
  | .panic msg => .panic msg
  | .timeout => .timeout

/-- The slices of the nodes own their memory: every slice lies, with its capacity, in
memory that has been handed out, and no two nodes share a byte of their capacities. -/
def Mem.Owned (m : Memory) (nodes : List Mem.Node) : Prop :=
  (∀ (i : Nat) (n : Mem.Node), nodes[i]? = some n → n.Hash.len ≤ n.Hash.cap ∧ n.Hash.ptr + n.Hash.cap ≤ m.brk) ∧
  (∀ (i j : Nat) (ni nj : Mem.Node), i ≠ j → nodes[i]? = some ni → nodes[j]? = some nj →
    ni.Hash.ptr + ni.Hash.cap ≤ nj.Hash.ptr ∨ nj.Hash.ptr + nj.Hash.cap ≤ ni.Hash.ptr)

/-- A leaf type whose `CalculateHash` returns its hash in a slice of its own: the call
leaves the memory handed out before as it was, the slice it returns lies, with its
capacity, in memory handed out during the call, and the bytes or the error it returns are
those of `hashOf`, a function of the leaf alone. -/
def Mem.Fresh {α : Type} (ops : Mem.LeafContent α) (hashOf : α → Except String Bytes) : Prop :=
  ∀ leaf m, m.brk ≤ (ops.CalculateHash leaf m).1.brk ∧
    (∀ a, a < m.brk → (ops.CalculateHash leaf m).1.bytes a = m.bytes a) ∧
    match (ops.CalculateHash leaf m).2 with
    | .error e => hashOf leaf = .error e
    | .ok s => s.len ≤ s.cap ∧ m.brk ≤ s.ptr ∧
        s.ptr + s.cap ≤ (ops.CalculateHash leaf m).1.brk ∧
        hashOf leaf = .ok ((ops.CalculateHash leaf m).1.read s)

/-- The leaf type with hashes as values that a leaf type on memory shows. -/
def Mem.LeafContent.values {α : Type} (ops : Mem.LeafContent α)
    (hashOf : α → Except String Bytes) : TcpPow.LeafContent α :=
  { CalculateHash := hashOf, Equals := ops.Equals }

/-- Replacing the stored hash of node `j` by a new slice that holds the bytes `h`. -/
def Mem.tamper {α : Type} (m : Memory) (t : Mem.MerkleTree α) (j : Nat) (h : Bytes) :
    Memory × Mem.MerkleTree α :=
  ((m.alloc h).1, { t with Nodes := t.Nodes.set j ⟨(m.alloc h).2⟩ })

/-- A leaf type that returns the hash of a leaf, the leaf itself as one byte, in a new
slice. -/
def freshLeaf : Mem.LeafContent Nat where
  CalculateHash := fun leaf m => ((m.alloc [leaf]).1, .ok (m.alloc [leaf]).2)
  Equals := fun a b => .ok (decide (a = b))

/-- A memory in which nothing has been handed out. -/
def emptyMemory : Memory := { bytes := fun _ => 0, brk := 0 }

/-- The methods of `TreeContent` on memory: `h.Sum(nil)` returns the digest in a slice
that it allocates, of the length of the digest. -/
def Mem.treeContentOps (hs : Hashers) : Mem.LeafContent TreeContent where
  CalculateHash := fun t m =>
    ((m.alloc (hs.sha256 (stringBytes t.X))).1, .ok (m.alloc (hs.sha256 (stringBytes t.X))).2)
  Equals := fun t other => .ok (t.X == other.X)

/-- The result of `VerifyContent` on the tree `New` has just returned, after the stored
hash of node `j` was replaced by a new slice that holds the bytes `h`. -/
def Mem.verifyTamperedAfterNew {α : Type} (hs : Hashers) (ops : Mem.LeafContent α)
    (m : Memory) (leafs : List α) (hashStrategyName : String) (j : Nat) (h : Bytes)
    (content : α) : Exec (Bool × Option String) :=
  match Mem.New hs ops m leafs hashStrategyName with
  | .panic msg => .panic msg
  | .timeout => .timeout
  | .ret (_, .error e) => .ret (false, some e)
  | .ret (m1, .ok t) =>
    (Mem.VerifyContent hs ops (Mem.tamper m1 t j h).1 (Mem.tamper m1 t j h).2 content).value

/-- A leaf type whose hashes are views of one buffer of four bytes at the addresses 0 to 3:
the leaf `(pos, b)` writes its byte `b` at `pos` at every call of `CalculateHash` and
returns the slice `buf[pos : pos+1]`, whose capacity reaches the end of the buffer. The
hash of a leaf is the same byte at every call, and no call fails. -/
def viewLeaf : Mem.LeafContent (Nat × Nat) where
  CalculateHash := fun leaf m =>
    (m.write leaf.1 [leaf.2], .ok { ptr := leaf.1, len := 1, cap := 4 - leaf.1 })
  Equals := fun a b => .ok (decide (a = b))

/-- The memory that holds the buffer of `viewLeaf` and nothing else. -/
def viewMemory : Memory := { bytes := fun _ => 0, brk := 4 }

/-- Four leaves of `viewLeaf`, with the hashes 11, 12, 13, 14 at the places 2, 1, 0, 3 of
the buffer. -/
def viewLeafs : List (Nat × Nat) := [(2, 11), (1, 12), (0, 13), (3, 14)]

/-- The tree `New` returns for `viewLeafs` under `toyHashers` and `"sha256"`, as the values
its nodes show when `New` returns. -/
def viewTree : MerkleTree (Nat × Nat) :=
  { K := 2, Leafs := [(2, 11), (1, 12), (0, 13), (3, 14)],
    Nodes := [⟨[0, 0, 11, 12, 0, 13, 14]⟩, ⟨[0, 11, 12]⟩, ⟨[0, 13, 14]⟩, ⟨[11]⟩, ⟨[14]⟩,
              ⟨[13]⟩, ⟨[14]⟩],
    HashStrategyName := "sha256", HashStrategy := .sha256 }

/-- The tree `New` returns for the leaves `1, ..., 5` of `freshLeaf` under `toyHashers` and
`"sha256"`, from the empty memory. -/
def freshTree : Mem.MerkleTree Nat :=
  { K := 3, Leafs := [1, 2, 3, 4, 5, 5, 5, 5],
    Nodes := [⟨⟨68, 15, 15⟩⟩, ⟨⟨20, 7, 7⟩⟩, ⟨⟨47, 7, 7⟩⟩, ⟨⟨4, 3, 3⟩⟩, ⟨⟨11, 3, 3⟩⟩,
              ⟨⟨31, 3, 3⟩⟩, ⟨⟨38, 3, 3⟩⟩, ⟨⟨0, 1, 1⟩⟩, ⟨⟨1, 1, 1⟩⟩, ⟨⟨7, 1, 1⟩⟩, ⟨⟨8, 1, 1⟩⟩,
              ⟨⟨27, 1, 1⟩⟩, ⟨⟨28, 1, 1⟩⟩, ⟨⟨34, 1, 1⟩⟩, ⟨⟨35, 1, 1⟩⟩],
    HashStrategyName := "sha256", HashStrategy := .sha256 }

/-- The memory `New` leaves when it returns `freshTree`. -/
def freshMemory : Memory :=
  match Mem.New toyHashers freshLeaf emptyMemory [1, 2, 3, 4, 5] "sha256" with
  | .ret (m, _) => m
  | _ => emptyMemory

/-! ## Theorems -/

/-! ### findK -/

theorem findKLoop_spec (n : Nat) : ∀ fuel K, (K = 0 ∨ 2 ^ (K - 1) < n) → n ≤ 2 ^ (K + fuel) →
    n ≤ 2 ^ findKLoop n fuel K ∧ (findKLoop n fuel K = 0 ∨ 2 ^ (findKLoop n fuel K - 1) < n) := by
  intro fuel
  induction fuel with
  | zero => intro K h1 h2; simpa [findKLoop] using ⟨h2, h1⟩
  | succ f ih =>
    intro K h1 h2
    simp only [findKLoop, Nat.one_shiftLeft]
    split
    · rename_i hlt
      apply ih
      · right; simpa using hlt
      · have : K + 1 + f = K + (f + 1) := by omega
        rw [this]; exact h2
    · rename_i hge
      exact ⟨by omega, h1⟩

theorem findK_spec (n : Nat) :
    n ≤ 2 ^ findK n ∧ (findK n = 0 ∨ 2 ^ (findK n - 1) < n) := by
  unfold findK
  apply findKLoop_spec
  · left; rfl
  · simpa using (Nat.lt_two_pow n).le

theorem findK_eq_clog (n : Nat) : findK n = Nat.clog 2 n := by
  obtain ⟨h1, h2⟩ := findK_spec n
  apply le_antisymm
  · rcases h2 with h0 | hlt
    · omega
    · have := (Nat.pow_lt_iff_lt_clog (by decide : 1 < 2)).1 hlt
      omega
  · exact (Nat.le_pow_iff_clog_le (by decide : 1 < 2)).1 h1

theorem findK_ge_two_iff (n : Nat) : 2 ≤ findK n ↔ 3 ≤ n := by
  obtain ⟨h1, h2⟩ := findK_spec n
  constructor
  · intro h
    rcases h2 with h0 | hlt
    · omega
    · have : 2 ^ 1 ≤ 2 ^ (findK n - 1) := Nat.pow_le_pow_right (by decide) (by omega)
      omega
  · intro h
    by_contra hc
    have : 2 ^ findK n ≤ 2 ^ 1 := Nat.pow_le_pow_right (by decide) (by omega)
    omega

/-! ### The leaves of a new tree -/

theorem fillLeafs_spec {α : Type} (leafs : List α) (hne : 0 < leafs.length) :
    ∀ rounds i acc, ∃ out, fillLeafs leafs rounds i acc = .ret out ∧
      out.length = acc.length + rounds ∧
      (∀ k, k < acc.length → out[k]? = acc[k]?) ∧
      (∀ k, k < rounds → out[acc.length + k]? =
        if i + k < leafs.length then leafs[i + k]? else leafs[leafs.length - 1]?) := by
  intro rounds
  induction rounds with
  | zero => intro i acc; exact ⟨acc, rfl, rfl, fun _ _ => rfl, fun k hk => absurd hk (by omega)⟩
  | succ r ih =>
    intro i acc
    have key : ∀ x, (if i < leafs.length then leafs[i]? else leafs[leafs.length - 1]?) = some x →
        ∃ out, fillLeafs leafs r (i + 1) (acc ++ [x]) = .ret out ∧
          out.length = acc.length + (r + 1) ∧
          (∀ k, k < acc.length → out[k]? = acc[k]?) ∧
          (∀ k, k < r + 1 → out[acc.length + k]? =
            if i + k < leafs.length then leafs[i + k]? else leafs[leafs.length - 1]?) := by
      intro x hx
      obtain ⟨out, h1, h2, h3, h4⟩ := ih (i + 1) (acc ++ [x])
      refine ⟨out, h1, ?_, ?_, ?_⟩
      · simp at h2; omega
      · intro k hk
        rw [h3 k (by simp; omega), List.getElem?_append_left hk]
      · intro k hk
        rcases Nat.eq_zero_or_pos k with hk0 | hkpos
        · subst hk0
          rw [Nat.add_zero, h3 _ (by simp), List.getElem?_append_right (le_refl _)]
          simpa using hx.symm
        · have := h4 (k - 1) (by omega)
          have e1 : (acc ++ [x]).length + (k - 1) = acc.length + k := by simp; omega
          have e2 : i + 1 + (k - 1) = i + k := by omega
          rw [e1, e2] at this
          exact this
    simp only [fillLeafs]
    split
    · rename_i hlt
      obtain ⟨x, hx⟩ : ∃ x, leafs[i]? = some x := ⟨_, List.getElem?_eq_getElem hlt⟩
      have := key x (by simp [hlt, hx])
      rw [hx]
      exact this
    · rename_i hge
      obtain ⟨x, hx⟩ : ∃ x, leafs[leafs.length - 1]? = some x :=
        ⟨_, List.getElem?_eq_getElem (by omega)⟩
      have := key x (by simp [hge, hx])
      rw [hx] at this ⊢
      exact this

/-! ### The hashes of a new tree -/

theorem inSub_self (d c : Nat) : inSub d c c := by
  cases d <;> simp [inSub]

theorem inSub_mono : ∀ d c j, inSub d c j → inSub (d + 1) c j := by
  intro d
  induction d with
  | zero => intro c j h; left; exact h
  | succ d ih =>
    intro c j h
    rcases h with h | h | h
    · left; exact h
    · right; left; exact ih _ _ h
    · right; right; exact ih _ _ h

theorem inSub_children : ∀ d c p, inSub d c p →
    inSub (d + 1) c (2 * p + 1) ∧ inSub (d + 1) c (2 * p + 2) := by
  intro d
  induction d with
  | zero =>
    intro c p h
    have hp : p = c := h
    subst hp
    exact ⟨Or.inr (Or.inl rfl), Or.inr (Or.inr rfl)⟩
  | succ d ih =>
    intro c p h
    rcases h with h | h | h
    · subst h
      exact ⟨Or.inr (Or.inl (inSub_self _ _)), Or.inr (Or.inr (inSub_self _ _))⟩
    · exact ⟨Or.inr (Or.inl (ih _ _ h).1), Or.inr (Or.inl (ih _ _ h).2)⟩
    · exact ⟨Or.inr (Or.inr (ih _ _ h).1), Or.inr (Or.inr (ih _ _ h).2)⟩

theorem inSub_root : ∀ d j, j < 2 ^ (d + 1) - 1 → inSub d 0 j := by
  intro d
  induction d with
  | zero => intro j h; simp at h; exact h
  | succ d ih =>
    intro j h
    rcases Nat.eq_zero_or_pos j with h0 | hpos
    · subst h0; exact inSub_self _ _
    · have hp : (j - 1) / 2 < 2 ^ (d + 1) - 1 := by
        have : 2 ^ (d + 1 + 1) = 2 * 2 ^ (d + 1) := by rw [pow_succ]; ring
        have h1 : 0 < 2 ^ (d + 1) := by positivity
        omega
      have hc := inSub_children d 0 _ (ih _ hp)
      rcases Nat.even_or_odd j with he | ho
      · obtain ⟨m, hm⟩ := he
        have : j = 2 * ((j - 1) / 2) + 2 := by omega
        rw [this]; exact hc.2
      · obtain ⟨m, hm⟩ := ho
        have : j = 2 * ((j - 1) / 2) + 1 := by omega
        rw [this]; exact hc.1

theorem getElem?_set_ite {β : Type} (l : List β) (i j : Nat) (a : β) (hi : i < l.length) :
    (l.set i a)[j]? = if j = i then some a else l[j]? := by
  rw [List.getElem?_set]
  by_cases h : i = j
  · subst h; simp [hi]
  · have : ¬ j = i := fun e => h e.symm
    simp [h, this]

theorem expectedHash_leaf {α : Type} (hs : Hashers) (hf : HashFn) (ops : LeafContent α)
    (leafs : List α) (j : Nat) (h : leafs.length ≤ j + 1) :
    expectedHash hs hf ops leafs j = leafDigest ops leafs (j + 1 - leafs.length) := by
  rw [expectedHash]
  simp [h]

theorem expectedHash_node {α : Type} (hs : Hashers) (hf : HashFn) (ops : LeafContent α)
    (leafs : List α) (j : Nat) (h : j + 1 < leafs.length) :
    expectedHash hs hf ops leafs j =
      hs.run hf (concatenateHashes (expectedHash hs hf ops leafs (2 * j + 1))
        (expectedHash hs hf ops leafs (2 * j + 2))) := by
  rw [expectedHash]
  have : ¬ (j + 1 ≥ leafs.length) := by omega
  simp [this]

theorem buildTree_spec {α : Type} (hs : Hashers) (ops : LeafContent α) :
    ∀ d fuel (t : MerkleTree α) c p, d < fuel → p * 2 ^ d = t.Leafs.length →
      p ≤ c + 1 → c + 1 < 2 * p → t.Nodes.length = 2 * t.Leafs.length - 1 →
      ∃ t1 e, buildTree hs ops fuel t c = .ret (t1, e) ∧ t1.Leafs = t.Leafs ∧ t1.K = t.K ∧
        t1.HashStrategyName = t.HashStrategyName ∧ t1.HashStrategy = t.HashStrategy ∧
        t1.Nodes.length = t.Nodes.length ∧ (0 < d → e = none) ∧
        (∀ j, inSub d c j →
          t1.Nodes[j]? = some ⟨expectedHash hs t.HashStrategy ops t.Leafs j⟩) ∧
        (∀ j, ¬ inSub d c j → t1.Nodes[j]? = t.Nodes[j]?) := by
  intro d
  induction d with
  | zero =>
    intro fuel t c p hfuel hp h1 h2 hlen
    obtain ⟨f, rfl⟩ : ∃ f, fuel = f + 1 := ⟨fuel - 1, by omega⟩
    simp only [pow_zero, Nat.mul_one] at hp
    subst hp
    have hleaf : c + 1 ≥ t.Leafs.length := h1
    have hc : c < t.Nodes.length := by omega
    obtain ⟨leaf, hl⟩ : ∃ leaf, t.Leafs[c + 1 - t.Leafs.length]? = some leaf :=
      ⟨_, List.getElem?_eq_getElem (by omega)⟩
    have hE : expectedHash hs t.HashStrategy ops t.Leafs c =
        (match ops.CalculateHash leaf with | .error _ => [] | .ok h => h) := by
      rw [expectedHash_leaf _ _ _ _ _ hleaf, leafDigest, hl]
    simp only [buildTree, hleaf, if_true, calculateLeafNode, hl]
    cases hh : ops.CalculateHash leaf with
    | error e =>
      rw [hh] at hE
      simp only [hc, if_true]
      refine ⟨_, _, rfl, rfl, rfl, rfl, rfl, by simp, fun h => absurd h (by omega), ?_, ?_⟩
      · intro j hj
        have hj2 : j = c := hj
        subst hj2
        simp [getElem?_set_ite _ _ _ _ hc, hE]
      · intro j hj
        have hj2 : ¬ j = c := hj
        simp [getElem?_set_ite _ _ _ _ hc, hj2]
    | ok hsh =>
      rw [hh] at hE
      simp only [hc, if_true]
      refine ⟨_, _, rfl, rfl, rfl, rfl, rfl, by simp, fun _ => rfl, ?_, ?_⟩
      · intro j hj
        have hj2 : j = c := hj
        subst hj2
        simp [getElem?_set_ite _ _ _ _ hc, hE]
      · intro j hj
        have hj2 : ¬ j = c := hj
        simp [getElem?_set_ite _ _ _ _ hc, hj2]
  | succ d ih =>
    intro fuel t c p hfuel hp h1 h2 hlen
    obtain ⟨f, rfl⟩ : ∃ f, fuel = f + 1 := ⟨fuel - 1, by omega⟩
    have hpow : p * 2 ^ (d + 1) = (2 * p) * 2 ^ d := by rw [pow_succ]; ring
    have hpos : 0 < 2 ^ d := by positivity
    have h2p : 2 * p ≤ t.Leafs.length := by
      rw [← hp, hpow]; exact Nat.le_mul_of_pos_right _ hpos
    have hint : ¬ (c + 1 ≥ t.Leafs.length) := by omega
    obtain ⟨t1, e1, hb1, hL1, hK1, hN1, hF1, hlen1, -, hin1, hout1⟩ :=
      ih f t (2 * c + 1) (2 * p) (by omega) (by rw [← hp, hpow]) (by omega) (by omega) hlen
    obtain ⟨t2, e2, hb2, hL2, hK2, hN2, hF2, hlen2, -, hin2, hout2⟩ :=
      ih f t1 (2 * c + 2) (2 * p) (by omega) (by rw [hL1, ← hp, hpow]) (by omega) (by omega)
        (by rw [hlen1, hL1]; exact hlen)
    rw [hF1, hL1] at hin2
    have hval : ∀ j, inSub d (2 * c + 1) j ∨ inSub d (2 * c + 2) j →
        t2.Nodes[j]? = some ⟨expectedHash hs t.HashStrategy ops t.Leafs j⟩ := by
      intro j hj
      by_cases hr : inSub d (2 * c + 2) j
      · exact hin2 j hr
      · rw [hout2 j hr]
        rcases hj with hj | hj
        · exact hin1 j hj
        · exact absurd hj hr
    have hl := hval (2 * c + 1) (Or.inl (inSub_self _ _))
    have hr := hval (2 * c + 2) (Or.inr (inSub_self _ _))
    have hc : c < t2.Nodes.length := by rw [hlen2, hlen1]; omega
    have hE := expectedHash_node hs t.HashStrategy ops t.Leafs c (by omega)
    simp only [buildTree, hint, if_false, hb1, hb2, calculateNonLeafNode, hl, hr, hc, if_true]
    refine ⟨_, _, rfl, by rw [← hL1, ← hL2], by rw [← hK1, ← hK2], by rw [← hN1, ← hN2],
      by rw [← hF1, ← hF2], by simp [hlen2, hlen1], fun _ => rfl, ?_, ?_⟩
    · intro j hj
      simp only [getElem?_set_ite _ _ _ _ hc]
      by_cases hjc : j = c
      · simp [hjc, hE, hF2, hF1]
      · simp only [hjc, if_false]
        rcases hj with hj | hj | hj
        · exact absurd hj hjc
        · exact hval j (Or.inl hj)
        · exact hval j (Or.inr hj)
    · intro j hj
      have hjc : ¬ j = c := fun e => hj (Or.inl e)
      have hjl : ¬ inSub d (2 * c + 1) j := fun e => hj (Or.inr (Or.inl e))
      have hjr : ¬ inSub d (2 * c + 2) j := fun e => hj (Or.inr (Or.inr e))
      simp only [getElem?_set_ite _ _ _ _ hc, hjc, if_false]
      rw [hout2 j hjr, hout1 j hjl]

/-! ### New -/

theorem hashFnOfName_some {α : Type} (name : String) (hf : HashFn) (h : hashFnOfName name = some hf) :
    (NewEmptyTree name : Except String (MerkleTree α)) =
      .ok { K := 0, Leafs := [], Nodes := [], HashStrategyName := name, HashStrategy := hf } := by
  unfold hashFnOfName at h
  unfold NewEmptyTree
  split_ifs at h ⊢ <;> simp_all

theorem hashFnOfName_none {α : Type} (name : String) (h : hashFnOfName name = none) :
    (NewEmptyTree name : Except String (MerkleTree α)) = .error "invalid hash strategy" := by
  unfold hashFnOfName at h
  unfold NewEmptyTree
  split_ifs at h ⊢
  rfl

theorem New_small {α : Type} (hs : Hashers) (ops : LeafContent α) (leafs : List α)
    (name : String) (h : findK leafs.length < 2) :
    New hs ops leafs name = .ret (.error "count of leafs should be >= 4 for reliability") := by
  simp [New, h]

theorem New_badName {α : Type} (hs : Hashers) (ops : LeafContent α) (leafs : List α)
    (name : String) (h : 2 ≤ findK leafs.length) (hn : hashFnOfName name = none) :
    New hs ops leafs name = .ret (.error "invalid hash strategy") := by
  have : ¬ findK leafs.length < 2 := by omega
  simp [New, this, hashFnOfName_none name hn]

theorem New_built {α : Type} (hs : Hashers) (ops : LeafContent α) (leafs : List α)
    (name : String) (hf : HashFn) (h : 2 ≤ findK leafs.length)
    (hn : hashFnOfName name = some hf) :
    ∃ t, New hs ops leafs name = .ret (.ok t) ∧ Built hs ops leafs hf name t := by
  have hK : ¬ findK leafs.length < 2 := by omega
  have hne : 0 < leafs.length := by
    have := (findK_ge_two_iff leafs.length).1 h; omega
  obtain ⟨out, hfill, hlen, -, hget⟩ := fillLeafs_spec leafs hne (2 ^ findK leafs.length) 0 []
  simp only [List.length_nil, Nat.zero_add] at hlen hget
  have htot : 1 * ((2 <<< findK leafs.length) - 1) / (2 - 1) = 2 * 2 ^ findK leafs.length - 1 := by
    simp [Nat.shiftLeft_eq]
  obtain ⟨t1, e, hb, hL, hK1, hN, hF, hlen1, he, hin, -⟩ :=
    buildTree_spec hs ops (findK leafs.length) (findK leafs.length + 1)
      { K := (findK leafs.length : Int), Leafs := out,
        Nodes := List.replicate (2 * 2 ^ findK leafs.length - 1) ⟨[]⟩,
        HashStrategyName := name, HashStrategy := hf } 0 1 (by omega)
      (by simp [hlen]) (by omega) (by omega) (by simp [hlen])
  have he2 : e = none := he (by omega)
  subst he2
  refine ⟨t1, ?_, ?_⟩
  · simp only [New, hK, if_false, hashFnOfName_some name hf hn, Nat.one_shiftLeft, hfill, htot]
    rw [hb]
  · have hp : 2 ^ (findK leafs.length + 1) = 2 * 2 ^ findK leafs.length := by
      rw [pow_succ]; ring
    refine ⟨hK1, hN, hF, by rw [hL]; exact hlen, ?_, by simp [hlen1, hp], ?_⟩
    · intro i hi
      rw [hL]
      simpa using hget i hi
    · intro j hj
      have := hin j (inSub_root _ _ hj)
      simpa [hL] using this

theorem New_ok_inv {α : Type} (hs : Hashers) (ops : LeafContent α) (leafs : List α)
    (name : String) (t : MerkleTree α) (h : New hs ops leafs name = .ret (.ok t)) :
    2 ≤ findK leafs.length ∧ ∃ hf, hashFnOfName name = some hf ∧ Built hs ops leafs hf name t := by
  by_cases hK : findK leafs.length < 2
  · rw [New_small hs ops leafs name hK] at h
    simp at h
  · have hK2 : 2 ≤ findK leafs.length := by omega
    refine ⟨hK2, ?_⟩
    cases hn : hashFnOfName name with
    | none =>
      rw [New_badName hs ops leafs name hK2 hn] at h
      simp at h
    | some hf =>
      obtain ⟨t0, h0, hb⟩ := New_built hs ops leafs name hf hK2 hn
      rw [h0] at h
      have : t0 = t := by simpa using h
      subst this
      exact ⟨hf, rfl, hb⟩

theorem Built.leaf_mem {α : Type} {hs : Hashers} {ops : LeafContent α} {leafs : List α}
    {hf : HashFn} {name : String} {t : MerkleTree α} (hb : Built hs ops leafs hf name t)
    (i : Nat) (x : α) (hx : t.Leafs[i]? = some x) : x ∈ leafs := by
  have hi : i < t.Leafs.length := by
    by_contra hc
    rw [List.getElem?_eq_none (by omega)] at hx
    simp at hx
  rw [hb.hleafs i (by rw [← hb.hlen]; exact hi)] at hx
  split at hx
  · exact List.getElem?_mem hx
  · exact List.getElem?_mem hx

theorem Built.supplied {α : Type} {hs : Hashers} {ops : LeafContent α} {leafs : List α}
    {hf : HashFn} {name : String} {t : MerkleTree α} (hb : Built hs ops leafs hf name t)
    (i : Nat) (hi : i < leafs.length) : t.Leafs[i]? = leafs[i]? := by
  have h1 := (findK_spec leafs.length).1
  rw [hb.hleafs i (by omega)]
  simp [hi]

theorem Built.mem_leafs {α : Type} {hs : Hashers} {ops : LeafContent α} {leafs : List α}
    {hf : HashFn} {name : String} {t : MerkleTree α} (hb : Built hs ops leafs hf name t)
    (x : α) (hx : x ∈ leafs) : x ∈ t.Leafs := by
  obtain ⟨i, hi⟩ := List.getElem?_of_mem hx
  have hlt : i < leafs.length := by
    by_contra hc
    rw [List.getElem?_eq_none (by omega)] at hi
    simp at hi
  exact List.getElem?_mem ((hb.supplied i hlt).trans hi)

theorem Built.four_le {α : Type} {hs : Hashers} {ops : LeafContent α} {leafs : List α}
    {hf : HashFn} {name : String} {t : MerkleTree α} (hb : Built hs ops leafs hf name t)
    (h2 : 2 ≤ findK leafs.length) : 4 ≤ t.Leafs.length := by
  rw [hb.hlen]
  have : 2 ^ 2 ≤ 2 ^ findK leafs.length := Nat.pow_le_pow_right (by decide) h2
  omega

theorem Built.hashInvariant {α : Type} {hs : Hashers} {ops : LeafContent α} {leafs : List α}
    {hf : HashFn} {name : String} {t : MerkleTree α} (hb : Built hs ops leafs hf name t)
    (herr : ∀ leaf, leaf ∈ leafs → ∃ h, ops.CalculateHash leaf = .ok h) :
    HashInvariant hs ops t := by
  have hp : 2 ^ (findK leafs.length + 1) = 2 * 2 ^ findK leafs.length := by
    rw [pow_succ]; ring
  have hN := hb.hlen
  constructor
  · intro i hi
    obtain ⟨leaf, hl⟩ : ∃ leaf, t.Leafs[i]? = some leaf := ⟨_, List.getElem?_eq_getElem hi⟩
    obtain ⟨h, hh⟩ := herr leaf (hb.leaf_mem i leaf hl)
    refine ⟨leaf, h, hl, hh, ?_⟩
    rw [hb.hnodes _ (by omega), expectedHash_leaf _ _ _ _ _ (by omega)]
    have : i + t.Leafs.length - 1 + 1 - t.Leafs.length = i := by omega
    rw [this, leafDigest, hl]
    simp only [hh]
  · intro j hj
    refine ⟨_, _, hb.hnodes _ (by omega), hb.hnodes _ (by omega), ?_⟩
    rw [hb.hnodes _ (by omega), expectedHash_node _ _ _ _ _ hj, hb.hfn]

/-! ### VerifyContent -/

theorem verifyPath_ok {α : Type} (hs : Hashers) (ops : LeafContent α) (t : MerkleTree α)
    (hinv : HashInvariant hs ops t) :
    ∀ fuel cur, cur < fuel → cur + 1 < t.Leafs.length →
      verifyPath hs t fuel cur = .ret (true, none) := by
  intro fuel
  induction fuel with
  | zero => intro cur h; omega
  | succ f ih =>
    intro cur hf hc
    obtain ⟨l, r, hl, hr, hn⟩ := hinv.2 cur hc
    simp only [verifyPath, calculateNonLeafNode, hl, hr, hn, ne_eq, not_true_eq_false, if_false]
    split
    · rfl
    · rename_i h0
      exact ih _ (by omega) (by omega)

theorem verifyLeafAt_ok {α : Type} (hs : Hashers) (ops : LeafContent α) (t : MerkleTree α)
    (hinv : HashInvariant hs ops t) (h2 : 2 ≤ t.Leafs.length) (i : Nat)
    (hi : i < t.Leafs.length) : verifyLeafAt hs ops t i = .ret (true, none) := by
  obtain ⟨leaf, h, hl, hh, hn⟩ := hinv.1 i hi
  simp only [verifyLeafAt, calculateLeafNode, hl, hh, hn, ne_eq, not_true_eq_false, if_false]
  exact verifyPath_ok hs ops t hinv _ _ (by omega) (by omega)

theorem verifyLeafs_none {α : Type} (hs : Hashers) (ops : LeafContent α) (t : MerkleTree α)
    (c : α) : ∀ rest i, (∀ l, l ∈ rest → ops.Equals l c = .ok false) →
      verifyLeafs hs ops t c rest i = .ret (false, none) := by
  intro rest
  induction rest with
  | nil => intro i _; rfl
  | cons a rest ih =>
    intro i h
    simp only [verifyLeafs, h a (List.mem_cons_self _ _)]
    exact ih _ (fun l hl => h l (List.mem_cons_of_mem _ hl))

theorem verifyLeafs_first {α : Type} (hs : Hashers) (ops : LeafContent α) (t : MerkleTree α)
    (c : α) : ∀ (pre : List α) (x : α) (post : List α) (i : Nat),
      (∀ l, l ∈ pre → ops.Equals l c = .ok false) → ops.Equals x c = .ok true →
      verifyLeafs hs ops t c (pre ++ x :: post) i = verifyLeafAt hs ops t (i + pre.length) := by
  intro pre
  induction pre with
  | nil => intro x post i _ hx; simp [verifyLeafs, hx]
  | cons a pre ih =>
    intro x post i h hx
    have e : (a :: pre) ++ x :: post = a :: (pre ++ x :: post) := rfl
    rw [e]
    simp only [verifyLeafs, h a (List.mem_cons_self _ _)]
    rw [ih x post (i + 1) (fun l hl => h l (List.mem_cons_of_mem _ hl)) hx]
    congr 1
    simp only [List.length_cons]; omega

theorem verifyLeafs_first_accepted {α : Type} (hs : Hashers) (ops : LeafContent α)
    (t : MerkleTree α) (c : α) : ∀ (pre : List α) (x : α) (post : List α) (i : Nat),
      (∀ l, l ∈ pre → ops.Equals l c ≠ .ok true) → ops.Equals x c = .ok true →
      verifyLeafs hs ops t c (pre ++ x :: post) i = verifyLeafAt hs ops t (i + pre.length) ∨
      ∃ e, verifyLeafs hs ops t c (pre ++ x :: post) i = .ret (false, some e) := by
  intro pre
  induction pre with
  | nil => intro x post i _ hx; left; simp [verifyLeafs, hx]
  | cons a pre ih =>
    intro x post i h hx
    have e : (a :: pre) ++ x :: post = a :: (pre ++ x :: post) := rfl
    rw [e]
    cases ha : ops.Equals a c with
    | error err => right; exact ⟨err, by simp only [verifyLeafs, ha]⟩
    | ok b =>
      cases b with
      | true => exact absurd ha (h a (List.mem_cons_self _ _))
      | false =>
        simp only [verifyLeafs, ha]
        have := ih x post (i + 1) (fun l hl => h l (List.mem_cons_of_mem _ hl)) hx
        have e2 : i + 1 + pre.length = i + (a :: pre).length := by
          simp only [List.length_cons]; omega
        rw [e2] at this
        exact this

theorem VerifyContent_mem {α : Type} [DecidableEq α] (hs : Hashers) (ops : LeafContent α)
    (t : MerkleTree α) (c : α) (hinv : HashInvariant hs ops t) (h2 : 2 ≤ t.Leafs.length)
    (heq : ∀ a b, ops.Equals a b = .ok (decide (a = b))) (hc : c ∈ t.Leafs) :
    VerifyContent hs ops t c = .ret (true, none) := by
  obtain ⟨pre, post, hsplit, hpre⟩ := List.eq_append_cons_of_mem hc
  have hlen : pre.length < t.Leafs.length := by
    rw [hsplit]; simp
  have hfirst := verifyLeafs_first hs ops t c pre c post 0
    (fun l hl => by
      rw [heq]
      have : ¬ l = c := fun e => hpre (e ▸ hl)
      simp [this])
    (by simp [heq])
  unfold VerifyContent
  rw [hsplit, hfirst]
  simpa using verifyLeafAt_ok hs ops t hinv h2 pre.length hlen

theorem VerifyContent_not_mem {α : Type} [DecidableEq α] (hs : Hashers) (ops : LeafContent α)
    (t : MerkleTree α) (c : α) (heq : ∀ a b, ops.Equals a b = .ok (decide (a = b)))
    (hc : c ∉ t.Leafs) : VerifyContent hs ops t c = .ret (false, none) := by
  unfold VerifyContent
  apply verifyLeafs_none
  intro l hl
  rw [heq]
  have : ¬ l = c := fun e => hc (e ▸ hl)
  simp [this]

/-! ### The claims about the Merkle engine -/

/-- With hashes taken as values: for a leaf list accepted by `New`, with an `Equals` that
is an error-free equality and a `CalculateHash` that does not fail on the supplied leaves,
`VerifyContent` on the new tree returns `(true, nil)` for a content equal to some supplied
leaf and `(false, nil)` for a content equal to none of them. -/
theorem VerifyContent_decides_membership {α : Type} [DecidableEq α] (hs : Hashers)
    (ops : LeafContent α) (leafs : List α) (name : String) (t : MerkleTree α) (c : α)
    (hnew : New hs ops leafs name = .ret (.ok t))
    (heq : ∀ a b, ops.Equals a b = .ok (decide (a = b)))
    (hhash : ∀ leaf, leaf ∈ leafs → ∃ h, ops.CalculateHash leaf = .ok h) :
    (c ∈ leafs → VerifyContent hs ops t c = .ret (true, none)) ∧
    (c ∉ leafs → VerifyContent hs ops t c = .ret (false, none)) := by
  obtain ⟨hK, hf, -, hb⟩ := New_ok_inv hs ops leafs name t hnew
  constructor
  · intro hc
    exact VerifyContent_mem hs ops t c (hb.hashInvariant hhash)
      (by have := hb.four_le hK; omega) heq (hb.mem_leafs c hc)
  · intro hc
    apply VerifyContent_not_mem hs ops t c heq
    intro hmem
    obtain ⟨i, hi⟩ := List.getElem?_of_mem hmem
    exact hc (hb.leaf_mem i c hi)

/-- With hashes taken as values: in a tree returned by `New` over `N = 2^K` leaves whose
`CalculateHash` does not fail, the node at index `i + N - 1` holds the hash of the leaf at
position `i`, for every `i < N`, and every node `j < N - 1` holds the hash, under the hash
strategy of the tree, of the concatenation of the hashes stored at `2j+1` and `2j+2`. -/
theorem New_hashInvariant {α : Type} (hs : Hashers) (ops : LeafContent α)
    (leafs : List α) (name : String) (t : MerkleTree α)
    (hnew : New hs ops leafs name = .ret (.ok t))
    (hhash : ∀ leaf, leaf ∈ leafs → ∃ h, ops.CalculateHash leaf = .ok h) :
    t.Leafs.length = 2 ^ t.K.toNat ∧
    (∀ i, i < t.Leafs.length → ∃ leaf h, t.Leafs[i]? = some leaf ∧
      ops.CalculateHash leaf = .ok h ∧ t.Nodes[i + t.Leafs.length - 1]? = some ⟨h⟩) ∧
    (∀ j, j + 1 < t.Leafs.length → ∃ l r, t.Nodes[2 * j + 1]? = some l ∧
      t.Nodes[2 * j + 2]? = some r ∧
      t.Nodes[j]? = some ⟨hs.run t.HashStrategy (concatenateHashes l.Hash r.Hash)⟩) := by
  obtain ⟨-, hf, -, hb⟩ := New_ok_inv hs ops leafs name t hnew
  refine ⟨?_, (hb.hashInvariant hhash).1, (hb.hashInvariant hhash).2⟩
  rw [hb.hlen, hb.hK]
  simp

/-- The leaf type `viewLeaf` is deterministic and error-free: its `Equals` is an
error-free equality, and its `CalculateHash` returns without error, at every call and in
every memory, a slice that shows the byte of the leaf. -/
theorem viewLeaf_spec :
    (∀ a b, viewLeaf.Equals a b = .ok (decide (a = b))) ∧
    ∀ leaf m, ∃ s, (viewLeaf.CalculateHash leaf m).2 = .ok s ∧
      (viewLeaf.CalculateHash leaf m).1.read s = [leaf.2] := by
  refine ⟨fun _ _ => rfl, fun leaf m => ⟨_, rfl, ?_⟩⟩
  simp [viewLeaf, Memory.read, Memory.write, List.range_succ]

/-- With hashes that share memory a replaced hash can go unseen on the very path that is
checked: in the tree over `viewLeafs`, node 4 is the leaf node of the second leaf and shows
the byte 14; after it is replaced by a slice holding the byte 12, `VerifyContent` returns
`(true, nil)` for the second leaf. -/
theorem viewTree_tamper_undetected :
    viewTree.Leafs[1]? = some (1, 12) ∧ parentIdx^[0] (1 + viewTree.Leafs.length - 1) = 4 ∧
    viewTree.Nodes[4]? = some ⟨[14]⟩ ∧ [12] ≠ [14] ∧
    Mem.verifyTamperedAfterNew toyHashers viewLeaf viewMemory viewLeafs "sha256" 4 [12]
      (1, 12) = .ret (true, none) := by
  decide

/-- C1 fails on the code. The leaf type `viewLeaf` has an `Equals` that is an error-free
equality and a `CalculateHash` that returns, without error, the same byte for the same
leaf at every call; its hashes are slices of one buffer. `New` accepts the four leaves of
`viewLeafs`, and `VerifyContent` on the tree it returns answers `(false, nil)` for the
first of them: `concatenateHashes` is `append(h1, h2...)`, and while `New` computes the
parent of the last two leaf nodes it writes the hash of the fourth leaf into the spare
capacity of the hash of the third, over the bytes that the stored hash of the second leaf
shows. -/
theorem C1_supplied_leaf_is_rejected :
    Mem.newValues toyHashers viewLeaf viewMemory viewLeafs "sha256" = .ret (.ok viewTree) ∧
    (2, 11) ∈ viewLeafs ∧
    Mem.verifyAfterNew toyHashers viewLeaf viewMemory viewLeafs "sha256" (2, 11) =
      .ret (false, none) := by
  decide

/-- C2 fails on the code. In the tree `New` returns for the four leaves of `viewLeafs`,
whose `CalculateHash` does not fail, node 4 is the leaf node of the second leaf, whose hash
is the byte 12, and shows the byte 14; node 1 holds the hash of the bytes 11 and 12 and
not the hash of what its children, the nodes 3 and 4, hold. The write of
`append(h1, h2...)` into the spare capacity of a stored hash has changed node 4 after
node 1 was computed. -/
theorem C2_stored_hash_is_overwritten :
    Mem.newValues toyHashers viewLeaf viewMemory viewLeafs "sha256" = .ret (.ok viewTree) ∧
    viewTree.Leafs[1]? = some (1, 12) ∧
    ((viewLeaf.CalculateHash (1, 12) viewMemory).2.map
      (fun s => (viewLeaf.CalculateHash (1, 12) viewMemory).1.read s)) = .ok [12] ∧
    viewTree.Nodes[1 + viewTree.Leafs.length - 1]? = some ⟨[14]⟩ ∧
    viewTree.Nodes[2 * 1 + 1]? = some ⟨[11]⟩ ∧ viewTree.Nodes[2 * 1 + 2]? = some ⟨[14]⟩ ∧
    viewTree.Nodes[1]? = some ⟨[0, 11, 12]⟩ ∧
    toyHashers.run viewTree.HashStrategy (concatenateHashes [11] [14]) = [0, 11, 14] := by
  decide

/-- C3. For a leaf list of length `n` in `[4, 10000]` and a supported hash algorithm, `New`
succeeds with a tree whose `K` is `ceil(log2 n)` and at least 2, with `2^K` leaves and
`2^(K+1) - 1` nodes, whose leaves at positions below `n` are the supplied leaves in order
and whose leaves from position `n` on all equal the last supplied leaf. -/
theorem C3_new_tree_shape {α : Type} (hs : Hashers) (ops : LeafContent α) (leafs : List α)
    (name : String) (h4 : 4 ≤ leafs.length) (h10000 : leafs.length ≤ 10000)
    (hname : name = SHA_256 ∨ name = SHA_512) :
    ∃ t, New hs ops leafs name = .ret (.ok t) ∧
      t.K = (Nat.clog 2 leafs.length : Int) ∧ 2 ≤ t.K ∧
      t.Leafs.length = 2 ^ Nat.clog 2 leafs.length ∧
      t.Nodes.length = 2 ^ (Nat.clog 2 leafs.length + 1) - 1 ∧
      (∀ i, i < leafs.length → t.Leafs[i]? = leafs[i]?) ∧
      (∀ i, leafs.length ≤ i → i < 2 ^ Nat.clog 2 leafs.length →
        t.Leafs[i]? = leafs.getLast?) := by
  have hK : 2 ≤ findK leafs.length := (findK_ge_two_iff _).2 (by omega)
  obtain ⟨hf, hhf⟩ : ∃ hf, hashFnOfName name = some hf := by
    rcases hname with h | h
    · exact ⟨.sha256, by simp [hashFnOfName, h]⟩
    · exact ⟨.sha512, by subst h; decide⟩
  obtain ⟨t, hnew, hb⟩ := New_built hs ops leafs name hf hK hhf
  have hc := findK_eq_clog leafs.length
  refine ⟨t, hnew, ?_, ?_, ?_, ?_, ?_, ?_⟩
  · rw [hb.hK, hc]
  · rw [hb.hK]; exact_mod_cast hK
  · rw [hb.hlen, hc]
  · rw [hb.hnodesLen, hc]
  · intro i hi
    exact hb.supplied i hi
  · intro i hi1 hi2
    rw [hb.hleafs i (by rw [hc]; exact hi2), List.getLast?_eq_getElem?]
    have : ¬ i < leafs.length := by omega
    simp [this]

/-- Witness of C3: four leaves under `"sha512"`. -/
theorem C3_new_tree_shape_witness :
    ∃ t, New toyHashers natLeaf [1, 2, 3, 4] "sha512" = .ret (.ok t) ∧
      t.K = (Nat.clog 2 [1, 2, 3, 4].length : Int) ∧ 2 ≤ t.K ∧
      t.Leafs.length = 2 ^ Nat.clog 2 [1, 2, 3, 4].length ∧
      t.Nodes.length = 2 ^ (Nat.clog 2 [1, 2, 3, 4].length + 1) - 1 ∧
      (∀ i, i < [1, 2, 3, 4].length → t.Leafs[i]? = [1, 2, 3, 4][i]?) ∧
      (∀ i, [1, 2, 3, 4].length ≤ i → i < 2 ^ Nat.clog 2 [1, 2, 3, 4].length →
        t.Leafs[i]? = [1, 2, 3, 4].getLast?) :=
  C3_new_tree_shape toyHashers natLeaf [1, 2, 3, 4] "sha512" (by decide) (by decide)
    (Or.inr rfl)

/-! ### Tampering with a stored hash -/

theorem iterate_parentIdx_le : ∀ k x, parentIdx^[k] x ≤ x := by
  intro k
  induction k with
  | zero => intro x; simp
  | succ k ih =>
    intro x
    rw [Function.iterate_succ_apply]
    have h1 := ih (parentIdx x)
    have h2 : parentIdx x ≤ x := by unfold parentIdx; omega
    omega

theorem tamper_nodes {α : Type} (t : MerkleTree α) (j : Nat) (h : Bytes) (old : Node)
    (hold : t.Nodes[j]? = some old) (x : Nat) :
    (tamper t j h).Nodes[x]? = if x = j then some ⟨h⟩ else t.Nodes[x]? := by
  have hj : j < t.Nodes.length := by
    by_contra hc
    rw [List.getElem?_eq_none (by omega)] at hold
    simp at hold
  exact getElem?_set_ite _ _ _ _ hj

/-! ### Byte slices in memory -/

theorem read_length (m : Memory) (s : Slice) : (m.read s).length = s.len := by
  simp [Memory.read]

theorem read_getElem? (m : Memory) (s : Slice) (k : Nat) (hk : k < s.len) :
    (m.read s)[k]? = some (m.bytes (s.ptr + k)) := by
  simp [Memory.read, List.getElem?_map, List.getElem?_range hk]

theorem read_congr (m m1 : Memory) (s : Slice)
    (h : ∀ a, s.ptr ≤ a → a < s.ptr + s.len → m1.bytes a = m.bytes a) :
    m1.read s = m.read s := by
  unfold Memory.read
  apply List.map_congr_left
  intro k hk
  rw [List.mem_range] at hk
  exact h _ (by omega) (by omega)

theorem write_bytes_out (m : Memory) (p : Nat) (v : Bytes) (a : Nat)
    (h : a < p ∨ p + v.length ≤ a) : (m.write p v).bytes a = m.bytes a := by
  have : ¬ (p ≤ a ∧ a < p + v.length) := by omega
  simp [Memory.write, this]

theorem write_bytes_in (m : Memory) (p : Nat) (v : Bytes) (k : Nat) (hk : k < v.length) :
    (m.write p v).bytes (p + k) = v[k] := by
  have : p ≤ p + k ∧ p + k < p + v.length := by omega
  simp [Memory.write, this, List.getD_eq_getElem?_getD, List.getElem?_eq_getElem hk]

theorem alloc_brk (m : Memory) (v : Bytes) : (m.alloc v).1.brk = m.brk + v.length := rfl

theorem alloc_slice (m : Memory) (v : Bytes) :
    (m.alloc v).2 = { ptr := m.brk, len := v.length, cap := v.length } := rfl

theorem alloc_bytes_below (m : Memory) (v : Bytes) (a : Nat) (h : a < m.brk) :
    (m.alloc v).1.bytes a = m.bytes a :=
  write_bytes_out m m.brk v a (Or.inl h)

theorem alloc_read (m : Memory) (v : Bytes) : (m.alloc v).1.read (m.alloc v).2 = v := by
  apply List.ext_getElem?
  intro k
  by_cases hk : k < v.length
  · rw [read_getElem? _ _ _ (by simpa [alloc_slice] using hk)]
    show some ((m.write m.brk v).bytes (m.brk + k)) = v[k]?
    rw [write_bytes_in m m.brk v k hk, List.getElem?_eq_getElem hk]
  · rw [List.getElem?_eq_none (by simp [read_length, alloc_slice]; omega),
      List.getElem?_eq_none (by omega)]

theorem concatenateHashes_spec (m : Memory) (l r : Slice) :
    (Mem.concatenateHashes m l r).1.read (Mem.concatenateHashes m l r).2 =
      m.read l ++ m.read r ∧
    m.brk ≤ (Mem.concatenateHashes m l r).1.brk ∧
    ∀ a, a < m.brk → (a < l.ptr + l.len ∨ l.ptr + l.cap ≤ a) →
      (Mem.concatenateHashes m l r).1.bytes a = m.bytes a := by
  unfold Mem.concatenateHashes
  by_cases h : l.len + r.len ≤ l.cap
  · simp only [h, if_true]
    refine ⟨?_, le_refl _, ?_⟩
    · apply List.ext_getElem?
      intro k
      by_cases hk : k < l.len + r.len
      · rw [read_getElem? _ _ _ hk]
        dsimp only
        by_cases hk1 : k < l.len
        · rw [write_bytes_out _ _ _ _ (Or.inl (by omega)),
            List.getElem?_append_left (by rw [read_length]; exact hk1),
            read_getElem? _ _ _ hk1]
        · have e : l.ptr + k = l.ptr + l.len + (k - l.len) := by omega
          have hk2 : k - l.len < (m.read r).length := by rw [read_length]; omega
          rw [List.getElem?_append_right (by rw [read_length]; omega), read_length, e,
            write_bytes_in _ _ _ _ hk2, List.getElem?_eq_getElem hk2]
      · rw [List.getElem?_eq_none (by rw [read_length]; dsimp only; omega),
          List.getElem?_eq_none (by simp [read_length]; omega)]
    · intro a _ ha
      apply write_bytes_out
      rw [read_length]
      omega
  · simp only [h, if_false]
    refine ⟨alloc_read _ _, by rw [alloc_brk]; omega, ?_⟩
    intro a ha _
    exact alloc_bytes_below _ _ _ ha

theorem readTree_nodes {α : Type} (m : Memory) (t : Mem.MerkleTree α) (i : Nat) :
    (Mem.readTree m t).Nodes[i]? = (t.Nodes[i]?).map (fun n => Node.mk (m.read n.Hash)) := by
  simp [Mem.readTree]

theorem owned_mono (m m1 : Memory) (nodes : List Mem.Node) (h : Mem.Owned m nodes)
    (hb : m.brk ≤ m1.brk) : Mem.Owned m1 nodes :=
  ⟨fun i n hn => ⟨(h.1 i n hn).1, le_trans (h.1 i n hn).2 hb⟩, h.2⟩

theorem mem_calculateNonLeafNode_sim {α : Type} (hs : Hashers) (m : Memory)
    (t : Mem.MerkleTree α) (li ri : Nat) (hown : Mem.Owned m t.Nodes) :
    match Mem.calculateNonLeafNode hs m t li ri with
    | .ret (m1, s) =>
      calculateNonLeafNode hs (Mem.readTree m t) li ri = .ret (m1.read s) ∧
        m.brk ≤ s.ptr ∧ s.len ≤ s.cap ∧ s.ptr + s.cap ≤ m1.brk ∧ m.brk ≤ m1.brk ∧
        ∀ (i : Nat) (n : Mem.Node), t.Nodes[i]? = some n → m1.read n.Hash = m.read n.Hash
    | .panic msg => calculateNonLeafNode hs (Mem.readTree m t) li ri = .panic msg
    | .timeout => calculateNonLeafNode hs (Mem.readTree m t) li ri = .timeout := by
  unfold Mem.calculateNonLeafNode calculateNonLeafNode
  rw [readTree_nodes, readTree_nodes]
  cases hl : t.Nodes[li]? with
  | none => simp
  | some l =>
    cases hr : t.Nodes[ri]? with
    | none => simp
    | some r =>
      obtain ⟨h1, h2, h3⟩ := concatenateHashes_spec m l.Hash r.Hash
      simp only [Option.map_some']
      refine ⟨?_, ?_, ?_, ?_, ?_, ?_⟩
      · rw [alloc_read, h1]
        rfl
      · rw [alloc_slice]; exact h2
      · rw [alloc_slice]
      · rw [alloc_slice, alloc_brk]
      · rw [alloc_brk]; omega
      · intro i n hn
        obtain ⟨hn1, hn2⟩ := hown.1 i n hn
        apply read_congr
        intro a ha1 ha2
        rw [alloc_bytes_below _ _ _ (by omega)]
        apply h3 a (by omega)
        by_cases hi : i = li
        · subst hi
          rw [hl] at hn
          have : l = n := Option.some.inj hn
          subst this
          left; omega
        · rcases hown.2 i li n l hi hn hl with hd | hd
          · left; omega
          · right; omega

theorem owned_set (m m1 : Memory) (nodes : List Mem.Node) (c : Nat) (s : Slice)
    (hown : Mem.Owned m nodes) (hb : m.brk ≤ m1.brk) (h1 : s.len ≤ s.cap)
    (h2 : s.ptr + s.cap ≤ m1.brk)
    (h3 : ∀ (i : Nat) (n : Mem.Node), nodes[i]? = some n →
      n.Hash.ptr + n.Hash.cap ≤ s.ptr ∨ s.ptr + s.cap ≤ n.Hash.ptr) :
    Mem.Owned m1 (nodes.set c ⟨s⟩) := by
  have key : ∀ (i : Nat) (n : Mem.Node), (nodes.set c ⟨s⟩)[i]? = some n →
      (i = c ∧ n = ⟨s⟩) ∨ (i ≠ c ∧ nodes[i]? = some n) := by
    intro i n hn
    rw [List.getElem?_set] at hn
    by_cases hi : c = i
    · left
      rw [if_pos hi] at hn
      split at hn
      · exact ⟨hi.symm, (Option.some.inj hn).symm⟩
      · simp at hn
    · right
      rw [if_neg hi] at hn
      exact ⟨fun e => hi e.symm, hn⟩
  constructor
  · intro i n hn
    rcases key i n hn with ⟨-, rfl⟩ | ⟨-, h⟩
    · exact ⟨h1, h2⟩
    · exact ⟨(hown.1 i n h).1, le_trans (hown.1 i n h).2 hb⟩
  · intro i j ni nj hij hi hj
    rcases key i ni hi with ⟨hic, rfl⟩ | ⟨hic, hi1⟩
    · rcases key j nj hj with ⟨hjc, rfl⟩ | ⟨hjc, hj1⟩
      · omega
      · have := h3 j nj hj1
        dsimp only
        omega
    · rcases key j nj hj with ⟨hjc, rfl⟩ | ⟨hjc, hj1⟩
      · exact h3 i ni hi1
      · exact hown.2 i j ni nj hij hi1 hj1

theorem readTree_set {α : Type} (m m1 : Memory) (t : Mem.MerkleTree α) (c : Nat) (s : Slice)
    (h : ∀ (i : Nat) (n : Mem.Node), t.Nodes[i]? = some n → m1.read n.Hash = m.read n.Hash) :
    Mem.readTree m1 { t with Nodes := t.Nodes.set c ⟨s⟩ } =
      { Mem.readTree m t with Nodes := (Mem.readTree m t).Nodes.set c ⟨m1.read s⟩ } := by
  unfold Mem.readTree
  simp only [MerkleTree.mk.injEq, true_and, and_true, List.map_set]
  congr 1
  apply List.map_congr_left
  intro n hn
  obtain ⟨i, hi⟩ := List.getElem?_of_mem hn
  rw [h i n hi]

theorem readTree_congr {α : Type} (m m1 : Memory) (t : Mem.MerkleTree α)
    (h : ∀ (i : Nat) (n : Mem.Node), t.Nodes[i]? = some n → m1.read n.Hash = m.read n.Hash) :
    Mem.readTree m1 t = Mem.readTree m t := by
  unfold Mem.readTree
  simp only [MerkleTree.mk.injEq, true_and, and_true]
  apply List.map_congr_left
  intro n hn
  obtain ⟨i, hi⟩ := List.getElem?_of_mem hn
  rw [h i n hi]

theorem owned_read_below (m m1 : Memory) (nodes : List Mem.Node) (hown : Mem.Owned m nodes)
    (hb : ∀ a, a < m.brk → m1.bytes a = m.bytes a) (i : Nat) (n : Mem.Node)
    (hn : nodes[i]? = some n) : m1.read n.Hash = m.read n.Hash := by
  apply read_congr
  intro a ha1 ha2
  have := hown.1 i n hn
  exact hb a (by omega)

theorem mem_buildTree_sim {α : Type} (hs : Hashers) (ops : Mem.LeafContent α)
    (hashOf : α → Except String Bytes) (hfresh : Mem.Fresh ops hashOf) :
    ∀ (fuel : Nat) (m : Memory) (t : Mem.MerkleTree α) (c : Nat), Mem.Owned m t.Nodes →
      match Mem.buildTree hs ops fuel m t c with
      | .ret (m1, t1, e) =>
        buildTree hs (ops.values hashOf) fuel (Mem.readTree m t) c =
          .ret (Mem.readTree m1 t1, e) ∧ Mem.Owned m1 t1.Nodes
      | .panic msg => buildTree hs (ops.values hashOf) fuel (Mem.readTree m t) c = .panic msg
      | .timeout => buildTree hs (ops.values hashOf) fuel (Mem.readTree m t) c = .timeout := by
  intro fuel
  induction fuel with
  | zero => intro m t c _; rfl
  | succ f ih =>
    intro m t c hown
    have hL : (Mem.readTree m t).Leafs = t.Leafs := rfl
    have hNl : (Mem.readTree m t).Nodes.length = t.Nodes.length := by simp [Mem.readTree]
    by_cases hleaf : c + 1 ≥ t.Leafs.length
    · simp only [Mem.buildTree, buildTree, hL, hleaf, if_true, Mem.calculateLeafNode,
        calculateLeafNode, hNl]
      cases hl : t.Leafs[c + 1 - t.Leafs.length]? with
      | none => simp
      | some leaf =>
        obtain ⟨f1, f2, f3⟩ := hfresh leaf m
        by_cases hc : c < t.Nodes.length
        · simp only [hc, if_true]
          have hv : (ops.values hashOf).CalculateHash leaf = hashOf leaf := rfl
          rw [hv]
          have hkeep := owned_read_below m (ops.CalculateHash leaf m).1 t.Nodes hown f2
          cases hr : (ops.CalculateHash leaf m).2 with
          | error e =>
            rw [hr] at f3
            simp only [] at f3
            rw [f3]
            simp only []
            refine ⟨?_, ?_⟩
            · rw [readTree_set m _ t c ⟨0, 0, 0⟩ hkeep]
              rfl
            · apply owned_set m _ t.Nodes c ⟨0, 0, 0⟩ hown f1 (le_refl _) (by simp)
              intro i n _
              right; simp
          | ok s =>
            rw [hr] at f3
            simp only [] at f3
            obtain ⟨g1, g2, g3, g4⟩ := f3
            rw [g4]
            simp only []
            refine ⟨?_, ?_⟩
            · rw [readTree_set m _ t c s hkeep]
              rfl
            · apply owned_set m _ t.Nodes c s hown f1 g1 g3
              intro i n hn
              left
              have := (hown.1 i n hn).2
              omega
        · simp only [hc, if_false]
          cases hr : ops.CalculateHash leaf m with
          | mk m1 r =>
            have hv : (ops.values hashOf).CalculateHash leaf = hashOf leaf := rfl
            rw [hv]
            cases hashOf leaf <;> rfl
    · simp only [Mem.buildTree, buildTree, hL, hleaf, if_false]
      have h1 := ih m t (2 * c + 1) hown
      cases hb1 : Mem.buildTree hs ops f m t (2 * c + 1) with
      | panic msg => rw [hb1] at h1; simp only [] at h1; rw [h1]
      | timeout => rw [hb1] at h1; simp only [] at h1; rw [h1]
      | ret o1 =>
        obtain ⟨m1, t1, e1⟩ := o1
        rw [hb1] at h1
        simp only [] at h1
        obtain ⟨h1a, h1b⟩ := h1
        rw [h1a]
        simp only []
        have h2 := ih m1 t1 (2 * c + 2) h1b
        cases hb2 : Mem.buildTree hs ops f m1 t1 (2 * c + 2) with
        | panic msg => rw [hb2] at h2; simp only [] at h2; rw [h2]
        | timeout => rw [hb2] at h2; simp only [] at h2; rw [h2]
        | ret o2 =>
          obtain ⟨m2, t2, e2⟩ := o2
          rw [hb2] at h2
          simp only [] at h2
          obtain ⟨h2a, h2b⟩ := h2
          rw [h2a]
          simp only []
          have h3 := mem_calculateNonLeafNode_sim hs m2 t2 (2 * c + 1) (2 * c + 2) h2b
          have hNl2 : (Mem.readTree m2 t2).Nodes.length = t2.Nodes.length := by
            simp [Mem.readTree]
          cases hb3 : Mem.calculateNonLeafNode hs m2 t2 (2 * c + 1) (2 * c + 2) with
          | panic msg => rw [hb3] at h3; simp only [] at h3; rw [h3]
          | timeout => rw [hb3] at h3; simp only [] at h3; rw [h3]
          | ret o3 =>
            obtain ⟨m3, s⟩ := o3
            rw [hb3] at h3
            simp only [] at h3
            obtain ⟨k1, k2, k3, k4, k5, k6⟩ := h3
            rw [k1, hNl2]
            simp only []
            by_cases hc : c < t2.Nodes.length
            · simp only [hc, if_true]
              refine ⟨?_, ?_⟩
              · rw [readTree_set m2 _ t2 c s k6]
              · apply owned_set m2 _ t2.Nodes c s h2b k5 k3 k4
                intro i n hn
                left
                have := (h2b.1 i n hn).2
                omega
            · simp only [hc, if_false]

theorem owned_replicate (m : Memory) (n : Nat) :
    Mem.Owned m (List.replicate n ⟨⟨0, 0, 0⟩⟩) := by
  have key : ∀ (i : Nat) (x : Mem.Node),
      (List.replicate n (⟨⟨0, 0, 0⟩⟩ : Mem.Node))[i]? = some x → x = ⟨⟨0, 0, 0⟩⟩ := by
    intro i x hx
    exact List.eq_of_mem_replicate (List.getElem?_mem hx)
  constructor
  · intro i x hx
    rw [key i x hx]
    simp
  · intro i j ni nj _ hi hj
    rw [key i ni hi, key j nj hj]
    simp

theorem read_nil (m : Memory) : m.read ⟨0, 0, 0⟩ = [] := rfl

theorem mem_New_sim {α : Type} (hs : Hashers) (ops : Mem.LeafContent α)
    (hashOf : α → Except String Bytes) (hfresh : Mem.Fresh ops hashOf) (m : Memory)
    (leafs : List α) (name : String) :
    match Mem.New hs ops m leafs name with
    | .ret (m1, .ok t) =>
      New hs (ops.values hashOf) leafs name = .ret (.ok (Mem.readTree m1 t)) ∧
        Mem.Owned m1 t.Nodes
    | .ret (_, .error e) => New hs (ops.values hashOf) leafs name = .ret (.error e)
    | .panic msg => New hs (ops.values hashOf) leafs name = .panic msg
    | .timeout => New hs (ops.values hashOf) leafs name = .timeout := by
  unfold Mem.New New
  by_cases hK : findK leafs.length < 2
  · simp only [hK, if_true]
  · simp only [hK, if_false]
    have key : ∀ (hf : HashFn),
        match
          (match fillLeafs leafs (1 <<< findK leafs.length) 0 [] with
          | .panic msg => .panic msg
          | .timeout => .timeout
          | .ret filled =>
            match Mem.buildTree hs ops (findK leafs.length + 1) m
              ({ K := (findK leafs.length : Int), Leafs := filled,
                 Nodes := List.replicate (1 * ((2 <<< findK leafs.length) - 1) / (2 - 1))
                   ⟨⟨0, 0, 0⟩⟩,
                 HashStrategyName := name, HashStrategy := hf } : Mem.MerkleTree α) 0 with
            | .panic msg => .panic msg
            | .timeout => .timeout
            | .ret (m1, _, some e) => .ret (m1, .error ("building tree: " ++ e))
            | .ret (m1, tree2, none) => .ret (m1, .ok tree2) :
            Exec (Memory × Except String (Mem.MerkleTree α))) with
        | .ret (m1, .ok t) =>
          (match fillLeafs leafs (1 <<< findK leafs.length) 0 [] with
          | .panic msg => .panic msg
          | .timeout => .timeout
          | .ret filled =>
            match buildTree hs (ops.values hashOf) (findK leafs.length + 1)
              ({ K := (findK leafs.length : Int), Leafs := filled,
                 Nodes := List.replicate (1 * ((2 <<< findK leafs.length) - 1) / (2 - 1)) ⟨[]⟩,
                 HashStrategyName := name, HashStrategy := hf } : MerkleTree α) 0 with
            | .panic msg => .panic msg
            | .timeout => .timeout
            | .ret (_, some e) => .ret (.error ("building tree: " ++ e))
            | .ret (tree2, none) => .ret (.ok tree2) :
            Exec (Except String (MerkleTree α))) = .ret (.ok (Mem.readTree m1 t)) ∧
            Mem.Owned m1 t.Nodes
        | .ret (_, .error e) =>
          (match fillLeafs leafs (1 <<< findK leafs.length) 0 [] with
          | .panic msg => .panic msg
          | .timeout => .timeout
          | .ret filled =>
            match buildTree hs (ops.values hashOf) (findK leafs.length + 1)
              ({ K := (findK leafs.length : Int), Leafs := filled,
                 Nodes := List.replicate (1 * ((2 <<< findK leafs.length) - 1) / (2 - 1)) ⟨[]⟩,
                 HashStrategyName := name, HashStrategy := hf } : MerkleTree α) 0 with
            | .panic msg => .panic msg
            | .timeout => .timeout
            | .ret (_, some e) => .ret (.error ("building tree: " ++ e))
            | .ret (tree2, none) => .ret (.ok tree2) :
            Exec (Except String (MerkleTree α))) = .ret (.error e)
        | .panic msg =>
          (match fillLeafs leafs (1 <<< findK leafs.length) 0 [] with
          | .panic msg => .panic msg
          | .timeout => .timeout
          | .ret filled =>
            match buildTree hs (ops.values hashOf) (findK leafs.length + 1)
              ({ K := (findK leafs.length : Int), Leafs := filled,
                 Nodes := List.replicate (1 * ((2 <<< findK leafs.length) - 1) / (2 - 1)) ⟨[]⟩,
                 HashStrategyName := name, HashStrategy := hf } : MerkleTree α) 0 with
            | .panic msg => .panic msg
            | .timeout => .timeout
            | .ret (_, some e) => .ret (.error ("building tree: " ++ e))
            | .ret (tree2, none) => .ret (.ok tree2) :
            Exec (Except String (MerkleTree α))) = .panic msg
        | .timeout =>
          (match fillLeafs leafs (1 <<< findK leafs.length) 0 [] with
          | .panic msg => .panic msg
          | .timeout => .timeout
          | .ret filled =>
            match buildTree hs (ops.values hashOf) (findK leafs.length + 1)
              ({ K := (findK leafs.length : Int), Leafs := filled,
                 Nodes := List.replicate (1 * ((2 <<< findK leafs.length) - 1) / (2 - 1)) ⟨[]⟩,
                 HashStrategyName := name, HashStrategy := hf } : MerkleTree α) 0 with
            | .panic msg => .panic msg
            | .timeout => .timeout
            | .ret (_, some e) => .ret (.error ("building tree: " ++ e))
            | .ret (tree2, none) => .ret (.ok tree2) :
            Exec (Except String (MerkleTree α))) = .timeout := by
      intro hf
      cases hfill : fillLeafs leafs (1 <<< findK leafs.length) 0 [] with
      | panic msg => rfl
      | timeout => rfl
      | ret filled =>
        simp only []
        have hsim := mem_buildTree_sim hs ops hashOf hfresh (findK leafs.length + 1) m
          ({ K := (findK leafs.length : Int), Leafs := filled,
             Nodes := List.replicate (1 * ((2 <<< findK leafs.length) - 1) / (2 - 1))
               ⟨⟨0, 0, 0⟩⟩,
             HashStrategyName := name, HashStrategy := hf } : Mem.MerkleTree α) 0
          (owned_replicate m _)
        have hread : Mem.readTree m
            ({ K := (findK leafs.length : Int), Leafs := filled,
               Nodes := List.replicate (1 * ((2 <<< findK leafs.length) - 1) / (2 - 1))
                 ⟨⟨0, 0, 0⟩⟩,
               HashStrategyName := name, HashStrategy := hf } : Mem.MerkleTree α) =
            ({ K := (findK leafs.length : Int), Leafs := filled,
               Nodes := List.replicate (1 * ((2 <<< findK leafs.length) - 1) / (2 - 1)) ⟨[]⟩,
               HashStrategyName := name, HashStrategy := hf } : MerkleTree α) := by
          simp [Mem.readTree, List.map_replicate, read_nil]
        rw [hread] at hsim
        cases hb : Mem.buildTree hs ops (findK leafs.length + 1) m
          ({ K := (findK leafs.length : Int), Leafs := filled,
             Nodes := List.replicate (1 * ((2 <<< findK leafs.length) - 1) / (2 - 1))
               ⟨⟨0, 0, 0⟩⟩,
             HashStrategyName := name, HashStrategy := hf } : Mem.MerkleTree α) 0 with
        | panic msg => rw [hb] at hsim; simp only [] at hsim; rw [hsim]
        | timeout => rw [hb] at hsim; simp only [] at hsim; rw [hsim]
        | ret o =>
          obtain ⟨m1, t1, e⟩ := o
          rw [hb] at hsim
          simp only [] at hsim
          obtain ⟨h1, h2⟩ := hsim
          rw [h1]
          cases e with
          | none => exact ⟨rfl, h2⟩
          | some e => rfl
    unfold Mem.NewEmptyTree NewEmptyTree
    by_cases h1 : name = SHA_256
    · simp only [h1, if_true]
      have := key .sha256
      rw [h1] at this
      exact this
    · by_cases h2 : name = SHA_512
      · simp only [h1, h2, if_true, if_false]
        have := key .sha512
        rw [h2] at this
        exact this
      · simp only [h1, h2, if_false]

theorem value_ret {β : Type} (x : Exec (Memory × β)) (b : β) (h : x.value = .ret b) :
    ∃ m, x = .ret (m, b) := by
  cases x with
  | ret o =>
    obtain ⟨m, b1⟩ := o
    have : b1 = b := Exec.ret.inj h
    exact ⟨m, by rw [this]⟩
  | panic msg => simp [Exec.value] at h
  | timeout => simp [Exec.value] at h

theorem mem_verifyPath_sim {α : Type} (hs : Hashers) (t : Mem.MerkleTree α) :
    ∀ (fuel : Nat) (m : Memory) (cur : Nat), Mem.Owned m t.Nodes →
      (Mem.verifyPath hs t fuel m cur).value = verifyPath hs (Mem.readTree m t) fuel cur := by
  intro fuel
  induction fuel with
  | zero => intro m cur _; rfl
  | succ f ih =>
    intro m cur hown
    have h := mem_calculateNonLeafNode_sim hs m t (2 * cur + 1) (2 * cur + 2) hown
    simp only [Mem.verifyPath, verifyPath]
    cases hb : Mem.calculateNonLeafNode hs m t (2 * cur + 1) (2 * cur + 2) with
    | panic msg => rw [hb] at h; simp only [] at h; rw [h]; rfl
    | timeout => rw [hb] at h; simp only [] at h; rw [h]; rfl
    | ret o =>
      obtain ⟨m1, s⟩ := o
      rw [hb] at h
      simp only [] at h
      obtain ⟨k1, k2, k3, k4, k5, k6⟩ := h
      rw [k1, readTree_nodes]
      simp only []
      cases hst : t.Nodes[cur]? with
      | none => rfl
      | some stored =>
        simp only [Option.map_some', k6 cur stored hst]
        by_cases hne : m1.read s = m.read stored.Hash
        · simp only [hne, ne_eq, not_true_eq_false, if_false]
          by_cases h0 : cur = 0
          · simp only [h0, if_true]; rfl
          · simp only [h0, if_false]
            rw [ih m1 _ (owned_mono m m1 _ hown k5), readTree_congr m m1 t k6]
        · simp only [hne, ne_eq, not_false_eq_true, if_true]; rfl

theorem mem_verifyLeafAt_sim {α : Type} (hs : Hashers) (ops : Mem.LeafContent α)
    (hashOf : α → Except String Bytes) (hfresh : Mem.Fresh ops hashOf) (m : Memory)
    (t : Mem.MerkleTree α) (i : Nat) (hown : Mem.Owned m t.Nodes) :
    (Mem.verifyLeafAt hs ops m t i).value =
      verifyLeafAt hs (ops.values hashOf) (Mem.readTree m t) i := by
  have hL : (Mem.readTree m t).Leafs = t.Leafs := rfl
  simp only [Mem.verifyLeafAt, verifyLeafAt, Mem.calculateLeafNode, calculateLeafNode, hL]
  cases hl : t.Leafs[i]? with
  | none => rfl
  | some leaf =>
    obtain ⟨f1, f2, f3⟩ := hfresh leaf m
    have hv : (ops.values hashOf).CalculateHash leaf = hashOf leaf := rfl
    have hkeep := owned_read_below m (ops.CalculateHash leaf m).1 t.Nodes hown f2
    simp only []
    rw [hv]
    cases hr : (ops.CalculateHash leaf m).2 with
    | error e =>
      rw [hr] at f3
      simp only [] at f3
      have he : ops.CalculateHash leaf m = ((ops.CalculateHash leaf m).1, .error e) := by
        rw [← hr]
      rw [he, f3]
      rfl
    | ok s =>
      rw [hr] at f3
      simp only [] at f3
      obtain ⟨g1, g2, g3, g4⟩ := f3
      have he : ops.CalculateHash leaf m = ((ops.CalculateHash leaf m).1, .ok s) := by
        rw [← hr]
      rw [he, g4, readTree_nodes]
      simp only []
      cases hst : t.Nodes[i + t.Leafs.length - 1]? with
      | none => rfl
      | some stored =>
        simp only [Option.map_some', hkeep _ stored hst]
        by_cases hne : (ops.CalculateHash leaf m).1.read s = m.read stored.Hash
        · simp only [hne, ne_eq, not_true_eq_false, if_false]
          rw [mem_verifyPath_sim hs t _ _ _ (owned_mono m _ _ hown f1),
            readTree_congr m _ t hkeep]
        · simp only [hne, ne_eq, not_false_eq_true, if_true]; rfl

theorem mem_verifyLeafs_sim {α : Type} (hs : Hashers) (ops : Mem.LeafContent α)
    (hashOf : α → Except String Bytes) (hfresh : Mem.Fresh ops hashOf) (m : Memory)
    (t : Mem.MerkleTree α) (c : α) (hown : Mem.Owned m t.Nodes) :
    ∀ (rest : List α) (i : Nat), (Mem.verifyLeafs hs ops m t c rest i).value =
      verifyLeafs hs (ops.values hashOf) (Mem.readTree m t) c rest i := by
  intro rest
  induction rest with
  | nil => intro i; rfl
  | cons leaf rest ih =>
    intro i
    have hv : (ops.values hashOf).Equals leaf c = ops.Equals leaf c := rfl
    simp only [Mem.verifyLeafs, verifyLeafs, hv]
    cases he : ops.Equals leaf c with
    | error e => rfl
    | ok b =>
      cases b with
      | false => exact ih (i + 1)
      | true => exact mem_verifyLeafAt_sim hs ops hashOf hfresh m t i hown

theorem mem_VerifyContent_sim {α : Type} (hs : Hashers) (ops : Mem.LeafContent α)
    (hashOf : α → Except String Bytes) (hfresh : Mem.Fresh ops hashOf) (m : Memory)
    (t : Mem.MerkleTree α) (c : α) (hown : Mem.Owned m t.Nodes) :
    (Mem.VerifyContent hs ops m t c).value =
      VerifyContent hs (ops.values hashOf) (Mem.readTree m t) c :=
  mem_verifyLeafs_sim hs ops hashOf hfresh m t c hown t.Leafs 0

theorem mem_tamper_sim {α : Type} (m : Memory) (t : Mem.MerkleTree α) (j : Nat) (h : Bytes)
    (hown : Mem.Owned m t.Nodes) :
    Mem.readTree (Mem.tamper m t j h).1 (Mem.tamper m t j h).2 =
      tamper (Mem.readTree m t) j h ∧
    Mem.Owned (Mem.tamper m t j h).1 (Mem.tamper m t j h).2.Nodes := by
  have hkeep := owned_read_below m (m.alloc h).1 t.Nodes hown
    (fun a ha => alloc_bytes_below m h a ha)
  constructor
  · unfold Mem.tamper
    simp only []
    rw [readTree_set m _ t j _ hkeep, alloc_read]
    rfl
  · unfold Mem.tamper
    simp only []
    apply owned_set m _ t.Nodes j _ hown (by rw [alloc_brk]; omega)
      (by rw [alloc_slice]) (by rw [alloc_slice, alloc_brk])
    intro i n hn
    left
    rw [alloc_slice]
    exact (hown.1 i n hn).2

theorem Built.nodeInvariant {α : Type} {hs : Hashers} {ops : LeafContent α} {leafs : List α}
    {hf : HashFn} {name : String} {t : MerkleTree α} (hb : Built hs ops leafs hf name t) :
    ∀ j, j + 1 < t.Leafs.length → ∃ l r, t.Nodes[2 * j + 1]? = some l ∧
      t.Nodes[2 * j + 2]? = some r ∧
      t.Nodes[j]? = some ⟨hs.run t.HashStrategy (concatenateHashes l.Hash r.Hash)⟩ := by
  have hp : 2 ^ (findK leafs.length + 1) = 2 * 2 ^ findK leafs.length := by
    rw [pow_succ]; ring
  have hN := hb.hlen
  intro j hj
  refine ⟨_, _, hb.hnodes _ (by omega), hb.hnodes _ (by omega), ?_⟩
  rw [hb.hnodes _ (by omega), expectedHash_node _ _ _ _ _ hj, hb.hfn]

theorem Built.leafNode {α : Type} {hs : Hashers} {ops : LeafContent α} {leafs : List α}
    {hf : HashFn} {name : String} {t : MerkleTree α} (hb : Built hs ops leafs hf name t)
    (i : Nat) (hi : i < t.Leafs.length) :
    t.Nodes[i + t.Leafs.length - 1]? = some ⟨leafDigest ops t.Leafs i⟩ := by
  have hp : 2 ^ (findK leafs.length + 1) = 2 * 2 ^ findK leafs.length := by
    rw [pow_succ]; ring
  have hN := hb.hlen
  rw [hb.hnodes _ (by omega), expectedHash_leaf _ _ _ _ _ (by omega)]
  have : i + t.Leafs.length - 1 + 1 - t.Leafs.length = i := by omega
  rw [this]

theorem verifyPath_tampered {α : Type} (hs : Hashers) (t : MerkleTree α)
    (hinv : ∀ j, j + 1 < t.Leafs.length → ∃ l r, t.Nodes[2 * j + 1]? = some l ∧
      t.Nodes[2 * j + 2]? = some r ∧
      t.Nodes[j]? = some ⟨hs.run t.HashStrategy (concatenateHashes l.Hash r.Hash)⟩)
    (j : Nat) (h1 : Bytes) (old : Node)
    (hold : t.Nodes[j]? = some old) (hne : h1 ≠ old.Hash) :
    ∀ fuel cur, cur < fuel → cur + 1 < t.Leafs.length → (∃ k, parentIdx^[k] cur = j) →
      verifyPath hs (tamper t j h1) fuel cur = .ret (false, none) := by
  intro fuel
  induction fuel with
  | zero => intro cur h; omega
  | succ f ih =>
    intro cur hf hc hpath
    obtain ⟨k, hk⟩ := hpath
    obtain ⟨l, r, hl, hr, hn⟩ := hinv cur hc
    have hjle : j ≤ cur := by rw [← hk]; exact iterate_parentIdx_le k cur
    have hT := tamper_nodes t j h1 old hold
    have e1 : ¬ (2 * cur + 1 = j) := by omega
    have e2 : ¬ (2 * cur + 2 = j) := by omega
    have hF : (tamper t j h1).HashStrategy = t.HashStrategy := rfl
    simp only [verifyPath, calculateNonLeafNode, hT, e1, e2, if_false, hl, hr, hF]
    by_cases hcj : cur = j
    · subst hcj
      have hold2 : old = ⟨hs.run t.HashStrategy (concatenateHashes l.Hash r.Hash)⟩ := by
        rw [hn] at hold
        exact (Option.some.inj hold).symm
      have hne2 : ¬ hs.run t.HashStrategy (concatenateHashes l.Hash r.Hash) = h1 := by
        intro e
        apply hne
        rw [hold2, e]
      simp [hne2]
    · have hk0 : k ≠ 0 := by
        intro e
        subst e
        exact hcj hk
      obtain ⟨k1, rfl⟩ : ∃ k1, k = k1 + 1 := ⟨k - 1, by omega⟩
      rw [Function.iterate_succ_apply] at hk
      have hcur0 : cur ≠ 0 := by
        intro e
        subst e
        have := iterate_parentIdx_le k1 (parentIdx 0)
        have hp0 : parentIdx 0 = 0 := rfl
        omega
      simp only [hcj, if_false, hn, ne_eq, not_true_eq_false, hcur0]
      exact ih _ (by omega) (by omega) ⟨k1, hk⟩

theorem verifyLeafAt_tampered {α : Type} (hs : Hashers) (ops : LeafContent α)
    (leafs : List α) (hf : HashFn) (name : String) (t : MerkleTree α)
    (hb : Built hs ops leafs hf name t) (h2 : 2 ≤ t.Leafs.length)
    (i j : Nat) (h1 : Bytes) (old : Node) (hi : i < t.Leafs.length)
    (hpath : ∃ k, parentIdx^[k] (i + t.Leafs.length - 1) = j)
    (hold : t.Nodes[j]? = some old) (hne : h1 ≠ old.Hash) :
    ∃ e, verifyLeafAt hs ops (tamper t j h1) i = .ret (false, e) := by
  obtain ⟨leaf, hl⟩ : ∃ leaf, t.Leafs[i]? = some leaf := ⟨_, List.getElem?_eq_getElem hi⟩
  have hn := hb.leafNode i hi
  obtain ⟨k, hk⟩ := hpath
  have hT := tamper_nodes t j h1 old hold
  have hL : (tamper t j h1).Leafs = t.Leafs := rfl
  simp only [verifyLeafAt, calculateLeafNode, hL, hl, hT]
  cases hh : ops.CalculateHash leaf with
  | error e => exact ⟨some e, rfl⟩
  | ok h =>
    have hd : leafDigest ops t.Leafs i = h := by
      simp only [leafDigest, hl, hh]
    rw [hd] at hn
    refine ⟨none, ?_⟩
    simp only []
    by_cases hij : i + t.Leafs.length - 1 = j
    · have hold2 : old = ⟨h⟩ := by
        rw [← hij, hn] at hold
        exact (Option.some.inj hold).symm
      have hne2 : ¬ h = h1 := by
        intro e
        apply hne
        rw [hold2, e]
      simp [hij, hne2]
    · have hk0 : k ≠ 0 := by
        intro e
        subst e
        exact hij hk
      obtain ⟨k1, rfl⟩ : ∃ k1, k = k1 + 1 := ⟨k - 1, by omega⟩
      rw [Function.iterate_succ_apply] at hk
      simp only [hij, if_false, hn, ne_eq, not_true_eq_false]
      exact verifyPath_tampered hs t hb.nodeInvariant j h1 old hold hne _ _ (by omega)
        (by omega) ⟨k1, hk⟩

theorem VerifyContent_tampered {α : Type} (hs : Hashers) (ops : LeafContent α)
    (leafs : List α) (hf : HashFn) (name : String) (t : MerkleTree α)
    (hb : Built hs ops leafs hf name t) (h2 : 2 ≤ t.Leafs.length) (c x : α)
    (i j : Nat) (h1 : Bytes) (old : Node)
    (hi : t.Leafs[i]? = some x) (hacc : ops.Equals x c = .ok true)
    (hfirst : ∀ k y, k < i → t.Leafs[k]? = some y → ops.Equals y c ≠ .ok true)
    (hpath : ∃ k, parentIdx^[k] (i + t.Leafs.length - 1) = j)
    (hold : t.Nodes[j]? = some old) (hne : h1 ≠ old.Hash) :
    ∃ e, VerifyContent hs ops (tamper t j h1) c = .ret (false, e) := by
  have hilt : i < t.Leafs.length := by
    by_contra hc
    rw [List.getElem?_eq_none (by omega)] at hi
    simp at hi
  have hsplit : t.Leafs = t.Leafs.take i ++ x :: t.Leafs.drop (i + 1) := by
    have hx : t.Leafs[i] = x := by
      rw [List.getElem?_eq_getElem hilt] at hi
      exact Option.some.inj hi
    conv_lhs => rw [← List.take_append_drop i t.Leafs, List.drop_eq_getElem_cons hilt, hx]
  have hlen : (t.Leafs.take i).length = i := by
    rw [List.length_take]; omega
  have hfst := verifyLeafs_first_accepted hs ops (tamper t j h1) c (t.Leafs.take i) x
    (t.Leafs.drop (i + 1)) 0
    (fun l hl => by
      obtain ⟨k, hk⟩ := List.getElem?_of_mem hl
      have hki : k < i := by
        by_contra hc
        rw [List.getElem?_eq_none (by rw [hlen]; omega)] at hk
        simp at hk
      rw [List.getElem?_take_of_lt hki] at hk
      exact hfirst k l hki hk)
    hacc
  have hL : (tamper t j h1).Leafs = t.Leafs := rfl
  unfold VerifyContent
  rw [hL, hsplit]
  rcases hfst with hfst | ⟨e, hfst⟩
  · rw [hfst, Nat.zero_add, hlen]
    exact verifyLeafAt_tampered hs ops leafs hf name t hb h2 i j h1 old hilt hpath hold hne
  · exact ⟨some e, hfst⟩

theorem fresh_of_alloc {α : Type} (ops : Mem.LeafContent α) (hash : α → Bytes)
    (h : ∀ leaf m, ops.CalculateHash leaf m = ((m.alloc (hash leaf)).1, .ok (m.alloc (hash leaf)).2)) :
    Mem.Fresh ops (fun leaf => .ok (hash leaf)) := by
  intro leaf m
  rw [h leaf m]
  refine ⟨by rw [alloc_brk]; omega, fun a ha => alloc_bytes_below _ _ _ ha, ?_⟩
  simp only []
  refine ⟨by rw [alloc_slice], by rw [alloc_slice], by rw [alloc_slice, alloc_brk], ?_⟩
  rw [alloc_read]

theorem treeContent_fresh (hs : Hashers) :
    Mem.Fresh (Mem.treeContentOps hs) (treeContentOps hs).CalculateHash :=
  fresh_of_alloc (Mem.treeContentOps hs) (fun t => hs.sha256 (stringBytes t.X))
    (fun _ _ => rfl)

theorem treeContent_values (hs : Hashers) :
    (Mem.treeContentOps hs).values (treeContentOps hs).CalculateHash = treeContentOps hs := rfl

theorem freshLeaf_fresh : Mem.Fresh freshLeaf (fun leaf => .ok [leaf]) :=
  fresh_of_alloc freshLeaf (fun leaf => [leaf]) (fun _ _ => rfl)

/-- For a leaf type that returns its hashes in slices of their own, `New` and
`VerifyContent` on memory return what they return with hashes taken as values. -/
theorem mem_New_VerifyContent_sim {α : Type} (hs : Hashers) (ops : Mem.LeafContent α)
    (hashOf : α → Except String Bytes) (hfresh : Mem.Fresh ops hashOf) (m m1 : Memory)
    (leafs : List α) (name : String) (t : Mem.MerkleTree α)
    (hnew : Mem.New hs ops m leafs name = .ret (m1, .ok t)) (c : α) :
    New hs (ops.values hashOf) leafs name = .ret (.ok (Mem.readTree m1 t)) ∧
    (Mem.VerifyContent hs ops m1 t c).value =
      VerifyContent hs (ops.values hashOf) (Mem.readTree m1 t) c := by
  have h := mem_New_sim hs ops hashOf hfresh m leafs name
  rw [hnew] at h
  exact ⟨h.1, mem_VerifyContent_sim hs ops hashOf hfresh m1 t c h.2⟩

/-- For a leaf type that returns its hashes in slices of their own, with an `Equals` that
is an error-free equality and a `CalculateHash` that does not fail on the supplied leaves,
`VerifyContent` on the tree `New` has built in memory returns `(true, nil)` for a content
equal to some supplied leaf and `(false, nil)` for a content equal to none of them. -/
theorem mem_VerifyContent_decides_membership {α : Type} [DecidableEq α] (hs : Hashers)
    (ops : Mem.LeafContent α) (hashOf : α → Except String Bytes)
    (hfresh : Mem.Fresh ops hashOf) (m m1 : Memory) (leafs : List α) (name : String)
    (t : Mem.MerkleTree α) (c : α)
    (hnew : Mem.New hs ops m leafs name = .ret (m1, .ok t))
    (heq : ∀ a b, ops.Equals a b = .ok (decide (a = b)))
    (hhash : ∀ leaf, leaf ∈ leafs → ∃ h, hashOf leaf = .ok h) :
    (c ∈ leafs → (Mem.VerifyContent hs ops m1 t c).value = .ret (true, none)) ∧
    (c ∉ leafs → (Mem.VerifyContent hs ops m1 t c).value = .ret (false, none)) := by
  obtain ⟨h1, h2⟩ := mem_New_VerifyContent_sim hs ops hashOf hfresh m m1 leafs name t hnew c
  rw [h2]
  exact VerifyContent_decides_membership hs (ops.values hashOf) leafs name _ c h1 heq hhash

/-- For a leaf type that returns its hashes in slices of their own and does not fail on
the supplied leaves, the nodes of the tree `New` has built in memory show the hashes of the
hash invariant. -/
theorem mem_New_hashInvariant {α : Type} (hs : Hashers) (ops : Mem.LeafContent α)
    (hashOf : α → Except String Bytes) (hfresh : Mem.Fresh ops hashOf) (m m1 : Memory)
    (leafs : List α) (name : String) (t : Mem.MerkleTree α)
    (hnew : Mem.New hs ops m leafs name = .ret (m1, .ok t))
    (hhash : ∀ leaf, leaf ∈ leafs → ∃ h, hashOf leaf = .ok h) :
    HashInvariant hs (ops.values hashOf) (Mem.readTree m1 t) := by
  have h := mem_New_sim hs ops hashOf hfresh m leafs name
  rw [hnew] at h
  obtain ⟨-, hf, -, hb⟩ := New_ok_inv hs (ops.values hashOf) leafs name _ h.1
  exact hb.hashInvariant hhash

/-! ### Tamper detection -/

/-- C4, as the claim states it, fails: in the tree over `1, ..., 5` the leaf at position
7 is a padding copy of `5`, its leaf node is node 14, and replacing the hash stored there
by a different byte string leaves `VerifyContent` true for the content `5`, because the
path that is checked is that of position 4, the first leaf equal to `5`. This is so with
hashes taken as values, and in memory for a leaf type that returns its hashes in slices of
their own. -/
theorem C4_counterexample :
    New toyHashers natLeaf [1, 2, 3, 4, 5] "sha256" = .ret (.ok paddedTree) ∧
    paddedTree.Leafs[7]? = some 5 ∧
    parentIdx^[0] (7 + paddedTree.Leafs.length - 1) = 14 ∧
    paddedTree.Nodes[14]? = some ⟨[5]⟩ ∧ [99] ≠ [5] ∧
    VerifyContent toyHashers natLeaf (tamper paddedTree 14 [99]) 5 = .ret (true, none) ∧
    Mem.New toyHashers freshLeaf emptyMemory [1, 2, 3, 4, 5] "sha256" =
      .ret (freshMemory, .ok freshTree) ∧
    freshTree.Leafs[7]? = some 5 ∧
    parentIdx^[0] (7 + freshTree.Leafs.length - 1) = 14 ∧
    freshTree.Nodes[14]? = some ⟨⟨35, 1, 1⟩⟩ ∧ freshMemory.read ⟨35, 1, 1⟩ = [5] ∧
    (Mem.VerifyContent toyHashers freshLeaf (Mem.tamper freshMemory freshTree 14 [99]).1
      (Mem.tamper freshMemory freshTree 14 [99]).2 5).value = .ret (true, none) :=
  ⟨by decide, by decide, by decide, by decide, by decide, by decide, rfl, by decide,
   by decide, by decide, by decide, by decide⟩

/-- C4, amended. For a leaf type whose `CalculateHash` returns the hash of a leaf, the
same bytes or the same error at every call, in a slice of its own: in the tree `New` has
built, as long as the memory `New` has handed out is as `New` left it, let `i` be the
first position whose leaf `Equals` accepts for the content `c`, and `j` a node on the path
from the leaf node of `i` to the root. Replacing the stored hash of node `j` by a new slice
that holds any different byte string makes `VerifyContent` return `false` for `c`. -/
theorem C4_tamper_detected_on_checked_path {α : Type} (hs : Hashers)
    (ops : Mem.LeafContent α) (hashOf : α → Except String Bytes)
    (hfresh : Mem.Fresh ops hashOf) (m m1 m2 : Memory) (leafs : List α) (name : String)
    (t : Mem.MerkleTree α) (c x : α) (i j : Nat) (old : Mem.Node) (h1 : Bytes)
    (hnew : Mem.New hs ops m leafs name = .ret (m1, .ok t))
    (hkept : m1.brk ≤ m2.brk ∧ ∀ a, a < m1.brk → m2.bytes a = m1.bytes a)
    (hi : t.Leafs[i]? = some x) (hacc : ops.Equals x c = .ok true)
    (hfirst : ∀ k y, k < i → t.Leafs[k]? = some y → ops.Equals y c ≠ .ok true)
    (hpath : ∃ k, parentIdx^[k] (i + t.Leafs.length - 1) = j)
    (hold : t.Nodes[j]? = some old) (hne : h1 ≠ m2.read old.Hash) :
    ∃ m3 e, Mem.VerifyContent hs ops (Mem.tamper m2 t j h1).1 (Mem.tamper m2 t j h1).2 c =
      .ret (m3, (false, e)) := by
  have h := mem_New_sim hs ops hashOf hfresh m leafs name
  rw [hnew] at h
  obtain ⟨hv, hown1⟩ := h
  have hown : Mem.Owned m2 t.Nodes := owned_mono m1 m2 _ hown1 hkept.1
  have hread : Mem.readTree m2 t = Mem.readTree m1 t :=
    readTree_congr m1 m2 t (owned_read_below m1 m2 t.Nodes hown1 hkept.2)
  obtain ⟨hK, hf, -, hb⟩ := New_ok_inv hs (ops.values hashOf) leafs name _ hv
  obtain ⟨ht1, ht2⟩ := mem_tamper_sim m2 t j h1 hown
  have hsim := mem_VerifyContent_sim hs ops hashOf hfresh _ _ c ht2
  rw [ht1, hread] at hsim
  have hold2 : (Mem.readTree m1 t).Nodes[j]? = some ⟨m2.read old.Hash⟩ := by
    rw [← hread, readTree_nodes, hold]; rfl
  obtain ⟨e, he⟩ := VerifyContent_tampered hs (ops.values hashOf) leafs hf name
    (Mem.readTree m1 t) hb (by have := hb.four_le hK; omega) c x i j h1 _ hi hacc hfirst
    hpath hold2 hne
  rw [he] at hsim
  obtain ⟨m3, hm3⟩ := value_ret _ _ hsim
  exact ⟨m3, e, hm3⟩

/-- Witness of C4 (amended): in the tree over `1, ..., 5`, position 4 is the first leaf
equal to `5`; node 5 is the parent of its leaf node 11. -/
theorem C4_tamper_detected_on_checked_path_witness :
    Mem.New toyHashers freshLeaf emptyMemory [1, 2, 3, 4, 5] "sha256" =
      .ret (freshMemory, .ok freshTree) ∧
    freshTree.Leafs[4]? = some 5 ∧ parentIdx^[1] (4 + freshTree.Leafs.length - 1) = 5 ∧
    freshTree.Nodes[5]? = some ⟨⟨31, 3, 3⟩⟩ ∧ freshMemory.read ⟨31, 3, 3⟩ = [0, 5, 5] ∧
    ∃ m3 e, Mem.VerifyContent toyHashers freshLeaf (Mem.tamper freshMemory freshTree 5 [99]).1
      (Mem.tamper freshMemory freshTree 5 [99]).2 5 = .ret (m3, (false, e)) :=
  ⟨rfl, by decide, by decide, by decide, by decide,
   C4_tamper_detected_on_checked_path toyHashers freshLeaf (fun leaf => .ok [leaf])
     freshLeaf_fresh emptyMemory freshMemory freshMemory [1, 2, 3, 4, 5] "sha256" freshTree
     5 5 4 5 ⟨⟨31, 3, 3⟩⟩ [99] rfl ⟨le_refl _, fun _ _ => rfl⟩ (by decide) rfl
     (fun k y hk hy => by
      have hy2 : [1, 2, 3, 4, 5, 5, 5, 5][k]? = some y := hy
      have : y ≠ 5 := by
        intro e
        subst e
        interval_cases k <;> simp at hy2
      show Except.ok (decide (y = 5)) ≠ Except.ok true
      simp [this])
     ⟨1, by decide⟩ (by decide) (by decide)⟩

/-! ### The server and client wrappers -/

theorem treeContent_equals (hs : Hashers) (a b : TreeContent) :
    (treeContentOps hs).Equals a b = .ok (decide (a = b)) := by
  cases a with
  | mk x =>
    cases b with
    | mk y =>
      by_cases h : x = y
      · simp [treeContentOps, h]
      · simp [treeContentOps, h]

theorem treeContent_hash (hs : Hashers) (leaf : TreeContent) :
    ∃ h, (treeContentOps hs).CalculateHash leaf = .ok h :=
  ⟨_, rfl⟩

theorem wireCodec_lawful : wireCodec.Lawful :=
  ⟨fun d => ⟨.challenge d, rfl, rfl⟩, fun g => ⟨.gob g, rfl, rfl⟩,
   fun x => ⟨.response x, rfl, rfl⟩⟩

theorem makeslicePanics_false (size : Nat) (n : Int) :
    makeslicePanics size n = false ↔ 0 ≤ n ∧ (size : Int) * n ≤ (maxAlloc : Int) := by
  unfold makeslicePanics
  rw [decide_eq_false_iff_not]
  constructor
  · intro h
    constructor
    · by_contra hc; exact h (Or.inl (by omega))
    · by_contra hc; exact h (Or.inr (by omega))
  · rintro ⟨h1, h2⟩ (h | h) <;> omega

theorem makeslicePanics_true (size : Nat) (n : Int) :
    makeslicePanics size n = true ↔ n < 0 ∨ (maxAlloc : Int) < (size : Int) * n := by
  unfold makeslicePanics
  rw [decide_eq_true_iff]

theorem genBlocks_spec (size : Int) :
    ∀ n r, (0 < n → makeslicePanics 4 size = false) →
      ∃ data r1, genBlocks size n r = .ret (data, r1) ∧ data.length = n := by
  intro n
  induction n with
  | zero => intro r _; exact ⟨[], r, rfl, rfl⟩
  | succ n ih =>
    intro r hsize
    have hs : makeslicePanics 4 size = false := hsize (by omega)
    obtain ⟨data, r2, h1, h2⟩ := ih (randRunes size.toNat r).2 (fun _ => hs)
    refine ⟨{ X := String.mk (randRunes size.toNat r).1 } :: data, r2, ?_, by simp [h2]⟩
    simp [genBlocks, randString, hs, h1]

theorem RequestChallenge_spec {β : Type} (f : MTServerWrapper) (codec : Codec β)
    (hlaw : codec.Lawful) (hcount : makeslicePanics 16 f.dataBlockCount = false)
    (hsize : 0 < f.dataBlockCount → makeslicePanics 4 f.dataBlockSize = false)
    (r : Rand) (resp : Response β) (req : Request β) :
    ∃ data r1 b, data.length = f.dataBlockCount.toNat ∧
      codec.jsonUnmarshalChallenge b = .ok data ∧
      f.RequestChallenge codec r resp req =
        .ret { world := r1, resp := { Status := OK, Body := some b },
               req := { req with ConnContext :=
                 req.ConnContext.WithValue .connRequestChallengeKey (.challenge data) },
               err := none } := by
  obtain ⟨data, r1, h1, h2⟩ := genBlocks_spec f.dataBlockSize f.dataBlockCount.toNat r
    (fun h => hsize (by omega))
  obtain ⟨b, hb1, hb2⟩ := hlaw.challenge data
  refine ⟨data, r1, b, h2, hb2, ?_⟩
  simp [MTServerWrapper.RequestChallenge, hcount, h1, hb1]

theorem SolveChallenge_spec {β : Type} (f : MTClientWrapper) (hs : Hashers) (codec : Codec β)
    (hlaw : codec.Lawful) (b : β) (data : List TreeContent) (hf : HashFn)
    (hb : codec.jsonUnmarshalChallenge b = .ok data) (hlen : 3 ≤ data.length)
    (halgo : hashFnOfName f.treeHashAlgo = some hf) :
    ∃ t gb sol, f.SolveChallenge hs codec (some b) = .ret (.ok sol) ∧
      Built hs (treeContentOps hs) data hf f.treeHashAlgo t ∧
      codec.jsonUnmarshalResponse sol = .ok gb ∧ codec.gobDecode gb = .ok t.toGob := by
  obtain ⟨t, hnew, hbuilt⟩ := New_built hs (treeContentOps hs) data f.treeHashAlgo hf
    ((findK_ge_two_iff _).2 hlen) halgo
  obtain ⟨gb, hg1, hg2⟩ := hlaw.gob t.toGob
  obtain ⟨sol, hr1, hr2⟩ := hlaw.response gb
  refine ⟨t, gb, sol, ?_, hbuilt, hr2, hg2⟩
  simp only [MTClientWrapper.SolveChallenge, unmarshalBody, hb, hnew, hg1, hr1]

theorem hashFnOfName_ne_empty (name : String) (hf : HashFn)
    (h : hashFnOfName name = some hf) : name ≠ "" := by
  intro e
  subst e
  simp [hashFnOfName, SHA_256, SHA_512] at h

theorem decodeInto_built (hs : Hashers) (data : List TreeContent) (hf hf1 : HashFn)
    (name name1 : String) (t : MerkleTree TreeContent)
    (hb : Built hs (treeContentOps hs) data hf name t) (h3 : 3 ≤ data.length)
    (hname : hashFnOfName name = some hf) :
    decodeInto { K := 0, Leafs := [], Nodes := [], HashStrategyName := name1,
                 HashStrategy := hf1 } t.toGob = withStrategy t hf1 := by
  have hK := (findK_ge_two_iff _).2 h3
  have h4 := hb.four_le hK
  have hKne : ¬ t.K = 0 := by rw [hb.hK]; omega
  have hL : ¬ t.Leafs = [] := by
    intro e; rw [e] at h4; simp at h4
  have hN : ¬ t.Nodes = [] := by
    intro e
    have h1 := hb.hnodesLen
    have h2 : 0 < 2 ^ findK data.length := by positivity
    have hp : 2 ^ (findK data.length + 1) = 2 * 2 ^ findK data.length := by
      rw [pow_succ]; ring
    rw [e] at h1
    simp at h1
    omega
  have hn : ¬ t.HashStrategyName = "" := by
    rw [hb.hname]; exact hashFnOfName_ne_empty name hf hname
  simp [decodeInto, MerkleTree.toGob, withStrategy, hKne, hL, hN, hn]

theorem verifyLeafAt_wrong_strategy {α : Type} (hs : Hashers) (ops : LeafContent α)
    (t : MerkleTree α) (hinv : HashInvariant hs ops t) (h2 : 2 ≤ t.Leafs.length)
    (hf1 : HashFn) (hdiff : ∀ x, hs.run hf1 x ≠ hs.run t.HashStrategy x) (i : Nat)
    (hi : i < t.Leafs.length) :
    verifyLeafAt hs ops (withStrategy t hf1) i = .ret (false, none) := by
  obtain ⟨leaf, h, hl, hh, hn⟩ := hinv.1 i hi
  obtain ⟨l, r, hl1, hr1, hn1⟩ := hinv.2 ((i + t.Leafs.length - 1 - 1) / 2) (by omega)
  have hd := hdiff (concatenateHashes l.Hash r.Hash)
  simp only [verifyLeafAt, calculateLeafNode, withStrategy, hl, hh, hn, ne_eq,
    not_true_eq_false, if_false, verifyPath, calculateNonLeafNode, hl1, hr1, hn1]
  simp [hd]

theorem VerifyContent_wrong_strategy {α : Type} [DecidableEq α] (hs : Hashers)
    (ops : LeafContent α) (t : MerkleTree α) (c : α) (hinv : HashInvariant hs ops t)
    (h2 : 2 ≤ t.Leafs.length) (hf1 : HashFn)
    (hdiff : ∀ x, hs.run hf1 x ≠ hs.run t.HashStrategy x)
    (heq : ∀ a b, ops.Equals a b = .ok (decide (a = b))) (hc : c ∈ t.Leafs) :
    VerifyContent hs ops (withStrategy t hf1) c = .ret (false, none) := by
  obtain ⟨pre, post, hsplit, hpre⟩ := List.eq_append_cons_of_mem hc
  have hlen : pre.length < t.Leafs.length := by
    rw [hsplit]; simp
  have hL : (withStrategy t hf1).Leafs = t.Leafs := rfl
  have hfirst := verifyLeafs_first hs ops (withStrategy t hf1) c pre c post 0
    (fun l hl => by
      rw [heq]
      have : ¬ l = c := fun e => hpre (e ▸ hl)
      simp [this])
    (by simp [heq])
  unfold VerifyContent
  rw [hL, hsplit, hfirst]
  simpa using verifyLeafAt_wrong_strategy hs ops t hinv h2 hf1 hdiff pre.length hlen

theorem withStrategy_self {α : Type} (t : MerkleTree α) : withStrategy t t.HashStrategy = t := by
  cases t; rfl

theorem verifyResponseBody_found {β : Type} (f : MTServerWrapper) (hs : Hashers)
    (codec : Codec β) (c : TreeContent) (r : Rand) (resp : Response β) (req : Request β)
    (sol gb : β) (g : GobTree) (newTree : MerkleTree TreeContent)
    (hbody : req.Body = some sol) (hu : codec.jsonUnmarshalResponse sol = .ok gb)
    (hg : codec.gobDecode gb = .ok g)
    (hnew : (NewEmptyTree f.treeHashAlgo : Except String (MerkleTree TreeContent)) = .ok newTree)
    (hres : VerifyContent hs (treeContentOps hs) (decodeInto newTree g) c = .ret (true, none)) :
    verifyResponseBody f hs codec c r resp req =
      .ret { world := r, resp := { Status := OK, Body := none }, req := req, err := none } := by
  simp only [verifyResponseBody, hbody, unmarshalBody, hu, hnew, hg, hres]

theorem verifyResponseBody_not_found {β : Type} (f : MTServerWrapper) (hs : Hashers)
    (codec : Codec β) (c : TreeContent) (r : Rand) (resp : Response β) (req : Request β)
    (sol gb : β) (g : GobTree) (newTree : MerkleTree TreeContent)
    (hbody : req.Body = some sol) (hu : codec.jsonUnmarshalResponse sol = .ok gb)
    (hg : codec.gobDecode gb = .ok g)
    (hnew : (NewEmptyTree f.treeHashAlgo : Except String (MerkleTree TreeContent)) = .ok newTree)
    (hres : VerifyContent hs (treeContentOps hs) (decodeInto newTree g) c = .ret (false, none)) :
    verifyResponseBody f hs codec c r resp req =
      .ret { world := r, resp := resp, req := req,
             err := some "tree content not found in the tree" } := by
  simp only [verifyResponseBody, hbody, unmarshalBody, hu, hnew, hg, hres]

theorem VerifyChallengeResponse_stored {β : Type} (f : MTServerWrapper) (hs : Hashers)
    (codec : Codec β) (r : Rand) (resp : Response β) (req : Request β)
    (data : List TreeContent) (hne : 0 < data.length)
    (hctx : req.ConnContext.Value .connRequestChallengeKey = some (.challenge data)) :
    ∃ c, c ∈ data ∧ f.VerifyChallengeResponse hs codec r resp req =
      verifyResponseBody f hs codec c r.Int.2 resp req := by
  obtain ⟨c, hc⟩ : ∃ c, data[r.Int.1 % data.length]? = some c :=
    ⟨_, List.getElem?_eq_getElem (Nat.mod_lt _ hne)⟩
  have h0 : ¬ data.length = 0 := by omega
  refine ⟨c, List.getElem?_mem hc, ?_⟩
  simp only [MTServerWrapper.VerifyChallengeResponse, hctx, h0, if_false, hc]

theorem hashFnOfName_supported (name : String) (h : name = SHA_256 ∨ name = SHA_512) :
    ∃ hf, hashFnOfName name = some hf := by
  rcases h with h | h
  · exact ⟨.sha256, by simp [hashFnOfName, h]⟩
  · exact ⟨.sha512, by subst h; decide⟩

theorem Value_withValue_challenge (ctx : Context) (v : CtxVal) :
    (ctx.WithValue .connRequestChallengeKey v).Value .connRequestChallengeKey = some v := by
  simp [Context.WithValue, Context.Value]

theorem Value_withValue_challenge_access (ctx : Context) (v : CtxVal) :
    (ctx.WithValue .connRequestChallengeKey v).Value .connRequestAccessEnabledKey =
      ctx.Value .connRequestAccessEnabledKey := by
  simp [Context.WithValue, Context.Value]

theorem Value_withValue_access (ctx : Context) (v : CtxVal) :
    (ctx.WithValue .connRequestAccessEnabledKey v).Value .connRequestAccessEnabledKey =
      some v := by
  simp [Context.WithValue, Context.Value]

/-- The full exchange: the challenge is issued and stored, the client solves it, and the
server then checks a tree that is the client's tree read with the server's hash strategy. -/
theorem exchange_spec {β : Type} (srv : MTServerWrapper) (client : MTClientWrapper)
    (hs : Hashers) (codec : Codec β) (hlaw : codec.Lawful) (hfc hfs : HashFn)
    (hcount : 3 ≤ srv.dataBlockCount) (hcountMax : makeslicePanics 16 srv.dataBlockCount = false)
    (hsize : makeslicePanics 4 srv.dataBlockSize = false)
    (hclient : hashFnOfName client.treeHashAlgo = some hfc)
    (hsrv : hashFnOfName srv.treeHashAlgo = some hfs)
    (r : Rand) (resp : Response β) (req : Request β) :
    ∃ out1 body sol data t, srv.RequestChallenge codec r resp req = .ret out1 ∧
      out1.err = none ∧ out1.resp.Status = OK ∧ out1.resp.Body = some body ∧
      client.SolveChallenge hs codec out1.resp.Body = .ret (.ok sol) ∧
      Built hs (treeContentOps hs) data hfc client.treeHashAlgo t ∧ 3 ≤ data.length ∧
      ∀ (r1 : Rand) (resp1 : Response β), ∃ c, c ∈ data ∧
        srv.VerifyChallengeResponse hs codec r1 resp1 { out1.req with Body := some sol } =
          (match VerifyContent hs (treeContentOps hs) (withStrategy t hfs) c with
           | .panic m => .panic m
           | .timeout => .timeout
           | .ret (_, some e) =>
             .ret { world := r1.Int.2, resp := resp1,
                    req := { out1.req with Body := some sol },
                    err := some ("merkle tree verifying: " ++ e) }
           | .ret (false, none) =>
             .ret { world := r1.Int.2, resp := resp1,
                    req := { out1.req with Body := some sol },
                    err := some "tree content not found in the tree" }
           | .ret (true, none) =>
             .ret { world := r1.Int.2, resp := { Status := OK, Body := none },
                    req := { out1.req with Body := some sol }, err := none }) := by
  obtain ⟨data, r1, b, hlen, hb, hreq⟩ :=
    RequestChallenge_spec srv codec hlaw hcountMax (fun _ => hsize) r resp req
  have h3 : 3 ≤ data.length := by rw [hlen]; omega
  obtain ⟨t, gb, sol, hsol, hbuilt, hu, hg⟩ :=
    SolveChallenge_spec client hs codec hlaw b data hfc hb h3 hclient
  refine ⟨_, b, sol, data, t, hreq, rfl, rfl, rfl, hsol, hbuilt, h3, ?_⟩
  intro r2 resp2
  obtain ⟨c, hc, hv⟩ := VerifyChallengeResponse_stored srv hs codec r2 resp2
    { Method := req.Method, Body := some sol,
      ConnContext := req.ConnContext.WithValue .connRequestChallengeKey (.challenge data),
      RequestContext := req.RequestContext } data (by omega)
    (Value_withValue_challenge _ _)
  refine ⟨c, hc, ?_⟩
  rw [hv]
  simp only [verifyResponseBody, unmarshalBody, hu, hashFnOfName_some srv.treeHashAlgo hfs hsrv,
    hg, decodeInto_built hs data hfc hfs client.treeHashAlgo srv.treeHashAlgo t hbuilt h3 hclient]

theorem RequestChallenge_panic {β : Type} (f : MTServerWrapper) (codec : Codec β)
    (h : makeslicePanics 16 f.dataBlockCount = true ∨
      (0 < f.dataBlockCount ∧ makeslicePanics 4 f.dataBlockSize = true))
    (r : Rand) (resp : Response β) (req : Request β) :
    f.RequestChallenge codec r resp req = .panic "makeslice: len out of range" := by
  rcases h with h | ⟨h1, h2⟩
  · simp [MTServerWrapper.RequestChallenge, h]
  · obtain ⟨n, hn⟩ : ∃ n, f.dataBlockCount.toNat = n + 1 :=
      ⟨f.dataBlockCount.toNat - 1, by omega⟩
    by_cases hc : makeslicePanics 16 f.dataBlockCount = true
    · simp [MTServerWrapper.RequestChallenge, hc]
    · simp [MTServerWrapper.RequestChallenge, hc, hn, genBlocks, randString, h2]

theorem SolveChallenge_small {β : Type} (f : MTClientWrapper) (hs : Hashers) (codec : Codec β)
    (b : β) (data : List TreeContent) (hb : codec.jsonUnmarshalChallenge b = .ok data)
    (hlen : data.length < 3) :
    f.SolveChallenge hs codec (some b) =
      .ret (.error ("building merkle tree: " ++
        "count of leafs should be >= 4 for reliability")) := by
  have hK : findK data.length < 2 := by
    by_contra hc
    have := (findK_ge_two_iff data.length).1 (by omega)
    omega
  simp only [MTClientWrapper.SolveChallenge, unmarshalBody, hb,
    New_small hs (treeContentOps hs) data f.treeHashAlgo hK]

/-- A challenge that was issued and solved comes from a wrapper with at least three data
blocks of a non-negative size, both within the limit of `make`. -/
theorem solved_inv {β : Type} (srv : MTServerWrapper) (client : MTClientWrapper)
    (hs : Hashers) (codec : Codec β) (hlaw : codec.Lawful) (r : Rand) (resp : Response β)
    (req : Request β) (out1 : Served Rand β) (sol : β)
    (hreq : srv.RequestChallenge codec r resp req = .ret out1)
    (hsol : client.SolveChallenge hs codec out1.resp.Body = .ret (.ok sol)) :
    3 ≤ srv.dataBlockCount ∧ makeslicePanics 16 srv.dataBlockCount = false ∧
      makeslicePanics 4 srv.dataBlockSize = false := by
  by_cases hp : makeslicePanics 16 srv.dataBlockCount = true ∨
      (0 < srv.dataBlockCount ∧ makeslicePanics 4 srv.dataBlockSize = true)
  · rw [RequestChallenge_panic srv codec hp] at hreq
    simp at hreq
  · have hcount : makeslicePanics 16 srv.dataBlockCount = false := by
      cases hq : makeslicePanics 16 srv.dataBlockCount with
      | false => rfl
      | true => exact absurd (Or.inl hq) hp
    have hsize : 0 < srv.dataBlockCount → makeslicePanics 4 srv.dataBlockSize = false := by
      intro h
      cases hq : makeslicePanics 4 srv.dataBlockSize with
      | false => rfl
      | true => exact absurd (Or.inr ⟨h, hq⟩) hp
    by_cases h3 : 3 ≤ srv.dataBlockCount
    · exact ⟨h3, hcount, hsize (by omega)⟩
    · exfalso
      obtain ⟨data, r1, b, hlen, hb, heq⟩ :=
        RequestChallenge_spec srv codec hlaw hcount hsize r resp req
      rw [heq] at hreq
      have ho := Exec.ret.inj hreq
      subst ho
      rw [SolveChallenge_small client hs codec b data hb (by rw [hlen]; omega)] at hsol
      simp at hsol

/-! ### The claims about the proof-of-work exchange -/

/-- C5, as the claim states it, fails: the wrapper takes its two sizes as they are given.
A server wrapper with three data blocks of size -1 does not return from
`RequestChallenge`, because `make([]rune, -1)` in `randString` panics; nor does one with
three data blocks of `2^62` runes, or one with `2^62` data blocks, whose slices are beyond
what the runtime gives to one slice. -/
theorem C5_counterexample :
    (3 : Int) ≤ ({ dataBlockCount := 3, dataBlockSize := -1, treeHashAlgo := "sha256" } :
      MTServerWrapper).dataBlockCount ∧
    MTServerWrapper.RequestChallenge
      { dataBlockCount := 3, dataBlockSize := -1, treeHashAlgo := "sha256" } wireCodec zeroRand
      { Status := 0, Body := none }
      { Method := "request-challenge", Body := none, ConnContext := Context.Background,
        RequestContext := Context.Background } = .panic "makeslice: len out of range" ∧
    MTServerWrapper.RequestChallenge
      { dataBlockCount := 3, dataBlockSize := 2 ^ 62, treeHashAlgo := "sha256" } wireCodec
      zeroRand { Status := 0, Body := none }
      { Method := "request-challenge", Body := none, ConnContext := Context.Background,
        RequestContext := Context.Background } = .panic "makeslice: len out of range" ∧
    MTServerWrapper.RequestChallenge
      { dataBlockCount := 2 ^ 62, dataBlockSize := 2, treeHashAlgo := "sha256" } wireCodec
      zeroRand { Status := 0, Body := none }
      { Method := "request-challenge", Body := none, ConnContext := Context.Background,
        RequestContext := Context.Background } = .panic "makeslice: len out of range" :=
  ⟨by decide, rfl, rfl, rfl⟩

/-- C5, amended. For a server wrapper with `dataBlockCount >= 3` and a non-negative
`dataBlockSize`, both small enough for every slice the exchange makes to be within the
limit of the runtime (4 bytes for each rune of a block; for each block 16 bytes in the
challenge, less than 32 among the leaves and less than 96 among the nodes of the tree), a
hash algorithm among `sha256` and `sha512` shared by server and client, and codecs that
decode what they encode: whatever the random source draws, `RequestChallenge` returns
status OK with a challenge body, `SolveChallenge` succeeds on that body, and
`VerifyChallengeResponse` on the solution, in the connection context `RequestChallenge`
left, returns no error, status OK and an empty body. -/
theorem C5_exchange_succeeds {β : Type} (srv : MTServerWrapper) (client : MTClientWrapper)
    (hs : Hashers) (codec : Codec β) (hlaw : codec.Lawful) (algo : String)
    (halgo : algo = SHA_256 ∨ algo = SHA_512) (hsrv : srv.treeHashAlgo = algo)
    (hclient : client.treeHashAlgo = algo) (hcount : 3 ≤ srv.dataBlockCount)
    (hcountMax : 96 * srv.dataBlockCount ≤ (maxAlloc : Int))
    (hsize : 0 ≤ srv.dataBlockSize) (hsizeMax : 4 * srv.dataBlockSize ≤ (maxAlloc : Int))
    (r : Rand) (resp : Response β) (req : Request β) :
    ∃ out1 body sol, srv.RequestChallenge codec r resp req = .ret out1 ∧
      out1.err = none ∧ out1.resp.Status = OK ∧ out1.resp.Body = some body ∧
      client.SolveChallenge hs codec out1.resp.Body = .ret (.ok sol) ∧
      ∀ (r1 : Rand) (resp1 : Response β), ∃ out2,
        srv.VerifyChallengeResponse hs codec r1 resp1 { out1.req with Body := some sol } =
          .ret out2 ∧
        out2.err = none ∧ out2.resp.Status = OK ∧ out2.resp.Body = none := by
  have hc16 : makeslicePanics 16 srv.dataBlockCount = false :=
    (makeslicePanics_false 16 _).2 ⟨by omega, by push_cast; omega⟩
  have hs4 : makeslicePanics 4 srv.dataBlockSize = false :=
    (makeslicePanics_false 4 _).2 ⟨hsize, by push_cast; omega⟩
  obtain ⟨hf, hhf⟩ := hashFnOfName_supported algo halgo
  obtain ⟨out1, body, sol, data, t, h1, h2, h3, h4, h5, hbuilt, hlen, hv⟩ :=
    exchange_spec srv client hs codec hlaw hf hf hcount hc16 hs4 (by rw [hclient]; exact hhf)
      (by rw [hsrv]; exact hhf) r resp req
  refine ⟨out1, body, sol, h1, h2, h3, h4, h5, ?_⟩
  intro r1 resp1
  obtain ⟨c, hc, hveq⟩ := hv r1 resp1
  have hK := (findK_ge_two_iff _).2 hlen
  have hfound : VerifyContent hs (treeContentOps hs) (withStrategy t hf) c =
      .ret (true, none) := by
    have hself : withStrategy t hf = t := by
      rw [← hbuilt.hfn]; exact withStrategy_self t
    rw [hself]
    exact VerifyContent_mem hs (treeContentOps hs) t c
      (hbuilt.hashInvariant (fun leaf _ => treeContent_hash hs leaf))
      (by have := hbuilt.four_le hK; omega) (treeContent_equals hs) (hbuilt.mem_leafs c hc)
  rw [hfound] at hveq
  exact ⟨_, hveq, rfl, rfl, rfl⟩

/-- Witness of C5 (amended): three blocks of two letters, `sha256` on both sides. -/
theorem C5_exchange_succeeds_witness :
    (3 : Int) ≤ 3 ∧ 96 * (3 : Int) ≤ (maxAlloc : Int) ∧ (0 : Int) ≤ 2 ∧
    4 * (2 : Int) ≤ (maxAlloc : Int) ∧
    ∃ out1 body sol,
      MTServerWrapper.RequestChallenge
        { dataBlockCount := 3, dataBlockSize := 2, treeHashAlgo := "sha256" } wireCodec
        zeroRand { Status := 0, Body := none }
        { Method := "request-challenge", Body := none, ConnContext := Context.Background,
          RequestContext := Context.Background } = .ret out1 ∧
      out1.err = none ∧ out1.resp.Status = OK ∧ out1.resp.Body = some body ∧
      MTClientWrapper.SolveChallenge { treeHashAlgo := "sha256" } toyHashers wireCodec
        out1.resp.Body = .ret (.ok sol) ∧
      ∀ (r1 : Rand) (resp1 : Response Wire), ∃ out2,
        MTServerWrapper.VerifyChallengeResponse
          { dataBlockCount := 3, dataBlockSize := 2, treeHashAlgo := "sha256" } toyHashers
          wireCodec r1 resp1 { out1.req with Body := some sol } = .ret out2 ∧
        out2.err = none ∧ out2.resp.Status = OK ∧ out2.resp.Body = none :=
  ⟨by decide, by decide, by decide, by decide,
   C5_exchange_succeeds { dataBlockCount := 3, dataBlockSize := 2, treeHashAlgo := "sha256" }
     { treeHashAlgo := "sha256" } toyHashers wireCodec wireCodec_lawful "sha256" (Or.inl rfl)
     rfl rfl (by decide) (by decide) (by decide) (by decide) zeroRand
     { Status := 0, Body := none }
     { Method := "request-challenge", Body := none, ConnContext := Context.Background,
       RequestContext := Context.Background }⟩

/-- C6. When a challenge was issued and the client solved it with one of the two supported
hash algorithms while the server is configured with the other, and the two digest
functions differ on every input, `VerifyChallengeResponse` on the solution returns the
error "tree content not found in the tree", whatever leaf the random source picks, and
leaves the response untouched. -/
theorem C6_algorithm_mismatch_not_found {β : Type} (srv : MTServerWrapper)
    (client : MTClientWrapper) (hs : Hashers) (codec : Codec β) (hlaw : codec.Lawful)
    (r : Rand) (resp : Response β) (req : Request β) (out1 : Served Rand β) (sol : β)
    (hreq : srv.RequestChallenge codec r resp req = .ret out1)
    (hsol : client.SolveChallenge hs codec out1.resp.Body = .ret (.ok sol))
    (halgo : (client.treeHashAlgo = SHA_256 ∧ srv.treeHashAlgo = SHA_512) ∨
      (client.treeHashAlgo = SHA_512 ∧ srv.treeHashAlgo = SHA_256))
    (hdiff : ∀ x, hs.sha256 x ≠ hs.sha512 x) :
    ∀ (r1 : Rand) (resp1 : Response β), ∃ out2,
      srv.VerifyChallengeResponse hs codec r1 resp1 { out1.req with Body := some sol } =
        .ret out2 ∧
      out2.err = some "tree content not found in the tree" ∧ out2.resp = resp1 := by
  obtain ⟨hcount, hcountMax, hsize⟩ :=
    solved_inv srv client hs codec hlaw r resp req out1 sol hreq hsol
  obtain ⟨hfc, hfs, hhc, hhs, hne⟩ : ∃ hfc hfs, hashFnOfName client.treeHashAlgo = some hfc ∧
      hashFnOfName srv.treeHashAlgo = some hfs ∧ ∀ x, hs.run hfs x ≠ hs.run hfc x := by
    rcases halgo with ⟨h1, h2⟩ | ⟨h1, h2⟩
    · refine ⟨.sha256, .sha512, by rw [h1]; decide, by rw [h2]; decide, ?_⟩
      intro x e
      exact hdiff x e.symm
    · refine ⟨.sha512, .sha256, by rw [h1]; decide, by rw [h2]; decide, ?_⟩
      intro x e
      exact hdiff x e
  obtain ⟨out1a, body, sola, data, t, h1, -, -, -, h5, hbuilt, hlen, hv⟩ :=
    exchange_spec srv client hs codec hlaw hfc hfs hcount hcountMax hsize hhc hhs r resp req
  rw [hreq] at h1
  have ho := Exec.ret.inj h1
  subst ho
  rw [hsol] at h5
  have hs2 : sol = sola := by simpa using h5
  subst hs2
  intro r1 resp1
  obtain ⟨c, hc, hveq⟩ := hv r1 resp1
  have hK := (findK_ge_two_iff _).2 hlen
  have hnf : VerifyContent hs (treeContentOps hs) (withStrategy t hfs) c =
      .ret (false, none) :=
    VerifyContent_wrong_strategy hs (treeContentOps hs) t c
      (hbuilt.hashInvariant (fun leaf _ => treeContent_hash hs leaf))
      (by have := hbuilt.four_le hK; omega) hfs (by rw [hbuilt.hfn]; exact hne)
      (treeContent_equals hs) (hbuilt.mem_leafs c hc)
  rw [hnf] at hveq
  exact ⟨_, hveq, rfl, rfl⟩

/-- Witness of C6: the server uses `sha256`, the client has solved with `sha512`. -/
theorem C6_algorithm_mismatch_not_found_witness :
    MTClientWrapper.SolveChallenge { treeHashAlgo := "sha512" } toyHashers wireCodec
      issued.resp.Body = .ret (.ok (.response (.gob solvedTree.toGob))) ∧
    ∀ (r1 : Rand) (resp1 : Response Wire), ∃ out2,
      MTServerWrapper.VerifyChallengeResponse
        { dataBlockCount := 3, dataBlockSize := 2, treeHashAlgo := "sha256" } toyHashers
        wireCodec r1 resp1
        { issued.req with Body := some (.response (.gob solvedTree.toGob)) } = .ret out2 ∧
      out2.err = some "tree content not found in the tree" ∧ out2.resp = resp1 :=
  ⟨by decide,
   C6_algorithm_mismatch_not_found
     { dataBlockCount := 3, dataBlockSize := 2, treeHashAlgo := "sha256" }
     { treeHashAlgo := "sha512" } toyHashers wireCodec wireCodec_lawful zeroRand
     { Status := 0, Body := none }
     { Method := "request-challenge", Body := none, ConnContext := Context.Background,
       RequestContext := Context.Background }
     issued (.response (.gob solvedTree.toGob)) rfl (by decide) (Or.inr ⟨rfl, rfl⟩)
     (fun x => by simp [toyHashers])⟩

/-! ### The admission-control middleware -/

theorem not_admitted_of_unadmitted (ctx : Context) (h : Unadmitted ctx) : ¬ Admitted ctx := by
  intro ha
  unfold Admitted at ha
  rcases h with h | h <;> rw [h] at ha <;> simp at ha

theorem ServeTCPPOW_unadmitted {ω β : Type} (h : ChallengeResponseHandler ω β) (w : ω)
    (resp : Response β) (req : Request β) (hun : Unadmitted req.ConnContext) :
    h.ServeTCPPOW w resp req =
      if req.Method = "request-challenge" then h.requestChallenge w resp req
      else if req.Method = "verify-challenge" then h.verifyChallengeResponse w resp req
      else
        ([], .ret { world := w, resp := { resp with Status := METHOD_NOT_ALLOWED }, req := req,
                    err := some "invalid method" }) := by
  rcases hun with hv | hv
  · simp only [ChallengeResponseHandler.ServeTCPPOW, hv]
  · simp only [ChallengeResponseHandler.ServeTCPPOW, hv]
    simp

theorem ServeTCPPOW_admitted {ω β : Type} (h : ChallengeResponseHandler ω β) (w : ω)
    (resp : Response β) (req : Request β) (hadm : Admitted req.ConnContext) :
    h.ServeTCPPOW w resp req = ([.next], h.next w resp req) := by
  unfold Admitted at hadm
  simp only [ChallengeResponseHandler.ServeTCPPOW, hadm]
  simp

theorem mt_RequestChallenge_access {β : Type} (f : MTServerWrapper) (codec : Codec β)
    (r : Rand) (resp : Response β) (req : Request β) (o : Served Rand β)
    (h : f.RequestChallenge codec r resp req = .ret o) :
    o.req.ConnContext.Value .connRequestAccessEnabledKey =
      req.ConnContext.Value .connRequestAccessEnabledKey := by
  unfold MTServerWrapper.RequestChallenge at h
  split at h
  · simp at h
  · split at h
    · simp at h
    · simp at h
    · split at h
      · have ho := Exec.ret.inj h
        subst ho
        exact Value_withValue_challenge_access _ _
      · have ho := Exec.ret.inj h
        subst ho
        exact Value_withValue_challenge_access _ _

theorem verifyResponseBody_req {β : Type} (f : MTServerWrapper) (hs : Hashers)
    (codec : Codec β) (c : TreeContent) (r : Rand) (resp : Response β) (req : Request β)
    (o : Served Rand β) (h : verifyResponseBody f hs codec c r resp req = .ret o) :
    o.req = req := by
  unfold verifyResponseBody at h
  repeat' split at h
  all_goals first
    | (have ho := Exec.ret.inj h; subst ho; rfl)
    | simp at h

theorem mt_VerifyChallengeResponse_req {β : Type} (f : MTServerWrapper) (hs : Hashers)
    (codec : Codec β) (r : Rand) (resp : Response β) (req : Request β) (o : Served Rand β)
    (h : f.VerifyChallengeResponse hs codec r resp req = .ret o) : o.req = req := by
  unfold MTServerWrapper.VerifyChallengeResponse at h
  split at h
  · exact verifyResponseBody_req f hs codec _ _ resp req o h
  · split at h
    · simp at h
    · simp only [] at h
      split at h
      · simp at h
      · exact verifyResponseBody_req f hs codec _ _ resp req o h
  · have ho := Exec.ret.inj h
    subst ho
    rfl

/-- The Merkle-tree wrapper never sets the access flag. -/
theorem mt_keeps_unadmitted {β : Type} (f : MTServerWrapper) (hs : Hashers) (codec : Codec β)
    (w1 : Rand) (resp1 : Response β) (req1 : Request β) (o : Served Rand β)
    (h : (f.serverFunction hs codec).RequestChallenge w1 resp1 req1 = .ret o ∨
      (f.serverFunction hs codec).VerifyChallengeResponse w1 resp1 req1 = .ret o)
    (hn : ¬ Admitted req1.ConnContext) : ¬ Admitted o.req.ConnContext := by
  rcases h with h | h
  · unfold Admitted at hn ⊢
    rw [mt_RequestChallenge_access f codec w1 resp1 req1 o h]
    exact hn
  · rw [mt_VerifyChallengeResponse_req f hs codec w1 resp1 req1 o h]
    exact hn

theorem serveConnection_admitted {ω β : Type} (h : ChallengeResponseHandler ω β)
    (hnext : ∀ w resp req o, h.next w resp req = .ret o → o.req.ConnContext = req.ConnContext) :
    ∀ (rs : List (String × β)) (w : ω) (ctx : Context), Admitted ctx →
      serveConnection h.ServeTCPPOW w ctx rs =
        serveConnection (fun w1 resp1 req1 => ([Call.next], h.next w1 resp1 req1)) w ctx rs := by
  intro rs
  induction rs with
  | nil => intro w ctx _; rfl
  | cons rq rest ih =>
    intro w ctx hadm
    obtain ⟨method, body⟩ := rq
    simp only [serveConnection]
    rw [ServeTCPPOW_admitted h w _ _ hadm]
    cases hn : h.next w { Status := 0, Body := none }
        { Method := method, Body := some body, ConnContext := ctx,
          RequestContext := Context.Background } with
    | panic m => rfl
    | timeout => rfl
    | ret out =>
      simp only []
      cases he : out.err with
      | some e => rfl
      | none =>
        simp only []
        rw [ih out.world out.req.ConnContext (by rw [hnext _ _ _ _ hn]; exact hadm)]

theorem serveRequests_admitted {ω β : Type} (h : ChallengeResponseHandler ω β)
    (hnext : ∀ w resp req o, h.next w resp req = .ret o → o.req.ConnContext = req.ConnContext) :
    ∀ (qs : List (String × Option β)) (w : ω) (ctx : Context), Admitted ctx →
      serveRequests h.ServeTCPPOW w ctx qs =
        serveRequests (fun w1 resp1 req1 => ([Call.next], h.next w1 resp1 req1)) w ctx qs := by
  intro qs
  induction qs with
  | nil => intro w ctx _; rfl
  | cons rq rest ih =>
    intro w ctx hadm
    obtain ⟨method, body⟩ := rq
    simp only [serveRequests]
    rw [ServeTCPPOW_admitted h w _ _ hadm]
    cases hn : h.next w { Status := 0, Body := none }
        { Method := method, Body := body, ConnContext := ctx,
          RequestContext := Context.Background } with
    | panic m => rfl
    | timeout => rfl
    | ret out =>
      simp only []
      cases he : out.err with
      | some e => rfl
      | none =>
        simp only []
        rw [ih out.world out.req.ConnContext (by rw [hnext _ _ _ _ hn]; exact hadm)]

/-- C7. For a request served by `ServeTCPPOW` on a connection context that is not
admitted, with a PoW function that does not itself set the access flag (the key type is
unexported, so no other package can): the context after the call carries the flag exactly
when the method is "verify-challenge" and `VerifyChallengeResponse` returned no error;
the downstream handler is not called. -/
theorem C7_admission_only_by_proof {ω β : Type} (h : ChallengeResponseHandler ω β) (w : ω)
    (resp : Response β) (req : Request β) (out : Served ω β)
    (hun : Unadmitted req.ConnContext)
    (hpow : ∀ w1 resp1 req1 o, (h.powFn.RequestChallenge w1 resp1 req1 = .ret o ∨
      h.powFn.VerifyChallengeResponse w1 resp1 req1 = .ret o) →
      ¬ Admitted req1.ConnContext → ¬ Admitted o.req.ConnContext)
    (hret : (h.ServeTCPPOW w resp req).2 = .ret out) :
    (Admitted out.req.ConnContext ↔
      (req.Method = "verify-challenge" ∧
        ∃ o, h.powFn.VerifyChallengeResponse w resp req = .ret o ∧ o.err = none)) ∧
    Call.next ∉ (h.ServeTCPPOW w resp req).1 := by
  have hna := not_admitted_of_unadmitted _ hun
  by_cases h1 : req.Method = "request-challenge"
  · have h2 : ¬ req.Method = "verify-challenge" := by rw [h1]; decide
    have hd : h.ServeTCPPOW w resp req =
        ([.powRequestChallenge], h.powFn.RequestChallenge w resp req) := by
      rw [ServeTCPPOW_unadmitted h w resp req hun, if_pos h1]
      rfl
    rw [hd] at hret ⊢
    refine ⟨⟨fun ha => absurd ha (hpow w resp req out (Or.inl hret) hna), ?_⟩, by simp⟩
    rintro ⟨hm, -⟩
    exact absurd hm h2
  · by_cases h2 : req.Method = "verify-challenge"
    · have hd : h.ServeTCPPOW w resp req = h.verifyChallengeResponse w resp req := by
        rw [ServeTCPPOW_unadmitted h w resp req hun, if_neg h1, if_pos h2]
      rw [hd] at hret ⊢
      simp only [ChallengeResponseHandler.verifyChallengeResponse] at hret ⊢
      refine ⟨?_, by simp⟩
      cases hv : h.powFn.VerifyChallengeResponse w resp req with
      | panic m => rw [hv] at hret; simp at hret
      | timeout => rw [hv] at hret; simp at hret
      | ret o =>
        rw [hv] at hret
        simp only [] at hret
        cases he : o.err with
        | some e =>
          rw [he] at hret
          have ho := Exec.ret.inj hret
          subst ho
          constructor
          · intro ha
            exact absurd ha (hpow w resp req o (Or.inr hv) hna)
          · rintro ⟨-, o1, ho1, he1⟩
            have := Exec.ret.inj ho1
            subst this
            rw [he] at he1
            simp at he1
        | none =>
          rw [he] at hret
          have ho := Exec.ret.inj hret
          subst ho
          constructor
          · intro _
            exact ⟨h2, o, rfl, he⟩
          · intro _
            exact Value_withValue_access _ _
    · have hd : h.ServeTCPPOW w resp req =
          ([], .ret { world := w, resp := { resp with Status := METHOD_NOT_ALLOWED },
                      req := req, err := some "invalid method" }) := by
        rw [ServeTCPPOW_unadmitted h w resp req hun, if_neg h1, if_neg h2]
      rw [hd] at hret ⊢
      have ho := Exec.ret.inj hret
      subst ho
      refine ⟨⟨fun ha => absurd ha hna, ?_⟩, by simp⟩
      rintro ⟨hm, -⟩
      exact absurd hm h2

/-- Witness of C7: a request-challenge on a fresh connection of `toyMiddleware`. -/
theorem C7_admission_only_by_proof_witness :
    Unadmitted Context.Background ∧
    ((Admitted issued.req.ConnContext ↔
      (("request-challenge" : String) = "verify-challenge" ∧
        ∃ o, (toyMiddleware "sha256").powFn.VerifyChallengeResponse zeroRand
          { Status := 0, Body := none }
          { Method := "request-challenge", Body := none, ConnContext := Context.Background,
            RequestContext := Context.Background } = .ret o ∧ o.err = none)) ∧
     Call.next ∉ ((toyMiddleware "sha256").ServeTCPPOW zeroRand { Status := 0, Body := none }
        { Method := "request-challenge", Body := none, ConnContext := Context.Background,
          RequestContext := Context.Background }).1) :=
  ⟨Or.inl rfl,
   C7_admission_only_by_proof (toyMiddleware "sha256") zeroRand { Status := 0, Body := none }
     { Method := "request-challenge", Body := none, ConnContext := Context.Background,
       RequestContext := Context.Background } issued (Or.inl rfl)
     (fun w1 resp1 req1 o ho hn => mt_keeps_unadmitted _ toyHashers wireCodec w1 resp1 req1 o
       ho hn) rfl⟩

/-- C8. After a verify-challenge that succeeded on an unadmitted connection, the connection
is admitted, and from then on the middleware is the downstream handler: on an admitted
connection a request of any method and body gets the outcome of the downstream handler
itself, with its status, its body, its error and the request as it leaves it, the call to
the downstream handler being the only call made; and every further sequence of requests on
the connection, whatever their methods and bodies, is served request by request with the
outcomes of the downstream handler alone and writes what the downstream handler alone
would write, as long as the downstream handler leaves the connection context as it is. -/
theorem C8_admitted_is_transparent {ω β : Type} (h : ChallengeResponseHandler ω β)
    (hnext : ∀ w resp req o, h.next w resp req = .ret o → o.req.ConnContext = req.ConnContext)
    (w : ω) (resp : Response β) (req : Request β) (out : Served ω β)
    (hm : req.Method = "verify-challenge") (hun : Unadmitted req.ConnContext)
    (hret : (h.ServeTCPPOW w resp req).2 = .ret out) (herr : out.err = none)
    (rs : List (String × β)) (qs : List (String × Option β)) :
    Admitted out.req.ConnContext ∧
    (∀ w1 resp1 req1, Admitted req1.ConnContext →
      h.ServeTCPPOW w1 resp1 req1 = ([Call.next], h.next w1 resp1 req1)) ∧
    serveRequests h.ServeTCPPOW out.world out.req.ConnContext qs =
      serveRequests (fun w1 resp1 req1 => ([Call.next], h.next w1 resp1 req1))
        out.world out.req.ConnContext qs ∧
    serveConnection h.ServeTCPPOW out.world out.req.ConnContext rs =
      serveConnection (fun w1 resp1 req1 => ([Call.next], h.next w1 resp1 req1))
        out.world out.req.ConnContext rs := by
  have hadm : Admitted out.req.ConnContext := by
    rw [ServeTCPPOW_unadmitted h w resp req hun] at hret
    have h1 : ¬ req.Method = "request-challenge" := by rw [hm]; decide
    simp only [h1, if_false, hm, if_true,
      ChallengeResponseHandler.verifyChallengeResponse] at hret
    cases hv : h.powFn.VerifyChallengeResponse w resp req with
    | panic m => rw [hv] at hret; simp at hret
    | timeout => rw [hv] at hret; simp at hret
    | ret o =>
      rw [hv] at hret
      simp only [] at hret
      cases he : o.err with
      | some e =>
        rw [he] at hret
        have ho := Exec.ret.inj hret
        subst ho
        simp at herr
      | none =>
        rw [he] at hret
        have ho := Exec.ret.inj hret
        subst ho
        exact Value_withValue_access _ _
  exact ⟨hadm, fun w1 resp1 req1 h1 => ServeTCPPOW_admitted h w1 resp1 req1 h1,
    serveRequests_admitted h hnext qs out.world out.req.ConnContext hadm,
    serveConnection_admitted h hnext rs out.world out.req.ConnContext hadm⟩

/-- C9. On an unadmitted connection, a request whose method is neither "request-challenge"
nor "verify-challenge" gets the status METHOD_NOT_ALLOWED and the error "invalid method";
no call is made to the PoW function or to the downstream handler, and the request with its
connection context is left as it was. -/
theorem C9_unknown_method_rejected {ω β : Type} (h : ChallengeResponseHandler ω β) (w : ω)
    (resp : Response β) (req : Request β) (hun : Unadmitted req.ConnContext)
    (h1 : req.Method ≠ "request-challenge") (h2 : req.Method ≠ "verify-challenge") :
    h.ServeTCPPOW w resp req =
      ([], .ret { world := w, resp := { resp with Status := METHOD_NOT_ALLOWED }, req := req,
                  err := some "invalid method" }) ∧
    METHOD_NOT_ALLOWED = 405 := by
  rw [ServeTCPPOW_unadmitted h w resp req hun]
  simp [h1, h2, METHOD_NOT_ALLOWED]

/-- Witness of C9: a get-wisdom request on a fresh connection. -/
theorem C9_unknown_method_rejected_witness :
    (toyMiddleware "sha256").ServeTCPPOW zeroRand { Status := 0, Body := none }
      { Method := "get-wisdom", Body := some .junk, ConnContext := Context.Background,
        RequestContext := Context.Background } =
      ([], .ret { world := zeroRand, resp := { Status := METHOD_NOT_ALLOWED, Body := none },
                  req := { Method := "get-wisdom", Body := some .junk,
                           ConnContext := Context.Background,
                           RequestContext := Context.Background },
                  err := some "invalid method" }) ∧
    METHOD_NOT_ALLOWED = 405 :=
  C9_unknown_method_rejected (toyMiddleware "sha256") zeroRand { Status := 0, Body := none }
    { Method := "get-wisdom", Body := some .junk, ConnContext := Context.Background,
      RequestContext := Context.Background } (Or.inl rfl) (by decide) (by decide)

/-- Witness of C8: after `solvedRequest` is accepted, a get-wisdom request and a further
verify-challenge request, with a body and without one, are served by the downstream
handler. -/
theorem C8_admitted_is_transparent_witness :
    Admitted admittedOut.req.ConnContext ∧
    (∀ w1 resp1 req1, Admitted req1.ConnContext →
      (toyMiddleware "sha512").ServeTCPPOW w1 resp1 req1 =
        ([Call.next], (toyMiddleware "sha512").next w1 resp1 req1)) ∧
    serveRequests (toyMiddleware "sha512").ServeTCPPOW admittedOut.world
        admittedOut.req.ConnContext [("get-wisdom", none), ("verify-challenge", some .junk)] =
      serveRequests
        (fun w1 resp1 req1 => ([Call.next], (toyMiddleware "sha512").next w1 resp1 req1))
        admittedOut.world admittedOut.req.ConnContext
        [("get-wisdom", none), ("verify-challenge", some .junk)] ∧
    serveConnection (toyMiddleware "sha512").ServeTCPPOW admittedOut.world
        admittedOut.req.ConnContext [("get-wisdom", .junk), ("verify-challenge", .junk)] =
      serveConnection
        (fun w1 resp1 req1 => ([Call.next], (toyMiddleware "sha512").next w1 resp1 req1))
        admittedOut.world admittedOut.req.ConnContext
        [("get-wisdom", .junk), ("verify-challenge", .junk)] :=
  C8_admitted_is_transparent (toyMiddleware "sha512")
    (fun w resp req o ho => by
      have := Exec.ret.inj ho
      subst this
      rfl)
    zeroRand { Status := 0, Body := none } solvedRequest admittedOut rfl (Or.inl rfl) rfl rfl
    [("get-wisdom", .junk), ("verify-challenge", .junk)]
    [("get-wisdom", none), ("verify-challenge", some .junk)]

/-- C10 fails on the code: a client that never asked for a challenge sends, on a fresh
connection, a tree it has built over empty blocks. No value is stored under the challenge
key, `contentToVerify` stays the zero `TreeContent`, which the forged tree contains, so
`VerifyChallengeResponse` returns no error and status OK, and the middleware sets the
access flag. -/
theorem C10_verify_without_challenge_is_accepted :
    New toyHashers (treeContentOps toyHashers) [{ X := "" }, { X := "" }, { X := "" }] "sha256" =
      .ret (.ok forgedTree) ∧
    forgedRequest.ConnContext.Value .connRequestChallengeKey = none ∧
    ((MTServerWrapper.VerifyChallengeResponse
        { dataBlockCount := 3, dataBlockSize := 2, treeHashAlgo := "sha256" } toyHashers
        wireCodec zeroRand { Status := 0, Body := none } forgedRequest).returned.map
      (fun o => (o.err, o.resp))) = some (none, { Status := OK, Body := none }) ∧
    (((toyMiddleware "sha256").ServeTCPPOW zeroRand { Status := 0, Body := none }
        forgedRequest).2.returned.map
      (fun o => (o.err, o.req.ConnContext.Value .connRequestAccessEnabledKey))) =
      some (none, some (.bool true)) := by
  decide

/-! ### Rejections of New -/

/-- C11. `New` returns the error "count of leafs should be >= 4 for reliability" (and no
tree) exactly when `findK` of the number of leaves is below 2, that is exactly when 0, 1
or 2 leaves are supplied, whatever the algorithm name; three leaves with a supported
algorithm are accepted and padded to four by a copy of the last. -/
theorem C11_minimum_size_rejection {α : Type} (hs : Hashers) (ops : LeafContent α)
    (leafs : List α) (name : String) (a b c : α) (name3 : String) :
    (New hs ops leafs name = .ret (.error "count of leafs should be >= 4 for reliability") ↔
      findK leafs.length < 2) ∧
    (findK leafs.length < 2 ↔ leafs.length ≤ 2) ∧
    ((name3 = SHA_256 ∨ name3 = SHA_512) →
      ∃ t, New hs ops [a, b, c] name3 = .ret (.ok t) ∧ t.Leafs = [a, b, c, c]) := by
  have hiff : findK leafs.length < 2 ↔ leafs.length ≤ 2 := by
    have := findK_ge_two_iff leafs.length
    omega
  refine ⟨⟨?_, New_small hs ops leafs name⟩, hiff, ?_⟩
  · intro h
    by_contra hK
    have hK2 : 2 ≤ findK leafs.length := by omega
    cases hn : hashFnOfName name with
    | none =>
      rw [New_badName hs ops leafs name hK2 hn] at h
      have h1 := Except.error.inj (Exec.ret.inj h)
      revert h1
      decide
    | some hf =>
      obtain ⟨t, ht, -⟩ := New_built hs ops leafs name hf hK2 hn
      rw [ht] at h
      simp at h
  · intro hname
    obtain ⟨hf, hhf⟩ := hashFnOfName_supported name3 hname
    have hk : findK [a, b, c].length = 2 := by
      show findK 3 = 2
      decide
    have h3 : 2 ≤ findK [a, b, c].length := by omega
    obtain ⟨t, ht, hb⟩ := New_built hs ops [a, b, c] name3 hf h3 hhf
    refine ⟨t, ht, ?_⟩
    have hlen : t.Leafs.length = 4 := by
      rw [hb.hlen, hk]; rfl
    apply List.ext_getElem?
    intro i
    by_cases hi : i < 4
    · have h4 : i < 2 ^ findK [a, b, c].length := by
        rw [hk]; omega
      rw [hb.hleafs i h4]
      have hcases : i = 0 ∨ i = 1 ∨ i = 2 ∨ i = 3 := by omega
      rcases hcases with h | h | h | h <;> subst h <;> simp
    · rw [List.getElem?_eq_none (by omega), List.getElem?_eq_none (by simp; omega)]

/-- Witness of C11: two leaves are refused under any name, three are padded to four. -/
theorem C11_minimum_size_rejection_witness :
    (New toyHashers natLeaf [7, 8] "md5" =
        .ret (.error "count of leafs should be >= 4 for reliability") ↔
      findK [7, 8].length < 2) ∧
    (findK [7, 8].length < 2 ↔ [7, 8].length ≤ 2) ∧
    ((("sha256" : String) = SHA_256 ∨ ("sha256" : String) = SHA_512) →
      ∃ t, New toyHashers natLeaf [7, 8, 9] "sha256" = .ret (.ok t) ∧
        t.Leafs = [7, 8, 9, 9]) :=
  C11_minimum_size_rejection toyHashers natLeaf [7, 8] "md5" 7 8 9 "sha256"

/-- C12. `NewEmptyTree` succeeds exactly for the names "sha256" and "sha512"; for any
other name it returns the error "invalid hash strategy", and so does `New` when it is
given at least three leaves. -/
theorem C12_unsupported_algorithm {α : Type} (hs : Hashers) (ops : LeafContent α)
    (name : String) :
    ((∃ t, (NewEmptyTree name : Except String (MerkleTree α)) = .ok t) ↔
      (name = "sha256" ∨ name = "sha512")) ∧
    (¬ (name = "sha256" ∨ name = "sha512") →
      (NewEmptyTree name : Except String (MerkleTree α)) = .error "invalid hash strategy" ∧
      ∀ leafs : List α, 3 ≤ leafs.length →
        New hs ops leafs name = .ret (.error "invalid hash strategy")) := by
  have hnone : ¬ (name = "sha256" ∨ name = "sha512") → hashFnOfName name = none := by
    intro h
    unfold hashFnOfName
    have h1 : ¬ name = SHA_256 := fun e => h (Or.inl e)
    have h2 : ¬ name = SHA_512 := fun e => h (Or.inr e)
    simp [h1, h2]
  constructor
  · constructor
    · rintro ⟨t, ht⟩
      by_contra h
      rw [hashFnOfName_none name (hnone h)] at ht
      simp at ht
    · intro h
      obtain ⟨hf, hhf⟩ := hashFnOfName_supported name h
      exact ⟨_, hashFnOfName_some name hf hhf⟩
  · intro h
    refine ⟨hashFnOfName_none name (hnone h), ?_⟩
    intro leafs h3
    exact New_badName hs ops leafs name ((findK_ge_two_iff _).2 h3) (hnone h)

/-- Witness of C12: the name of the test, "invalidHashStrategy". -/
theorem C12_unsupported_algorithm_witness :
    (NewEmptyTree "invalidHashStrategy" : Except String (MerkleTree Nat)) =
      .error "invalid hash strategy" ∧
    ∀ leafs : List Nat, 3 ≤ leafs.length →
      New toyHashers natLeaf leafs "invalidHashStrategy" =
        .ret (.error "invalid hash strategy") :=
  (C12_unsupported_algorithm toyHashers natLeaf "invalidHashStrategy").2 (by decide)

/-! ### findK on 64-bit integers -/

theorem clog_unique (n r : Nat) (h1 : n ≤ 2 ^ r) (h2 : r = 0 ∨ 2 ^ (r - 1) < n) :
    r = Nat.clog 2 n := by
  apply le_antisymm
  · rcases h2 with h0 | hlt
    · omega
    · have := (Nat.pow_lt_iff_lt_clog (by decide : 1 < 2)).1 hlt
      omega
  · exact (Nat.le_pow_iff_clog_le (by decide : 1 < 2)).1 h1

theorem shl64_one (K : Nat) (hK : K ≤ 62) : shl64 1 K = ((2 ^ K : Nat) : Int) := by
  have h1 : 2 ^ K ≤ 2 ^ 62 := Nat.pow_le_pow_right (by decide) hK
  have h2 : 0 < 2 ^ K := by positivity
  have h64 : K < 64 := by omega
  simp only [shl64, h64, if_true, wrapInt64, one_mul]
  have hc : ((2 : Int) ^ K) = ((2 ^ K : Nat) : Int) := by push_cast; rfl
  rw [hc]
  generalize 2 ^ K = x at h1 h2
  norm_num at h1 ⊢
  rw [Int.emod_eq_of_lt (by omega) (by omega)]
  omega

theorem findK64Loop_spec (n : Nat) (hn : n ≤ 2 ^ 62) :
    ∀ fuel K, K ≤ 62 → 63 ≤ K + fuel → (K = 0 ∨ 2 ^ (K - 1) < n) →
      ∃ r, findK64Loop (n : Int) fuel K = some r ∧ n ≤ 2 ^ r ∧ (r = 0 ∨ 2 ^ (r - 1) < n) := by
  intro fuel
  induction fuel with
  | zero => intro K h1 h2; omega
  | succ f ih =>
    intro K h1 h2 h3
    simp only [findK64Loop, shl64_one K h1]
    by_cases hlt : 2 ^ K < n
    · have hlt2 : ((2 ^ K : Nat) : Int) < (n : Int) := by exact_mod_cast hlt
      have hK : K < 62 := by
        by_contra hc
        have : K = 62 := by omega
        subst this
        omega
      simp only [hlt2, if_true]
      exact ih (K + 1) (by omega) (by omega) (Or.inr (by simpa using hlt))
    · have hlt2 : ¬ ((2 ^ K : Nat) : Int) < (n : Int) := by exact_mod_cast hlt
      simp only [hlt2, if_false]
      exact ⟨K, rfl, by omega, h3⟩

/-- C19. Within the range where the shifts of Go's 64-bit `int` do not wrap (`n <= 2^62`),
`findK` on `int` returns the `findK n` of the model, which is the smallest `K` with
`2^K >= n`: `2^findK(n) >= n`, `findK(n) = 0` or `2^(findK(n)-1) < n`, and the values of
the test at 0, 1, 2, 4, 5 and 128. -/
theorem C19_findK_smallest_exponent (n : Nat) (hn : n ≤ 2 ^ 62) :
    findK64 (n : Int) = some (findK n) ∧
    n ≤ 2 ^ findK n ∧ (findK n = 0 ∨ 2 ^ (findK n - 1) < n) ∧
    (∀ K, n ≤ 2 ^ K → findK n ≤ K) ∧
    findK 0 = 0 ∧ findK 1 = 0 ∧ findK 2 = 1 ∧ findK 4 = 2 ∧ findK 5 = 3 ∧ findK 128 = 7 := by
  obtain ⟨h1, h2⟩ := findK_spec n
  refine ⟨?_, h1, h2, ?_, by decide, by decide, by decide, by decide, by decide, by decide⟩
  · obtain ⟨r, hr, hr1, hr2⟩ := findK64Loop_spec n hn 64 0 (by omega) (by omega) (Or.inl rfl)
    have e1 := clog_unique n r hr1 hr2
    have e2 := findK_eq_clog n
    unfold findK64
    rw [hr, e1, e2]
  · intro K hK
    rw [findK_eq_clog]
    exact (Nat.le_pow_iff_clog_le (by decide : 1 < 2)).1 hK

/-- Witness of C19: the largest leaf count of the test, 128. -/
theorem C19_findK_smallest_exponent_witness :
    findK64 128 = some 7 ∧ 128 ≤ 2 ^ findK 128 ∧ 2 ^ (findK 128 - 1) < 128 := by
  have h := C19_findK_smallest_exponent 128 (by norm_num)
  have h7 : findK 128 = 7 := h.2.2.2.2.2.2.2.2.2
  refine ⟨?_, h.2.1, ?_⟩
  · have := h.1
    rw [h7] at this
    exact this
  · rw [h7]
    norm_num

/-! ### Errors that the code lets through -/

/-- C20 fails on the code: with three leaves of which the second cannot be hashed, `New`
returns a tree and no error; the node of that leaf holds an empty hash, and its parent the
hash computed from it. -/
theorem C20_hash_error_is_not_returned :
    failingLeaf.CalculateHash 8 = .error "hash failed" ∧
    New toyHashers failingLeaf [7, 8, 9] "sha256" =
      .ret (.ok { K := 2, Leafs := [7, 8, 9, 9],
                  Nodes := [⟨[0, 0, 7, 0, 9, 9]⟩, ⟨[0, 7]⟩, ⟨[0, 9, 9]⟩, ⟨[7]⟩, ⟨[]⟩,
                            ⟨[9]⟩, ⟨[9]⟩],
                  HashStrategyName := "sha256", HashStrategy := .sha256 }) := by
  decide

theorem verifyPath_ne_timeout {α : Type} (hs : Hashers) (t : MerkleTree α) :
    ∀ fuel cur, cur < fuel → verifyPath hs t fuel cur ≠ .timeout := by
  intro fuel
  induction fuel with
  | zero => intro cur h; omega
  | succ f ih =>
    intro cur hc
    cases h1 : t.Nodes[2 * cur + 1]? with
    | none => simp [verifyPath, calculateNonLeafNode, h1]
    | some l =>
      cases h2 : t.Nodes[2 * cur + 2]? with
      | none => simp [verifyPath, calculateNonLeafNode, h1, h2]
      | some r =>
        cases h3 : t.Nodes[cur]? with
        | none => simp [verifyPath, calculateNonLeafNode, h1, h2, h3]
        | some stored =>
          simp only [verifyPath, calculateNonLeafNode, h1, h2, h3]
          split
          · simp
          · split
            · simp
            · exact ih _ (by omega)

/-- C17 fails on the code: a submitted tree with one leaf and no node makes
`VerifyContent` read `Nodes[0]` out of bounds; the panic leaves
`VerifyChallengeResponse` and the middleware and ends `serveConnection` (and with it the
process, as nothing recovers). -/
theorem C17_hostile_tree_panics :
    VerifyContent toyHashers (treeContentOps toyHashers) hostileTree { X := "" } =
      .panic "index out of range" ∧
    MTServerWrapper.VerifyChallengeResponse
        { dataBlockCount := 3, dataBlockSize := 2, treeHashAlgo := "sha256" } toyHashers
        wireCodec zeroRand { Status := 0, Body := none } hostileRequest =
      .panic "index out of range" ∧
    serveConnection (toyMiddleware "sha256").ServeTCPPOW zeroRand Context.Background
        [("verify-challenge", .response (.gob hostileTree.toGob))] =
      [([.powVerifyChallengeResponse], .panic "index out of range")] :=
  ⟨by decide, rfl, by decide⟩

/-! ### Reading lines and serving frames -/

theorem readLine_none (l : Bytes) (h : 10 ∉ l) : readLine l = none := by
  induction l with
  | nil => rfl
  | cons b l ih =>
    have hb : ¬ b = 10 := fun e => h (by simp [e])
    have hl : 10 ∉ l := fun e => h (List.mem_cons_of_mem _ e)
    simp [readLine, hb, ih hl]

theorem readLine_append (l rest : Bytes) (h : 10 ∉ l) :
    readLine (l ++ 10 :: rest) = some (l ++ [10], rest) := by
  induction l with
  | nil => simp [readLine]
  | cons b l ih =>
    have hb : ¬ b = 10 := fun e => h (by simp [e])
    have hl : 10 ∉ l := fun e => h (List.mem_cons_of_mem _ e)
    simp [readLine, hb, ih hl]

theorem readLine_length : ∀ (input line rest : Bytes), readLine input = some (line, rest) →
    rest.length < input.length := by
  intro input
  induction input with
  | nil => intro line rest h; simp [readLine] at h
  | cons b l ih =>
    intro line rest h
    simp only [readLine] at h
    split at h
    · have := Option.some.inj h
      simp only [Prod.mk.injEq] at this
      rw [← this.2]
      simp
    · cases hr : readLine l with
      | none => rw [hr] at h; simp at h
      | some p =>
        obtain ⟨line1, rest1⟩ := p
        rw [hr] at h
        have := Option.some.inj h
        simp only [Prod.mk.injEq] at this
        have hlt := ih line1 rest1 hr
        rw [← this.2]
        simp only [List.length_cons]
        omega

theorem serveLoop_fuel {ω : Type} (lib : TextLib) (handler : Handler ω Bytes) :
    ∀ (f1 f2 : Nat) (w : ω) (ctx : Context) (input : Bytes), input.length < f1 →
      input.length < f2 → serveLoop lib handler f1 w ctx input =
        serveLoop lib handler f2 w ctx input := by
  intro f1
  induction f1 with
  | zero => intro f2 w ctx input h; omega
  | succ f1 ih =>
    intro f2 w ctx input h1 h2
    obtain ⟨g2, rfl⟩ : ∃ g2, f2 = g2 + 1 := ⟨f2 - 1, by omega⟩
    simp only [serveLoop]
    cases hr1 : readLine input with
    | none => rfl
    | some p1 =>
      obtain ⟨methodLine, rest1⟩ := p1
      simp only []
      cases hr2 : readLine rest1 with
      | none => rfl
      | some p2 =>
        obtain ⟨bodyLine, rest2⟩ := p2
        simp only []
        have hl1 := readLine_length input methodLine rest1 hr1
        have hl2 := readLine_length rest1 bodyLine rest2 hr2
        cases hh : handler w { Status := 0, Body := none }
            { Method := lib.asString (lib.TrimSpace methodLine),
              Body := bodyOf (lib.TrimSpace bodyLine), ConnContext := ctx,
              RequestContext := Context.Background } with
        | panic m => rfl
        | timeout => rfl
        | ret out =>
          simp only []
          cases he : out.err with
          | some e => rfl
          | none =>
            simp only []
            rw [ih g2 out.world out.req.ConnContext rest2 (by omega) (by omega)]

/-- Serving one well-framed request: the two lines are read, the handler is called, and
the loop goes on with the rest of the input when the handler returned no error. -/
theorem serveFrom_frame {ω : Type} (lib : TextLib) (handler : Handler ω Bytes) (w : ω)
    (ctx : Context) (ml bl rest : Bytes) (hml : 10 ∉ ml) (hbl : 10 ∉ bl) :
    serveFrom lib handler w ctx (ml ++ 10 :: (bl ++ 10 :: rest)) =
      (match handler w { Status := 0, Body := none }
          { Method := lib.asString (lib.TrimSpace (ml ++ [10])),
            Body := bodyOf (lib.TrimSpace (bl ++ [10])), ConnContext := ctx,
            RequestContext := Context.Background } with
       | .panic m =>
         { requests := [{ Method := lib.asString (lib.TrimSpace (ml ++ [10])),
                          Body := bodyOf (lib.TrimSpace (bl ++ [10])), ConnContext := ctx,
                          RequestContext := Context.Background }],
           written := [], ended := .panic m }
       | .timeout =>
         { requests := [{ Method := lib.asString (lib.TrimSpace (ml ++ [10])),
                          Body := bodyOf (lib.TrimSpace (bl ++ [10])), ConnContext := ctx,
                          RequestContext := Context.Background }],
           written := [], ended := .timeout }
       | .ret out =>
         match out.err with
         | some _ =>
           { requests := [{ Method := lib.asString (lib.TrimSpace (ml ++ [10])),
                            Body := bodyOf (lib.TrimSpace (bl ++ [10])), ConnContext := ctx,
                            RequestContext := Context.Background }],
             written := statusLine INTERNAL_SERVER_ERROR, ended := .ret () }
         | none =>
           { requests := { Method := lib.asString (lib.TrimSpace (ml ++ [10])),
                           Body := bodyOf (lib.TrimSpace (bl ++ [10])), ConnContext := ctx,
                           RequestContext := Context.Background } ::
               (serveFrom lib handler out.world out.req.ConnContext rest).requests,
             written := statusLine out.resp.Status ++ (bodyBytes out.resp.Body ++ [10]) ++
               (serveFrom lib handler out.world out.req.ConnContext rest).written,
             ended := (serveFrom lib handler out.world out.req.ConnContext rest).ended }) := by
  have hstep : ∀ fuel, serveLoop lib handler (fuel + 1) w ctx (ml ++ 10 :: (bl ++ 10 :: rest)) =
      (match handler w { Status := 0, Body := none }
          { Method := lib.asString (lib.TrimSpace (ml ++ [10])),
            Body := bodyOf (lib.TrimSpace (bl ++ [10])), ConnContext := ctx,
            RequestContext := Context.Background } with
       | .panic m =>
         { requests := [{ Method := lib.asString (lib.TrimSpace (ml ++ [10])),
                          Body := bodyOf (lib.TrimSpace (bl ++ [10])), ConnContext := ctx,
                          RequestContext := Context.Background }],
           written := [], ended := .panic m }
       | .timeout =>
         { requests := [{ Method := lib.asString (lib.TrimSpace (ml ++ [10])),
                          Body := bodyOf (lib.TrimSpace (bl ++ [10])), ConnContext := ctx,
                          RequestContext := Context.Background }],
           written := [], ended := .timeout }
       | .ret out =>
         match out.err with
         | some _ =>
           { requests := [{ Method := lib.asString (lib.TrimSpace (ml ++ [10])),
                            Body := bodyOf (lib.TrimSpace (bl ++ [10])), ConnContext := ctx,
                            RequestContext := Context.Background }],
             written := statusLine INTERNAL_SERVER_ERROR, ended := .ret () }
         | none =>
           { requests := { Method := lib.asString (lib.TrimSpace (ml ++ [10])),
                           Body := bodyOf (lib.TrimSpace (bl ++ [10])), ConnContext := ctx,
                           RequestContext := Context.Background } ::
               (serveLoop lib handler fuel out.world out.req.ConnContext rest).requests,
             written := statusLine out.resp.Status ++ (bodyBytes out.resp.Body ++ [10]) ++
               (serveLoop lib handler fuel out.world out.req.ConnContext rest).written,
             ended := (serveLoop lib handler fuel out.world out.req.ConnContext rest).ended }) := by
    intro fuel
    simp only [serveLoop, readLine_append ml _ hml, readLine_append bl _ hbl]
  have hlhs : serveFrom lib handler w ctx (ml ++ 10 :: (bl ++ 10 :: rest)) =
      serveLoop lib handler ((ml ++ 10 :: (bl ++ 10 :: rest)).length + 1) w ctx
        (ml ++ 10 :: (bl ++ 10 :: rest)) := rfl
  rw [hlhs, hstep]
  cases hh : handler w { Status := 0, Body := none }
      { Method := lib.asString (lib.TrimSpace (ml ++ [10])),
        Body := bodyOf (lib.TrimSpace (bl ++ [10])), ConnContext := ctx,
        RequestContext := Context.Background } with
  | panic m => rfl
  | timeout => rfl
  | ret out =>
    simp only []
    cases he : out.err with
    | some e => rfl
    | none =>
      simp only []
      have hrest : serveFrom lib handler out.world out.req.ConnContext rest =
          serveLoop lib handler (rest.length + 1) out.world out.req.ConnContext rest := rfl
      rw [hrest, serveLoop_fuel lib handler (ml ++ 10 :: (bl ++ 10 :: rest)).length
        (rest.length + 1) out.world out.req.ConnContext rest (by simp; omega) (by omega)]

theorem serveFrom_eof {ω : Type} (lib : TextLib) (handler : Handler ω Bytes) (w : ω)
    (ctx : Context) (input : Bytes) (h : 10 ∉ input) :
    serveFrom lib handler w ctx input = { requests := [], written := [], ended := .ret () } := by
  unfold serveFrom
  simp only [serveLoop, readLine_none input h]

theorem serveFrom_truncated_body {ω : Type} (lib : TextLib) (handler : Handler ω Bytes)
    (w : ω) (ctx : Context) (ml bl : Bytes) (hml : 10 ∉ ml) (hbl : 10 ∉ bl) :
    serveFrom lib handler w ctx (ml ++ 10 :: bl) =
      { requests := [], written := statusLine BAD_REQUEST, ended := .ret () } := by
  unfold serveFrom
  simp only [serveLoop, readLine_append ml _ hml, readLine_none bl hbl]

theorem asciiLib_sound : asciiLib.Sound := by
  constructor
  · intro l
    show ((l ++ [10]).rdropWhile asciiSpace).dropWhile asciiSpace =
      (l.rdropWhile asciiSpace).dropWhile asciiSpace
    rw [List.rdropWhile_concat_pos asciiSpace l 10 (by decide)]
  · rfl

/-- On an admitted connection whose downstream handler leaves the connection context as it
is, `serveConnection` with the middleware does on every input what it does with the
downstream handler alone: the same requests are served and the same bytes are written. -/
theorem serveLoop_admitted {ω : Type} (lib : TextLib) (h : ChallengeResponseHandler ω Bytes)
    (hnext : ∀ w resp req o, h.next w resp req = .ret o → o.req.ConnContext = req.ConnContext) :
    ∀ (fuel : Nat) (w : ω) (ctx : Context) (input : Bytes), Admitted ctx →
      serveLoop lib (fun w1 resp1 req1 => (h.ServeTCPPOW w1 resp1 req1).2) fuel w ctx input =
        serveLoop lib h.next fuel w ctx input := by
  intro fuel
  induction fuel with
  | zero => intro w ctx input _; rfl
  | succ f ih =>
    intro w ctx input hadm
    simp only [serveLoop]
    cases h1 : readLine input with
    | none => rfl
    | some p1 =>
      obtain ⟨methodLine, rest1⟩ := p1
      simp only []
      cases h2 : readLine rest1 with
      | none => rfl
      | some p2 =>
        obtain ⟨bodyLine, rest2⟩ := p2
        simp only []
        rw [ServeTCPPOW_admitted h w _ _ hadm]
        simp only []
        cases hn : h.next w { Status := 0, Body := none }
            { Method := lib.asString (lib.TrimSpace methodLine),
              Body := bodyOf (lib.TrimSpace bodyLine), ConnContext := ctx,
              RequestContext := Context.Background } with
        | panic m => rfl
        | timeout => rfl
        | ret out =>
          simp only []
          cases he : out.err with
          | some e => rfl
          | none =>
            simp only []
            rw [ih out.world out.req.ConnContext rest2 (by rw [hnext _ _ _ _ hn]; exact hadm)]

/-! ### The claims about the Mux and the connection loop -/

/-- C13. For a method that is not registered, `Mux.ServeTCPPOW` sets the status 405,
returns no error and invokes no handler. On an admitted connection whose downstream
handler is the Mux, a well-framed request with such a method is answered by the line
"Status 405" and an empty body line, and the loop goes on with the rest of the input in
the same connection state. -/
theorem C13_unknown_method_after_admission {ω : Type} (lib : TextLib) (m : Mux ω Bytes)
    (h : ChallengeResponseHandler ω Bytes) (w : ω) (resp : Response Bytes)
    (req : Request Bytes) (ctx : Context) (ml bl rest : Bytes)
    (hnext : h.next = fun w1 resp1 req1 => (m.ServeTCPPOW w1 resp1 req1).2)
    (hreq : Mux.lookup m.mux req.Method = none)
    (hml : 10 ∉ ml) (hbl : 10 ∉ bl)
    (hunk : Mux.lookup m.mux (lib.asString (lib.TrimSpace (ml ++ [10]))) = none)
    (hadm : Admitted ctx) :
    m.ServeTCPPOW w resp req =
      ([], .ret { world := w, resp := { resp with Status := 405 }, req := req,
                  err := none }) ∧
    serveFrom lib (fun w1 resp1 req1 => (h.ServeTCPPOW w1 resp1 req1).2) w ctx
        (ml ++ 10 :: (bl ++ 10 :: rest)) =
      { requests :=
          { Method := lib.asString (lib.TrimSpace (ml ++ [10])),
            Body := bodyOf (lib.TrimSpace (bl ++ [10])), ConnContext := ctx,
            RequestContext := Context.Background } ::
          (serveFrom lib (fun w1 resp1 req1 => (h.ServeTCPPOW w1 resp1 req1).2) w ctx
            rest).requests,
        written := stringBytes "Status 405\n" ++ [10] ++
          (serveFrom lib (fun w1 resp1 req1 => (h.ServeTCPPOW w1 resp1 req1).2) w ctx
            rest).written,
        ended :=
          (serveFrom lib (fun w1 resp1 req1 => (h.ServeTCPPOW w1 resp1 req1).2) w ctx
            rest).ended } := by
  constructor
  · simp only [Mux.ServeTCPPOW, hreq]
    rfl
  · have hh : (h.ServeTCPPOW w { Status := 0, Body := none }
        { Method := lib.asString (lib.TrimSpace (ml ++ [10])),
          Body := bodyOf (lib.TrimSpace (bl ++ [10])), ConnContext := ctx,
          RequestContext := Context.Background }).2 =
        .ret { world := w, resp := { Status := METHOD_NOT_ALLOWED, Body := none },
               req := { Method := lib.asString (lib.TrimSpace (ml ++ [10])),
                        Body := bodyOf (lib.TrimSpace (bl ++ [10])), ConnContext := ctx,
                        RequestContext := Context.Background },
               err := none } := by
      rw [ServeTCPPOW_admitted h w _ _ hadm]
      simp only [hnext, Mux.ServeTCPPOW, hunk]
    have h405 : statusLine METHOD_NOT_ALLOWED = stringBytes "Status 405\n" := by decide
    rw [serveFrom_frame lib _ w ctx ml bl rest hml hbl]
    simp only [hh, h405, bodyBytes, List.nil_append]

/-- Witness of C13: "get-wisdo" is not registered in `wisdomMux`; the request after it is
served. -/
theorem C13_unknown_method_after_admission_witness :
    wisdomMux.ServeTCPPOW () { Status := 0, Body := none }
        { Method := "get-wisdo", Body := none, ConnContext := admittedCtx,
          RequestContext := Context.Background } =
      ([], .ret { world := (), resp := { Status := 405, Body := none },
                  req := { Method := "get-wisdo", Body := none, ConnContext := admittedCtx,
                           RequestContext := Context.Background },
                  err := none }) ∧
    (serveFrom asciiLib (fun w1 resp1 req1 => (wisdomMiddleware.ServeTCPPOW w1 resp1 req1).2)
        () admittedCtx (stringBytes "get-wisdo\n\nget-wisdom\nabc\n")).written =
      stringBytes "Status 405\n\nStatus 200\nabc\n" := by
  have h := C13_unknown_method_after_admission asciiLib wisdomMux wisdomMiddleware ()
    { Status := 0, Body := none }
    { Method := "get-wisdo", Body := none, ConnContext := admittedCtx,
      RequestContext := Context.Background } admittedCtx (stringBytes "get-wisdo") []
    (stringBytes "get-wisdom\nabc\n") rfl rfl (by decide) (by decide) rfl
    (Value_withValue_access _ _)
  refine ⟨h.1, ?_⟩
  have h2 := congrArg ConnRun.written h.2
  have e : stringBytes "get-wisdo" ++ 10 :: ([] ++ 10 :: stringBytes "get-wisdom\nabc\n") =
      stringBytes "get-wisdo\n\nget-wisdom\nabc\n" := by decide
  rw [e] at h2
  rw [h2]
  decide

/-- C14. For a well-framed request the bytes written follow from the outcome of the
handler: with an error, exactly "Status 500\n" whatever the status in the response, and
the loop ends with this request; without an error, "Status " and the decimal status and
"\n", then the response body and one "\n", then what the rest of the input gives. -/
theorem C14_response_framing {ω : Type} (lib : TextLib) (handler : Handler ω Bytes) (w : ω)
    (ctx : Context) (ml bl rest : Bytes) (out : Served ω Bytes)
    (hml : 10 ∉ ml) (hbl : 10 ∉ bl)
    (hout : handler w { Status := 0, Body := none }
      { Method := lib.asString (lib.TrimSpace (ml ++ [10])),
        Body := bodyOf (lib.TrimSpace (bl ++ [10])), ConnContext := ctx,
        RequestContext := Context.Background } = .ret out) :
    (out.err ≠ none →
      (serveFrom lib handler w ctx (ml ++ 10 :: (bl ++ 10 :: rest))).written =
        stringBytes "Status 500\n" ∧
      (serveFrom lib handler w ctx (ml ++ 10 :: (bl ++ 10 :: rest))).requests.length = 1) ∧
    (out.err = none →
      (serveFrom lib handler w ctx (ml ++ 10 :: (bl ++ 10 :: rest))).written =
        stringBytes ("Status " ++ toString out.resp.Status ++ "\n") ++
          (bodyBytes out.resp.Body ++ [10]) ++
          (serveFrom lib handler out.world out.req.ConnContext rest).written) := by
  have h500 : statusLine INTERNAL_SERVER_ERROR = stringBytes "Status 500\n" := by decide
  rw [serveFrom_frame lib handler w ctx ml bl rest hml hbl]
  simp only [hout]
  constructor
  · intro he
    cases hc : out.err with
    | none => exact absurd hc he
    | some e => exact ⟨h500, rfl⟩
  · intro he
    simp only [he]
    rfl

/-- Witness of C14: a handler that fails, and one that answers. -/
theorem C14_response_framing_witness :
    (serveFrom asciiLib failingBytes () Context.Background
        (stringBytes "method\nabc\nmethod\nabc\n")).written = stringBytes "Status 500\n" ∧
    (serveFrom asciiLib echoBytes () Context.Background
        (stringBytes "method\nabc\n")).written = stringBytes "Status 200\nabc\n" := by
  have e : stringBytes "method" ++ 10 :: (stringBytes "abc" ++ 10 :: stringBytes "method\nabc\n") =
      stringBytes "method\nabc\nmethod\nabc\n" := by decide
  have e2 : stringBytes "method" ++ 10 :: (stringBytes "abc" ++ 10 :: []) =
      stringBytes "method\nabc\n" := by decide
  have h1 := (C14_response_framing asciiLib failingBytes () Context.Background
    (stringBytes "method") (stringBytes "abc") (stringBytes "method\nabc\n") _
    (by decide) (by decide) rfl).1 (by decide)
  have h2 := (C14_response_framing asciiLib echoBytes () Context.Background
    (stringBytes "method") (stringBytes "abc") [] _ (by decide) (by decide) rfl).2 rfl
  rw [e] at h1
  rw [e2] at h2
  refine ⟨h1.1, ?_⟩
  rw [h2]
  decide

/-- C15. For an input that is one method line, "\n", one body line, "\n", the handler
is called exactly once, with the method line trimmed as `Method` and the body line trimmed
as `Body` (`nil` for an empty body line); a method and a body that `TrimSpace` leaves as
they are reach the handler unchanged. -/
theorem C15_request_parsing {ω : Type} (lib : TextLib) (hlib : lib.Sound)
    (handler : Handler ω Bytes) (w : ω) (ml bl : Bytes) (hml : 10 ∉ ml) (hbl : 10 ∉ bl) :
    (serveConnectionBytes lib handler w (ml ++ 10 :: (bl ++ [10]))).requests =
      [{ Method := lib.asString (lib.TrimSpace ml), Body := bodyOf (lib.TrimSpace bl),
         ConnContext := Context.Background, RequestContext := Context.Background }] ∧
    (bl = [] → ∀ r, r ∈ (serveConnectionBytes lib handler w (ml ++ 10 :: (bl ++ [10]))).requests →
      r.Body = none) ∧
    (lib.TrimSpace ml = ml → lib.TrimSpace bl = bl → bl ≠ [] →
      (serveConnectionBytes lib handler w (ml ++ 10 :: (bl ++ [10]))).requests =
        [{ Method := lib.asString ml, Body := some bl,
           ConnContext := Context.Background, RequestContext := Context.Background }]) := by
  have hmain : (serveConnectionBytes lib handler w (ml ++ 10 :: (bl ++ [10]))).requests =
      [{ Method := lib.asString (lib.TrimSpace ml), Body := bodyOf (lib.TrimSpace bl),
         ConnContext := Context.Background, RequestContext := Context.Background }] := by
    have e : bl ++ [10] = bl ++ 10 :: [] := rfl
    unfold serveConnectionBytes
    rw [e, serveFrom_frame lib handler w Context.Background ml bl [] hml hbl,
      hlib.lineFeed, hlib.lineFeed]
    cases hh : handler w { Status := 0, Body := none }
        { Method := lib.asString (lib.TrimSpace ml), Body := bodyOf (lib.TrimSpace bl),
          ConnContext := Context.Background, RequestContext := Context.Background } with
    | panic m => rfl
    | timeout => rfl
    | ret out =>
      simp only []
      cases he : out.err with
      | some e => rfl
      | none =>
        simp only []
        rw [serveFrom_eof lib handler out.world out.req.ConnContext [] (by simp)]
  refine ⟨hmain, ?_, ?_⟩
  · intro hb r hr
    rw [hmain, hb, hlib.empty] at hr
    simp only [List.mem_singleton] at hr
    rw [hr]
    rfl
  · intro h1 h2 h3
    rw [hmain, h1, h2]
    simp [bodyOf, h3]

/-- Witness of C15: the third case of the test, with its line feed at the end. -/
theorem C15_request_parsing_witness :
    (serveConnectionBytes asciiLib echoBytes ()
        (stringBytes "some-method" ++ 10 :: (stringBytes "someMethodBody" ++ [10]))).requests =
      [{ Method := "some-method", Body := some (stringBytes "someMethodBody"),
         ConnContext := Context.Background, RequestContext := Context.Background }] := by
  have h := (C15_request_parsing asciiLib asciiLib_sound echoBytes ()
    (stringBytes "some-method") (stringBytes "someMethodBody") (by decide) (by decide)).2.2
    (by decide) (by decide) (by decide)
  rw [h]
  decide

/-- The two ways a stream can end inside a frame. When it ends inside the body line (after
a whole method line, the body line having no "\n", possibly no byte), "Status 400\n" is
written, the handler is not called and the loop ends. When it ends while the method line is
read, at a frame boundary or after some bytes of it, the loop ends with nothing written. -/
theorem serveFrom_truncated {ω : Type} (lib : TextLib) (handler : Handler ω Bytes) (w : ω)
    (ctx : Context) (ml bl : Bytes) (hml : 10 ∉ ml) (hbl : 10 ∉ bl) :
    serveFrom lib handler w ctx (ml ++ 10 :: bl) =
      { requests := [], written := stringBytes "Status 400\n", ended := .ret () } ∧
    serveFrom lib handler w ctx ml = { requests := [], written := [], ended := .ret () } := by
  have h400 : statusLine BAD_REQUEST = stringBytes "Status 400\n" := by decide
  rw [serveFrom_truncated_body lib handler w ctx ml bl hml hbl, h400,
    serveFrom_eof lib handler w ctx ml hml]
  exact ⟨rfl, rfl⟩

/-- C16 fails on the code. A stream that ends inside the method line "get" (three bytes,
no "\n") makes `serveConnection` return with nothing written, where the claim requires
"Status 400\n"; the same truncation one line later, inside the body line, is answered
with "Status 400\n". The read of the method line returns `io.EOF` together with the bytes
read so far, and the test `err == io.EOF` that is meant for the end of the stream at a
frame boundary takes the truncated line for it. -/
theorem C16_truncated_method_line_is_silent :
    10 ∉ stringBytes "get" ∧
    serveConnectionBytes asciiLib echoBytes () (stringBytes "get") =
      { requests := [], written := [], ended := .ret () } ∧
    serveConnectionBytes asciiLib echoBytes () (stringBytes "get" ++ 10 :: stringBytes "abc") =
      { requests := [], written := stringBytes "Status 400\n", ended := .ret () } ∧
    stringBytes "Status 400\n" ≠ [] := by
  decide

/-! ### Serialization -/

/-- C18. For a tree `T` built by `New` over `TreeContent` leaves and a gob codec that
decodes what it encodes: encoding `T` and decoding the bytes into the empty tree that
`NewEmptyTree` makes for the same algorithm gives a tree with the `K`, the leaves and the
node hashes of `T`, on which `VerifyContent` returns what it returns on `T` for every
original leaf. -/
theorem C18_gob_round_trip {β : Type} (hs : Hashers) (codec : Codec β) (hlaw : codec.Lawful)
    (leafs : List TreeContent) (name : String) (t : MerkleTree TreeContent)
    (hnew : New hs (treeContentOps hs) leafs name = .ret (.ok t)) :
    ∃ b g newTree, codec.gobEncode t.toGob = .ok b ∧ codec.gobDecode b = .ok g ∧
      (NewEmptyTree name : Except String (MerkleTree TreeContent)) = .ok newTree ∧
      (decodeInto newTree g).K = t.K ∧ (decodeInto newTree g).Leafs = t.Leafs ∧
      (decodeInto newTree g).Nodes = t.Nodes ∧
      ∀ c, c ∈ leafs →
        VerifyContent hs (treeContentOps hs) (decodeInto newTree g) c =
          VerifyContent hs (treeContentOps hs) t c := by
  obtain ⟨hK, hf, hhf, hb⟩ := New_ok_inv hs (treeContentOps hs) leafs name t hnew
  obtain ⟨b, hb1, hb2⟩ := hlaw.gob t.toGob
  have h3 : 3 ≤ leafs.length := (findK_ge_two_iff _).1 hK
  have hdec := decodeInto_built hs leafs hf hf name name t hb h3 hhf
  have hself : withStrategy t hf = t := by
    rw [← hb.hfn]; exact withStrategy_self t
  rw [hself] at hdec
  refine ⟨b, t.toGob, _, hb1, hb2, hashFnOfName_some name hf hhf, ?_, ?_, ?_, ?_⟩
  · rw [hdec]
  · rw [hdec]
  · rw [hdec]
  · intro c _
    rw [hdec]

/-- Witness of C18: the tree over `issuedData` under "sha512" and the symbolic codec. -/
theorem C18_gob_round_trip_witness :
    New toyHashers (treeContentOps toyHashers) issuedData "sha512" = .ret (.ok solvedTree) ∧
    ∃ b g newTree, wireCodec.gobEncode solvedTree.toGob = .ok b ∧
      wireCodec.gobDecode b = .ok g ∧
      (NewEmptyTree "sha512" : Except String (MerkleTree TreeContent)) = .ok newTree ∧
      (decodeInto newTree g).K = solvedTree.K ∧
      (decodeInto newTree g).Leafs = solvedTree.Leafs ∧
      (decodeInto newTree g).Nodes = solvedTree.Nodes ∧
      ∀ c, c ∈ issuedData →
        VerifyContent toyHashers (treeContentOps toyHashers) (decodeInto newTree g) c =
          VerifyContent toyHashers (treeContentOps toyHashers) solvedTree c :=
  ⟨by decide,
   C18_gob_round_trip toyHashers wireCodec wireCodec_lawful issuedData "sha512" solvedTree
     (by decide)⟩

end TcpPow
